import Mathlib

/-!
# Gradia: gradient generator (`gradia/graphics/gradient_gen.c`)

A shallow embedding of `interpolate_color` and `generate_gradient`.

Modelling conventions.

* A finite `double` is a rational (`ℚ`).  A division whose divisor is zero
  leaves the finite doubles, so it is modelled as `none`.
* The code is embedded twice.  The definitions named as the C functions
  (`interpolate_color`, `generate_gradient`, ...) carry out the four arithmetic
  operations exactly.  The definitions with the suffix `_fl` round the result of
  every operation with a parameter `fl`; `binary64` is the rounding to the
  nearest double, ties to even, and the exact definitions are the instance
  `fl = id`.  The sections headed *Binary64 arithmetic* are about the `_fl`
  definitions.  An operation whose result would exceed the largest double is
  outside the model: the claims stated about the `_fl` definitions bound the
  inputs so that none occurs.
* `uint8_t` is `Fin 256`.  The conversion `(uint8_t)(double)` truncates toward
  zero; C leaves it undefined when the truncated value is not in `0..255`, and
  the model returns `none` there.
* `int` is a 32 bit signed integer.  Signed overflow is undefined in C, and the
  model returns `none` there.  An access outside the array it indexes is
  `none` as well.
* `cos`, `sin`, `sqrt`, `atan2` come from the C library; the model takes them
  as a parameter (`Libm`).  `M_PI` is the `double` constant of `math.h`.
-/

namespace Gradia

/-- A `uint8_t`. -/
abbrev Byte := Fin 256

/-- The struct `ColorStop` (lines 4-7). -/
structure ColorStop where
  position : ℚ
  r : Byte
  g : Byte
  b : Byte

/-- The functions of `math.h` the program calls, with the three facts about
them that hold in every C library (C11 Annex F: `cos(0)` is `1`, `sin(0)` is
`0`; IEEE 754 `sqrt` is correctly rounded, so it is positive on a positive
argument). -/
structure Libm where
  cos : ℚ → ℚ
  sin : ℚ → ℚ
  sqrt : ℚ → ℚ
  atan2 : ℚ → ℚ → ℚ
  cos_zero : cos 0 = 1
  sin_zero : sin 0 = 0
  sqrt_pos : ∀ q : ℚ, 0 < q → 0 < sqrt q

/-- The constant `M_PI` of `math.h`: the double `0x400921FB54442D18`. -/
def M_PI : ℚ := 884279719003555 / 281474976710656

/-- Largest value of a C `int`. -/
def INT_MAX : Int := 2147483647

/-- Smallest value of a C `int`. -/
def INT_MIN : Int := -2147483648

/-- The result of an `int` operation: undefined (`none`) when it does not fit. -/
def int_checked (z : Int) : Option Int :=
  if INT_MIN ≤ z ∧ z ≤ INT_MAX then some z else none

/-- Division of doubles; a zero divisor leaves the finite doubles (`none`). -/
def fdiv (a b : ℚ) : Option ℚ :=
  if b = 0 then none else some (a / b)

/-- Truncation toward zero, the integral part a C conversion keeps. -/
def trunc (q : ℚ) : Int :=
  if 0 ≤ q then ⌊q⌋ else ⌈q⌉

/-- The conversion `(uint8_t)(q)`: defined when the integral part is in `0..255`. -/
def to_uint8 (q : ℚ) : Option Byte :=
  if h : 0 ≤ trunc q ∧ trunc q < 256 then
    some ⟨(trunc q).toNat, by omega⟩
  else none

/-- One channel of lines 19-21: `(uint8_t)(c0 + (c1 - c0) * ratio)`, where the
bytes are promoted to `int` before the subtraction. -/
def lerp_channel (c0 c1 : Byte) (ratio : ℚ) : Option Byte :=
  to_uint8 (((c0.val : Int) : ℚ) + (((c1.val : Int) - (c0.val : Int) : Int) : ℚ) * ratio)

/-- The body of the `if` at lines 18-22, between `sp = stops[i-1]` and
`si = stops[i]`. -/
def interpolate_segment (t : ℚ) (sp si : ColorStop) : Option (Byte × Byte × Byte) := do
  let ratio ← fdiv (t - sp.position) (si.position - sp.position)
  let r ← lerp_channel sp.r si.r ratio
  let g ← lerp_channel sp.g si.g ratio
  let b ← lerp_channel sp.b si.b ratio
  some (r, g, b)

/-- The `for` loop of lines 16-24 followed by lines 26-28.  The first argument
counts the iterations left (`num_stops - i`), the second is `i`. -/
def interpolate_color_loop (t : ℚ) (stops : List ColorStop) :
    Nat → Nat → Option (Byte × Byte × Byte)
  | 0, _ => do
    let sl ← stops[stops.length - 1]?
    some (sl.r, sl.g, sl.b)
  | k + 1, i => do
    let si ← stops[i]?
    if t ≤ si.position then
      let sp ← stops[i - 1]?
      interpolate_segment t sp si
    else
      interpolate_color_loop t stops k (i + 1)

/-- The function `interpolate_color` (lines 9-29); `num_stops` is the length of
`stops`, and the three out parameters are the returned triple. -/
def interpolate_color (t : ℚ) (stops : List ColorStop) : Option (Byte × Byte × Byte) := do
  let s0 ← stops[0]?
  if t ≤ s0.position then
    some (s0.r, s0.g, s0.b)
  else
    interpolate_color_loop t stops (stops.length - 1) 1

/-- The values `generate_gradient` computes before its pixel loop (lines 36-60). -/
structure Setup where
  cos_angle : ℚ
  sin_angle : ℚ
  min_coord : ℚ
  range : ℚ
  cx : ℚ
  cy : ℚ
  max_radius : ℚ

/-- One iteration of the loop at lines 49-52 on the pair `(min_coord, max_coord)`. -/
def min_max_step (acc : ℚ × ℚ) (c : ℚ) : ℚ × ℚ :=
  (if c < acc.1 then c else acc.1, if c > acc.2 then c else acc.2)

/-- Lines 39-53: `(min_coord, max_coord)`, the extremes of the four corner
projections in linear mode and `(0, 1)` otherwise. -/
def coord_bounds (cos_angle sin_angle : ℚ) (width height mode : Int) : Option (ℚ × ℚ) :=
  if mode = 0 then do
    let wm1 ← int_checked (width - 1)
    let hm1 ← int_checked (height - 1)
    let c0 : ℚ := 0 * cos_angle + 0 * sin_angle
    let c1 : ℚ := (wm1 : ℚ) * cos_angle + 0 * sin_angle
    let c2 : ℚ := 0 * cos_angle + (hm1 : ℚ) * sin_angle
    let c3 : ℚ := (wm1 : ℚ) * cos_angle + (hm1 : ℚ) * sin_angle
    some ([c1, c2, c3].foldl min_max_step (c0, c0))
  else some (0, 1)

/-- Lines 36-60. -/
def setup (m : Libm) (width height : Int) (angle : ℚ) (mode : Int) : Option Setup := do
  let cos_angle := m.cos (angle * M_PI / 180)
  let sin_angle := m.sin (angle * M_PI / 180)
  let mm ← coord_bounds cos_angle sin_angle width height mode
  let range0 := mm.2 - mm.1
  let range := if range0 = 0 then 1 else range0
  let cx : ℚ := (width : ℚ) / 2
  let cy : ℚ := (height : ℚ) / 2
  some ⟨cos_angle, sin_angle, mm.1, range, cx, cy, m.sqrt (cx * cx + cy * cy)⟩

/-- Lines 66-80: the parameter `t` of pixel `(x, y)` before it is clamped. -/
def pixel_t (m : Libm) (s : Setup) (mode : Int) (x y : Int) : Option ℚ :=
  if mode = 0 then
    let coord : ℚ := (x : ℚ) * s.cos_angle + (y : ℚ) * s.sin_angle
    fdiv (coord - s.min_coord) s.range
  else if mode = 1 then
    let dx : ℚ := (x : ℚ) - s.cx
    let dy : ℚ := (y : ℚ) - s.cy
    fdiv (m.atan2 dy dx + M_PI) (2 * M_PI)
  else
    let dx : ℚ := (x : ℚ) - s.cx
    let dy : ℚ := (y : ℚ) - s.cy
    let dist := m.sqrt (dx * dx + dy * dy)
    fdiv dist s.max_radius

/-- Lines 82-83. -/
def clamp01 (t : ℚ) : ℚ :=
  let t1 := if t < 0 then 0 else t
  if t1 > 1 then 1 else t1

/-- The assignment `pixels[idx] = v`; `pixels` points at the first byte of the
buffer, and a store outside the buffer is undefined. -/
def store (pixels : List Byte) (idx : Int) (v : Byte) : Option (List Byte) :=
  if 0 ≤ idx ∧ idx < pixels.length then some (pixels.set idx.toNat v) else none

/-- Lines 64-86: the colour computed for the pixel `(x, y)`. -/
def pixel_color (m : Libm) (s : Setup) (stops : List ColorStop) (mode : Int) (x y : Int) :
    Option (Byte × Byte × Byte) := do
  let t ← pixel_t m s mode x y
  interpolate_color (clamp01 t) stops

/-- The body of the inner loop (lines 64-92) for the pixel `(x, y)`. -/
def pixel_body (m : Libm) (s : Setup) (stops : List ColorStop) (mode width : Int)
    (y x : Int) (pixels : List Byte) : Option (List Byte) := do
  let rgb ← pixel_color m s stops mode x y
  let yw ← int_checked (y * width)
  let p ← int_checked (yw + x)
  let idx ← int_checked (p * 4)
  let pixels ← store pixels idx rgb.1
  let idx1 ← int_checked (idx + 1)
  let pixels ← store pixels idx1 rgb.2.1
  let idx2 ← int_checked (idx + 2)
  let pixels ← store pixels idx2 rgb.2.2
  let idx3 ← int_checked (idx + 3)
  store pixels idx3 255

/-- A loop `for (int i = i0; i < n; i++) body`: the first argument counts the
iterations left (`n - i`), the second is `i`. -/
def for_loop {σ : Type} (body : Int → σ → Option σ) : Nat → Int → σ → Option σ
  | 0, _, s => some s
  | k + 1, i, s => do
    let s1 ← body i s
    for_loop body k (i + 1) s1

/-- The function `generate_gradient` (lines 31-95); it returns the buffer after
the call. -/
def generate_gradient (m : Libm) (pixels : List Byte) (width height : Int)
    (stops : List ColorStop) (angle : ℚ) (mode : Int) : Option (List Byte) := do
  let s ← setup m width height angle mode
  for_loop
    (fun y px => for_loop (fun x px1 => pixel_body m s stops mode width y x px1) width.toNat 0 px)
    height.toNat 0 pixels

/-- The colour of the pixel number `p` of an image of width `w`, the pixel
`(p % w, p / w)`; black stands for a colour that is not defined. -/
def image_color (m : Libm) (s : Setup) (stops : List ColorStop) (mode : Int) (w p : Nat) :
    Byte × Byte × Byte :=
  (pixel_color m s stops mode ((p % w : Nat) : Int) ((p / w : Nat) : Int)).getD (0, 0, 0)

/-- The buffer after the four stores of lines 89-92 for the pixel number `p`
(that is `y * width + x`) of colour `c`. -/
def put_pixel (pixels : List Byte) (p : Nat) (c : Byte × Byte × Byte) : List Byte :=
  (((pixels.set (p * 4) c.1).set (p * 4 + 1) c.2.1).set (p * 4 + 2) c.2.2).set (p * 4 + 3) 255

/-- The state of the buffer `buf` once the pixels numbered below `n` are written
with the colours `col` and the rest is as in `orig`. -/
def Painted (col : Nat → Byte × Byte × Byte) (orig buf : List Byte) (n : Nat) : Prop :=
  buf.length = orig.length ∧
  (∀ p : Nat, p < n →
    buf[p * 4]? = some (col p).1 ∧ buf[p * 4 + 1]? = some (col p).2.1 ∧
    buf[p * 4 + 2]? = some (col p).2.2 ∧ buf[p * 4 + 3]? = some 255) ∧
  (∀ j : Nat, n * 4 ≤ j → buf[j]? = orig[j]?)

/-- The spec's words (4.2): the least of the projections `x*cos_a + y*sin_a` of
the four corner pixels `(0,0)`, `(w-1,0)`, `(0,h-1)`, `(w-1,h-1)`. -/
def corner_min (cos_a sin_a : ℚ) (w h : Nat) : ℚ :=
  min (min (0 * cos_a + 0 * sin_a) (((w : ℚ) - 1) * cos_a + 0 * sin_a))
    (min (0 * cos_a + ((h : ℚ) - 1) * sin_a) (((w : ℚ) - 1) * cos_a + ((h : ℚ) - 1) * sin_a))

/-- The spec's words (4.2): the greatest of the projections of the four corner
pixels. -/
def corner_max (cos_a sin_a : ℚ) (w h : Nat) : ℚ :=
  max (max (0 * cos_a + 0 * sin_a) (((w : ℚ) - 1) * cos_a + 0 * sin_a))
    (max (0 * cos_a + ((h : ℚ) - 1) * sin_a) (((w : ℚ) - 1) * cos_a + ((h : ℚ) - 1) * sin_a))

/-- The index `i` at which the loop of lines 16-24 takes the branch of line 17,
and so evaluates the ratio of line 18; `none` when the loop ends without taking
it.  The arguments are those of `interpolate_color_loop`. -/
def ratio_index_loop (t : ℚ) (stops : List ColorStop) : Nat → Nat → Option Nat
  | 0, _ => none
  | k + 1, i => do
    let si ← stops[i]?
    if t ≤ si.position then
      some i
    else
      ratio_index_loop t stops k (i + 1)

/-- The index at which a call `interpolate_color(t, stops, ...)` evaluates the
ratio of line 18; `none` when the call returns at lines 10-15 or 26-28. -/
def ratio_index (t : ℚ) (stops : List ColorStop) : Option Nat := do
  let s0 ← stops[0]?
  if t ≤ s0.position then
    none
  else
    ratio_index_loop t stops (stops.length - 1) 1

/-- The precondition of `interpolate_color`: the positions are in non-decreasing
order. -/
def sorted_stops (stops : List ColorStop) : Prop :=
  stops.Pairwise (fun a b => a.position ≤ b.position)

instance (stops : List ColorStop) : Decidable (sorted_stops stops) := by
  unfold sorted_stops
  infer_instance

/-! ### The same code with every `double` operation rounded

The definitions below, with the suffix `_fl`, repeat the code with the result of
every addition, subtraction, multiplication and division of doubles rounded to
binary64 by the parameter `fl` (no fused multiply-add, no excess precision).
The conversions from `int` and the constants are exact.  The definitions above
are the instance of these at `fl = id`. -/

/-- The facts about rounding to nearest in binary64 that the proofs use: it is
monotone; a value `z / 2^k` with `|z| <= 2^53` and `k <= 1022` is a double, so it
rounds to itself; the difference of two distinct doubles does not round to zero
(gradual underflow).  Magnitudes beyond the largest double are outside the
model. -/
def is_rounding (fl : ℚ → ℚ) : Prop :=
  (∀ a b : ℚ, a ≤ b → fl a ≤ fl b) ∧
  (∀ (z : Int) (k : Nat), |z| ≤ 2 ^ 53 → k ≤ 1022 →
    fl ((z : ℚ) / 2 ^ k) = (z : ℚ) / 2 ^ k) ∧
  (∀ a b : ℚ, fl a = a → fl b = b → a < b → 0 < fl (b - a))

/-- One channel of lines 19-21 in binary64: the product `(c1 - c0) * ratio` is
rounded, then the sum with `c0` is rounded, then the conversion truncates. -/
def lerp_channel_fl (fl : ℚ → ℚ) (c0 c1 : Byte) (ratio : ℚ) : Option Byte :=
  to_uint8 (fl (((c0.val : Int) : ℚ)
    + fl ((((c1.val : Int) - (c0.val : Int) : Int) : ℚ) * ratio)))

/-- The body of the `if` at lines 18-22 in binary64: both differences and the
quotient of line 18 are rounded. -/
def interpolate_segment_fl (fl : ℚ → ℚ) (t : ℚ) (sp si : ColorStop) :
    Option (Byte × Byte × Byte) := do
  let q ← fdiv (fl (t - sp.position)) (fl (si.position - sp.position))
  let ratio := fl q
  let r ← lerp_channel_fl fl sp.r si.r ratio
  let g ← lerp_channel_fl fl sp.g si.g ratio
  let b ← lerp_channel_fl fl sp.b si.b ratio
  some (r, g, b)

/-- The loop of lines 16-24 followed by lines 26-28, as `interpolate_color_loop`. -/
def interpolate_color_loop_fl (fl : ℚ → ℚ) (t : ℚ) (stops : List ColorStop) :
    Nat → Nat → Option (Byte × Byte × Byte)
  | 0, _ => do
    let sl ← stops[stops.length - 1]?
    some (sl.r, sl.g, sl.b)
  | k + 1, i => do
    let si ← stops[i]?
    if t ≤ si.position then
      let sp ← stops[i - 1]?
      interpolate_segment_fl fl t sp si
    else
      interpolate_color_loop_fl fl t stops k (i + 1)

/-- The function `interpolate_color` (lines 9-29) in binary64. -/
def interpolate_color_fl (fl : ℚ → ℚ) (t : ℚ) (stops : List ColorStop) :
    Option (Byte × Byte × Byte) := do
  let s0 ← stops[0]?
  if t ≤ s0.position then
    some (s0.r, s0.g, s0.b)
  else
    interpolate_color_loop_fl fl t stops (stops.length - 1) 1

/-- Lines 39-53 in binary64: each corner is a rounded sum of two rounded
products. -/
def coord_bounds_fl (fl : ℚ → ℚ) (cos_angle sin_angle : ℚ) (width height mode : Int) :
    Option (ℚ × ℚ) :=
  if mode = 0 then do
    let wm1 ← int_checked (width - 1)
    let hm1 ← int_checked (height - 1)
    let c0 : ℚ := fl (fl (0 * cos_angle) + fl (0 * sin_angle))
    let c1 : ℚ := fl (fl ((wm1 : ℚ) * cos_angle) + fl (0 * sin_angle))
    let c2 : ℚ := fl (fl (0 * cos_angle) + fl ((hm1 : ℚ) * sin_angle))
    let c3 : ℚ := fl (fl ((wm1 : ℚ) * cos_angle) + fl ((hm1 : ℚ) * sin_angle))
    some ([c1, c2, c3].foldl min_max_step (c0, c0))
  else some (0, 1)

/-- Lines 36-60 in binary64. -/
def setup_fl (fl : ℚ → ℚ) (m : Libm) (width height : Int) (angle : ℚ) (mode : Int) :
    Option Setup := do
  let cos_angle := m.cos (fl (fl (angle * M_PI) / 180))
  let sin_angle := m.sin (fl (fl (angle * M_PI) / 180))
  let mm ← coord_bounds_fl fl cos_angle sin_angle width height mode
  let range0 := fl (mm.2 - mm.1)
  let range := if range0 = 0 then 1 else range0
  let cx : ℚ := fl ((width : ℚ) / 2)
  let cy : ℚ := fl ((height : ℚ) / 2)
  some ⟨cos_angle, sin_angle, mm.1, range, cx, cy, m.sqrt (fl (fl (cx * cx) + fl (cy * cy)))⟩

/-- Lines 66-80 in binary64: the parameter `t` of pixel `(x, y)` before it is
clamped. -/
def pixel_t_fl (fl : ℚ → ℚ) (m : Libm) (s : Setup) (mode : Int) (x y : Int) : Option ℚ :=
  if mode = 0 then
    let coord : ℚ := fl (fl ((x : ℚ) * s.cos_angle) + fl ((y : ℚ) * s.sin_angle))
    (fdiv (fl (coord - s.min_coord)) s.range).map fl
  else if mode = 1 then
    let dx : ℚ := fl ((x : ℚ) - s.cx)
    let dy : ℚ := fl ((y : ℚ) - s.cy)
    (fdiv (fl (m.atan2 dy dx + M_PI)) (fl (2 * M_PI))).map fl
  else
    let dx : ℚ := fl ((x : ℚ) - s.cx)
    let dy : ℚ := fl ((y : ℚ) - s.cy)
    let dist := m.sqrt (fl (fl (dx * dx) + fl (dy * dy)))
    (fdiv dist s.max_radius).map fl

/-- Lines 64-86 in binary64: the colour computed for the pixel `(x, y)`. -/
def pixel_color_fl (fl : ℚ → ℚ) (m : Libm) (s : Setup) (stops : List ColorStop) (mode : Int)
    (x y : Int) : Option (Byte × Byte × Byte) := do
  let t ← pixel_t_fl fl m s mode x y
  interpolate_color_fl fl (clamp01 t) stops

/-- The body of the inner loop (lines 64-92) in binary64; the offsets and the
stores are those of `pixel_body`. -/
def pixel_body_fl (fl : ℚ → ℚ) (m : Libm) (s : Setup) (stops : List ColorStop)
    (mode width : Int) (y x : Int) (pixels : List Byte) : Option (List Byte) := do
  let rgb ← pixel_color_fl fl m s stops mode x y
  let yw ← int_checked (y * width)
  let p ← int_checked (yw + x)
  let idx ← int_checked (p * 4)
  let pixels ← store pixels idx rgb.1
  let idx1 ← int_checked (idx + 1)
  let pixels ← store pixels idx1 rgb.2.1
  let idx2 ← int_checked (idx + 2)
  let pixels ← store pixels idx2 rgb.2.2
  let idx3 ← int_checked (idx + 3)
  store pixels idx3 255

/-- The function `generate_gradient` (lines 31-95) in binary64. -/
def generate_gradient_fl (fl : ℚ → ℚ) (m : Libm) (pixels : List Byte) (width height : Int)
    (stops : List ColorStop) (angle : ℚ) (mode : Int) : Option (List Byte) := do
  let s ← setup_fl fl m width height angle mode
  for_loop
    (fun y px => for_loop
      (fun x px1 => pixel_body_fl fl m s stops mode width y x px1) width.toNat 0 px)
    height.toNat 0 pixels

/-- The colour of the pixel number `p` of an image of width `w` in binary64, as
`image_color`. -/
def image_color_fl (fl : ℚ → ℚ) (m : Libm) (s : Setup) (stops : List ColorStop) (mode : Int)
    (w p : Nat) : Byte × Byte × Byte :=
  (pixel_color_fl fl m s stops mode ((p % w : Nat) : Int) ((p / w : Nat) : Int)).getD (0, 0, 0)

/-- Two to the power `e`, for an integer `e`. -/
def pow2 (e : Int) : ℚ :=
  if 0 ≤ e then ((2 ^ e.toNat : Nat) : ℚ) else 1 / ((2 ^ (-e).toNat : Nat) : ℚ)

/-- The integer part of the binary logarithm of `n`, by halving at most `fuel`
times. -/
def log2_aux : Nat → Nat → Nat
  | 0, _ => 0
  | fuel + 1, n => if 2 ≤ n then log2_aux fuel (n / 2) + 1 else 0

/-- The integer part of the binary logarithm of `|q|`, for `q` not zero: the
`e` with `2^e <= |q| < 2^(e+1)`. -/
def ilog2 (q : ℚ) : Int :=
  let e0 : Int := (log2_aux q.num.natAbs q.num.natAbs : Int) - (log2_aux q.den q.den : Int)
  if pow2 e0 ≤ |q| then e0 else e0 - 1

/-- Rounding of a rational to the nearest integer, ties to the even one. -/
def round_half_even (x : ℚ) : Int :=
  if x - (⌊x⌋ : ℚ) < 1 / 2 then ⌊x⌋
  else if 1 / 2 < x - (⌊x⌋ : ℚ) then ⌊x⌋ + 1
  else if ⌊x⌋ % 2 = 0 then ⌊x⌋ else ⌊x⌋ + 1

/-- Rounding of a positive rational to 53 significant bits, ties to even, with
the unit in the last place never below `2^-1074`. -/
def binary64_pos (q : ℚ) : ℚ :=
  (round_half_even (q / pow2 (max (ilog2 q) (-1022) - 52)) : ℚ)
    * pow2 (max (ilog2 q) (-1022) - 52)

/-- Rounding to the nearest binary64 value, ties to even: 53 bits of precision,
least exponent `-1022` with gradual underflow, and no overflow (a magnitude
beyond the largest double is rounded to 53 bits like any other). -/
def binary64 (q : ℚ) : ℚ :=
  if q = 0 then 0 else if 0 < q then binary64_pos q else -binary64_pos (-q)

/-- A crude rational stand-in for the C library, used to run the program on
concrete inputs. -/
def libm_approx : Libm where
  cos := fun q => 1 - q * q / 2
  sin := fun q => q - q * q * q / 6
  sqrt := fun q => if q ≤ 0 then 0 else (q + 1) / 2
  atan2 := fun y x =>
    if y = 0 then (if x < 0 then M_PI else 0)
    else if 0 < y then M_PI / 2 else -(M_PI / 2)
  cos_zero := by norm_num
  sin_zero := by norm_num
  sqrt_pos := by
    intro q hq
    show 0 < (if q ≤ 0 then 0 else (q + 1) / 2)
    rw [if_neg (not_le.mpr hq)]
    linarith

/-! ## Conversions and one interpolated channel -/

theorem trunc_of_nonneg {q : ℚ} (h : 0 ≤ q) : trunc q = ⌊q⌋ := by
  simp [trunc, h]

theorem trunc_intCast (z : Int) : trunc (z : ℚ) = z := by
  unfold trunc
  split <;> simp

theorem trunc_mono {a b : ℚ} (h : a ≤ b) : trunc a ≤ trunc b := by
  unfold trunc
  split_ifs with ha hb hb
  · exact Int.floor_le_floor h
  · exact absurd (ha.trans h) hb
  · have h1 : ⌈a⌉ ≤ 0 := Int.ceil_le.mpr (by push_cast; linarith)
    have h2 : (0 : Int) ≤ ⌊b⌋ := Int.floor_nonneg.mpr hb
    omega
  · exact Int.ceil_le_ceil h

theorem to_uint8_of_bounds {q : ℚ} (h0 : 0 ≤ q) (h1 : q < 256) :
    ∃ v : Byte, to_uint8 q = some v ∧ (v.val : Int) = trunc q := by
  have ht : 0 ≤ trunc q ∧ trunc q < 256 := by
    rw [trunc_of_nonneg h0]
    refine ⟨Int.floor_nonneg.mpr h0, ?_⟩
    have : ⌊q⌋ < ((256 : Int)) := Int.floor_lt.mpr (by exact_mod_cast h1)
    exact this
  refine ⟨⟨(trunc q).toNat, by omega⟩, ?_, ?_⟩
  · simp [to_uint8, ht]
  · simp [Int.toNat_of_nonneg ht.1]

/-- The double that line 19 converts: `c0 + (c1 - c0) * ratio`. -/
theorem lerp_value_bounds (c0 c1 : Byte) {ratio : ℚ} (h0 : 0 ≤ ratio) (h1 : ratio ≤ 1) :
    let v : ℚ := ((c0.val : Int) : ℚ) + (((c1.val : Int) - (c0.val : Int) : Int) : ℚ) * ratio
    ((min c0.val c1.val : Nat) : ℚ) ≤ v ∧ v ≤ ((max c0.val c1.val : Nat) : ℚ) := by
  intro v
  have e : v = (c0.val : ℚ) + ((c1.val : ℚ) - (c0.val : ℚ)) * ratio := by
    simp only [v]; push_cast; ring
  rw [e]
  rcases le_total c0.val c1.val with h | h
  · have hq : (c0.val : ℚ) ≤ (c1.val : ℚ) := by exact_mod_cast h
    rw [min_eq_left h, max_eq_right h]
    constructor <;> nlinarith
  · have hq : (c1.val : ℚ) ≤ (c0.val : ℚ) := by exact_mod_cast h
    rw [min_eq_right h, max_eq_left h]
    constructor <;> nlinarith

theorem lerp_channel_spec (c0 c1 : Byte) {ratio : ℚ} (h0 : 0 ≤ ratio) (h1 : ratio ≤ 1) :
    ∃ v : Byte, lerp_channel c0 c1 ratio = some v ∧
      (v.val : Int) = trunc (((c0.val : Int) : ℚ)
        + (((c1.val : Int) - (c0.val : Int) : Int) : ℚ) * ratio) ∧
      min c0.val c1.val ≤ v.val ∧ v.val ≤ max c0.val c1.val := by
  have hb := lerp_value_bounds c0 c1 h0 h1
  simp only at hb
  have hmax : max c0.val c1.val < 256 := max_lt c0.isLt c1.isLt
  have hlo : (0 : ℚ) ≤ ((c0.val : Int) : ℚ) + (((c1.val : Int) - (c0.val : Int) : Int) : ℚ) * ratio :=
    le_trans (by positivity) hb.1
  have hhi : ((c0.val : Int) : ℚ) + (((c1.val : Int) - (c0.val : Int) : Int) : ℚ) * ratio < 256 :=
    lt_of_le_of_lt hb.2 (by exact_mod_cast hmax)
  obtain ⟨v, hv, hvt⟩ := to_uint8_of_bounds hlo hhi
  refine ⟨v, hv, hvt, ?_, ?_⟩
  · have h1 := trunc_mono hb.1
    rw [← hvt] at h1
    have h2 : trunc ((min c0.val c1.val : Nat) : ℚ) = ((min c0.val c1.val : Nat) : Int) := by
      have := trunc_intCast ((min c0.val c1.val : Nat) : Int)
      simpa using this
    rw [h2] at h1
    exact_mod_cast h1
  · have h1 := trunc_mono hb.2
    rw [← hvt] at h1
    have h2 : trunc ((max c0.val c1.val : Nat) : ℚ) = ((max c0.val c1.val : Nat) : Int) := by
      have := trunc_intCast ((max c0.val c1.val : Nat) : Int)
      simpa using this
    rw [h2] at h1
    exact_mod_cast h1

theorem lerp_channel_one (c0 c1 : Byte) : lerp_channel c0 c1 1 = some c1 := by
  obtain ⟨v, hv, hvt, -, -⟩ :=
    lerp_channel_spec c0 c1 (show (0 : ℚ) ≤ 1 by norm_num) (le_refl (1 : ℚ))
  rw [hv]
  have e : ((c0.val : Int) : ℚ) + (((c1.val : Int) - (c0.val : Int) : Int) : ℚ) * 1
      = (((c1.val : Int)) : ℚ) := by push_cast; ring
  rw [e, trunc_intCast] at hvt
  congr 1
  exact Fin.ext (by exact_mod_cast hvt)

/-! ## The scan of `interpolate_color` -/

/-- The ratio of line 18 lies in `(0, 1]` when `sp.position < t <= si.position`. -/
theorem ratio_bounds {t : ℚ} {sp si : ColorStop} (h1 : sp.position < t) (h2 : t ≤ si.position) :
    si.position - sp.position ≠ 0 ∧
    0 < (t - sp.position) / (si.position - sp.position) ∧
    (t - sp.position) / (si.position - sp.position) ≤ 1 := by
  have hd : 0 < si.position - sp.position := by linarith
  refine ⟨ne_of_gt hd, div_pos (by linarith) hd, ?_⟩
  rw [div_le_one hd]
  linarith

theorem interpolate_segment_spec {t : ℚ} {sp si : ColorStop}
    (h1 : sp.position < t) (h2 : t ≤ si.position) :
    ∃ r g b : Byte, interpolate_segment t sp si = some (r, g, b) ∧
      lerp_channel sp.r si.r ((t - sp.position) / (si.position - sp.position)) = some r ∧
      lerp_channel sp.g si.g ((t - sp.position) / (si.position - sp.position)) = some g ∧
      lerp_channel sp.b si.b ((t - sp.position) / (si.position - sp.position)) = some b := by
  obtain ⟨hd, hr0, hr1⟩ := ratio_bounds h1 h2
  obtain ⟨r, hr, -⟩ := lerp_channel_spec sp.r si.r hr0.le hr1
  obtain ⟨g, hg, -⟩ := lerp_channel_spec sp.g si.g hr0.le hr1
  obtain ⟨b, hb, -⟩ := lerp_channel_spec sp.b si.b hr0.le hr1
  refine ⟨r, g, b, ?_, hr, hg, hb⟩
  simp [interpolate_segment, fdiv, hd, hr, hg, hb]

/-- The loop started at `i` returns the segment of the first index `j >= i`
whose position is at least `t`. -/
theorem interpolate_color_loop_first (t : ℚ) (stops : List ColorStop) (j : Nat)
    (sp sj : ColorStop) (hj : stops[j]? = some sj) (hp : stops[j - 1]? = some sp)
    (htj : t ≤ sj.position) :
    ∀ k i : Nat, i + k = stops.length → i ≤ j →
      (∀ (l : Nat) (sl : ColorStop), i ≤ l → l < j → stops[l]? = some sl → ¬ t ≤ sl.position) →
      interpolate_color_loop t stops k i = interpolate_segment t sp sj := by
  intro k
  induction k with
  | zero =>
    intro i hik hij _
    have hjl : j < stops.length := (List.getElem?_eq_some_iff.mp hj).1
    omega
  | succ k ih =>
    intro i hik hij hfirst
    have hil : i < stops.length := by omega
    rcases Nat.eq_or_lt_of_le hij with e | hlt
    · subst e
      simp [interpolate_color_loop, hj, htj, hp]
    · have hne := hfirst i stops[i] (le_refl _) hlt (List.getElem?_eq_getElem hil)
      have hrec := ih (i + 1) (by omega) (by omega)
        (fun l sl h1 h2 h3 => hfirst l sl (by omega) h2 h3)
      simp [interpolate_color_loop, List.getElem?_eq_getElem hil, hne, hrec]

/-- The loop started at `i` falls through to lines 26-28 when no stop from `i`
on has a position at least `t`. -/
theorem interpolate_color_loop_last (t : ℚ) (stops : List ColorStop) (sl : ColorStop)
    (hl : stops[stops.length - 1]? = some sl) :
    ∀ k i : Nat, i + k = stops.length →
      (∀ (l : Nat) (s : ColorStop), i ≤ l → stops[l]? = some s → ¬ t ≤ s.position) →
      interpolate_color_loop t stops k i = some (sl.r, sl.g, sl.b) := by
  intro k
  induction k with
  | zero =>
    intro i _ _
    simp [interpolate_color_loop, hl]
  | succ k ih =>
    intro i hik hnone
    have hil : i < stops.length := by omega
    have hne := hnone i stops[i] (le_refl _) (List.getElem?_eq_getElem hil)
    have hrec := ih (i + 1) (by omega) (fun l s h1 h2 => hnone l s (by omega) h2)
    simp [interpolate_color_loop, List.getElem?_eq_getElem hil, hne, hrec]

/-- On a non-empty stop list `interpolate_color` is defined for every `t`: no
division by zero, every conversion in range. -/
theorem interpolate_color_loop_total (t : ℚ) (stops : List ColorStop) :
    ∀ k i : Nat, i + k = stops.length → 1 ≤ i →
      (∀ sp : ColorStop, stops[i - 1]? = some sp → sp.position < t) →
      ∃ rgb, interpolate_color_loop t stops k i = some rgb := by
  intro k
  induction k with
  | zero =>
    intro i hik hi _
    have hl : stops.length - 1 < stops.length := by omega
    exact ⟨(stops[stops.length - 1].r, stops[stops.length - 1].g, stops[stops.length - 1].b),
      by simp [interpolate_color_loop, List.getElem?_eq_getElem hl]⟩
  | succ k ih =>
    intro i hik hi hprev
    have hil : i < stops.length := by omega
    have hpl : i - 1 < stops.length := by omega
    by_cases h : t ≤ stops[i].position
    · obtain ⟨r, g, b, hseg, -⟩ :=
        interpolate_segment_spec (hprev _ (List.getElem?_eq_getElem hpl)) h
      exact ⟨(r, g, b), by
        simp [interpolate_color_loop, List.getElem?_eq_getElem hil,
          List.getElem?_eq_getElem hpl, h, hseg]⟩
    · obtain ⟨rgb, hrec⟩ := ih (i + 1) (by omega) (by omega) (by
        intro sp hsp
        simp only [Nat.add_sub_cancel, List.getElem?_eq_getElem hil, Option.some.injEq] at hsp
        subst hsp
        exact not_le.mp h)
      exact ⟨rgb, by simp [interpolate_color_loop, List.getElem?_eq_getElem hil, h, hrec]⟩

theorem interpolate_color_total (t : ℚ) (stops : List ColorStop) (hne : stops ≠ []) :
    ∃ rgb, interpolate_color t stops = some rgb := by
  have h0 : 0 < stops.length := List.length_pos.mpr hne
  by_cases h : t ≤ stops[0].position
  · exact ⟨(stops[0].r, stops[0].g, stops[0].b),
      by simp [interpolate_color, List.getElem?_eq_getElem h0, h]⟩
  · obtain ⟨rgb, hrgb⟩ := interpolate_color_loop_total t stops (stops.length - 1) 1
      (by omega) (le_refl _) (by
        intro sp hsp
        simp only [Nat.sub_self, List.getElem?_eq_getElem h0, Option.some.injEq] at hsp
        subst hsp
        exact not_le.mp h)
    exact ⟨rgb, by simp [interpolate_color, List.getElem?_eq_getElem h0, h, hrgb]⟩

/-- At `t = si.position` the segment returns the colour of `si`. -/
theorem interpolate_segment_at_stop {sp si : ColorStop} (h : sp.position < si.position) :
    interpolate_segment si.position sp si = some (si.r, si.g, si.b) := by
  have hd : si.position - sp.position ≠ 0 := by
    intro e
    linarith
  simp [interpolate_segment, fdiv, hd, div_self hd, lerp_channel_one]

theorem sorted_stops_le {stops : List ColorStop} (hs : sorted_stops stops) {i j : Nat}
    {si sj : ColorStop} (hij : i ≤ j) (hi : stops[i]? = some si) (hj : stops[j]? = some sj) :
    si.position ≤ sj.position := by
  rcases Nat.eq_or_lt_of_le hij with e | hlt
  · subst e
    rw [hi] at hj
    cases hj
    exact le_refl _
  · obtain ⟨hil, rfl⟩ := List.getElem?_eq_some_iff.mp hi
    obtain ⟨hjl, rfl⟩ := List.getElem?_eq_some_iff.mp hj
    exact List.pairwise_iff_getElem.mp hs i j hil hjl hlt

/-! ## Claims about `interpolate_color` -/

/-- C2: for a non-empty stop list and `t <= stops[0].position`, `interpolate_color`
returns exactly the `(r, g, b)` of `stops[0]`. -/
theorem interpolate_color_first_stop (t : ℚ) (s0 : ColorStop) (rest : List ColorStop)
    (h : t ≤ s0.position) :
    interpolate_color t (s0 :: rest) = some (s0.r, s0.g, s0.b) := by
  simp [interpolate_color, h]

/-- Witness of C2 on a two-stop list at `t = 0`. -/
theorem interpolate_color_first_stop_witness :
    (0 : ℚ) ≤ (ColorStop.mk 0 10 20 30).position ∧
    interpolate_color 0 [ColorStop.mk 0 10 20 30, ColorStop.mk 1 40 50 60] = some (10, 20, 30) :=
  ⟨le_refl _, interpolate_color_first_stop 0 (ColorStop.mk 0 10 20 30) [ColorStop.mk 1 40 50 60]
    (le_refl _)⟩

/-- C5: on the stops `[(0.0, 0,0,0), (1.0, 255,255,255)]`, `interpolate_color(0.5, stops)`
is `(127, 127, 127)`: the value `127.5` is truncated, not rounded. -/
theorem interpolate_color_half_truncates :
    interpolate_color (1 / 2) [ColorStop.mk 0 0 0 0, ColorStop.mk 1 255 255 255]
      = some (127, 127, 127) := by
  decide!

/-- C3, refuted as stated: on the sorted stops `[(0, red), (1, green), (1, blue)]`
and `t = 1`, which is at least the last position, `interpolate_color` returns
green, the colour of the first stop at position `1`, not blue, the colour of the
last stop. -/
theorem interpolate_color_last_stop_tie :
    sorted_stops [ColorStop.mk 0 255 0 0, ColorStop.mk 1 0 255 0, ColorStop.mk 1 0 0 255] ∧
    (ColorStop.mk 1 0 0 255).position ≤ (1 : ℚ) ∧
    interpolate_color 1 [ColorStop.mk 0 255 0 0, ColorStop.mk 1 0 255 0, ColorStop.mk 1 0 0 255]
      = some (0, 255, 0) ∧
    interpolate_color 1 [ColorStop.mk 0 255 0 0, ColorStop.mk 1 0 255 0, ColorStop.mk 1 0 0 255]
      ≠ some ((ColorStop.mk 1 0 0 255).r, (ColorStop.mk 1 0 0 255).g, (ColorStop.mk 1 0 0 255).b) := by
  decide!

/-- C3, amended: for a non-empty stop list sorted by position and `t` at least
the last stop's position, `interpolate_color` returns exactly the `(r, g, b)` of
the last stop, provided `t` is beyond the last position or no earlier stop has
the last stop's position. -/
theorem interpolate_color_last_stop (t : ℚ) (stops : List ColorStop) (sl : ColorStop)
    (hl : stops[stops.length - 1]? = some sl) (hs : sorted_stops stops)
    (ht : sl.position ≤ t)
    (hstrict : sl.position < t ∨
      ∀ (l : Nat) (s : ColorStop), l + 1 < stops.length → stops[l]? = some s →
        s.position < sl.position) :
    interpolate_color t stops = some (sl.r, sl.g, sl.b) := by
  have hn : stops.length - 1 < stops.length := (List.getElem?_eq_some_iff.mp hl).1
  have h0 : 0 < stops.length := by omega
  rcases lt_or_eq_of_le ht with hlt | heq
  · have hnone : ∀ (l : Nat) (s : ColorStop), stops[l]? = some s → ¬ t ≤ s.position := by
      intro l s hls hts
      have hll : l < stops.length := (List.getElem?_eq_some_iff.mp hls).1
      have := sorted_stops_le hs (by omega : l ≤ stops.length - 1) hls hl
      linarith
    have hloop := interpolate_color_loop_last t stops sl hl (stops.length - 1) 1 (by omega)
      (fun l s _ h => hnone l s h)
    simp [interpolate_color, List.getElem?_eq_getElem h0,
      hnone 0 stops[0] (List.getElem?_eq_getElem h0), hloop]
  · subst heq
    have hearlier : ∀ (l : Nat) (s : ColorStop), l + 1 < stops.length → stops[l]? = some s →
        s.position < sl.position := by
      rcases hstrict with h | h
      · exact absurd h (lt_irrefl _)
      · exact h
    by_cases h1 : stops.length = 1
    · have e : stops[0]? = some sl := by
        have : stops.length - 1 = 0 := by omega
        rw [this] at hl
        exact hl
      simp [interpolate_color, e]
    · have h2 : stops.length - 1 - 1 < stops.length := by omega
      have hp := hearlier (stops.length - 1 - 1) _ (by omega) (List.getElem?_eq_getElem h2)
      have hfirst := hearlier 0 _ (by omega) (List.getElem?_eq_getElem h0)
      have hloop := interpolate_color_loop_first sl.position stops (stops.length - 1)
        stops[stops.length - 1 - 1] sl hl (List.getElem?_eq_getElem h2) (le_refl _)
        (stops.length - 1) 1 (by omega) (by omega)
        (fun l s _ hlj hls => not_le.mpr (hearlier l s (by omega) hls))
      rw [interpolate_segment_at_stop hp] at hloop
      simp [interpolate_color, List.getElem?_eq_getElem h0, not_le.mpr hfirst, hloop]

/-- Witness of the amended C3 on `[(0, red), (1, blue)]` at `t = 1`. -/
theorem interpolate_color_last_stop_witness :
    interpolate_color 1 [ColorStop.mk 0 255 0 0, ColorStop.mk 1 0 0 255] = some (0, 0, 255) :=
  interpolate_color_last_stop 1 [ColorStop.mk 0 255 0 0, ColorStop.mk 1 0 0 255]
    (ColorStop.mk 1 0 0 255) rfl (by decide!) (le_refl _)
    (Or.inr (by
      intro l s hl hs
      have hl0 : l = 0 := by
        simp only [List.length_cons, List.length_nil] at hl
        omega
      subst hl0
      simp only [List.getElem?_cons_zero, Option.some.injEq] at hs
      subst hs
      norm_num))

/-- On a two-stop list, a `t` in `(A.position, B.position]` takes the segment
between the two stops. -/
theorem interpolate_color_two_stops {t : ℚ} {A B : ColorStop}
    (h1 : A.position < t) (h2 : t ≤ B.position) :
    interpolate_color t [A, B] = interpolate_segment t A B := by
  simp [interpolate_color, interpolate_color_loop, not_le.mpr h1, h2]

/-- C6: for a two-stop list `[A, B]` with `A.position <= B.position` and
`A.r <= B.r`, and `t1 < t2` both in `[A.position, B.position]`, the red channel
returned at `t1` is at most the red channel returned at `t2`. -/
theorem interpolate_color_red_monotone (A B : ColorStop) (t1 t2 : ℚ)
    (_hpos : A.position ≤ B.position) (hred : A.r ≤ B.r)
    (h1 : A.position ≤ t1) (h12 : t1 < t2) (h2 : t2 ≤ B.position) :
    ∃ c1 c2 : Byte × Byte × Byte,
      interpolate_color t1 [A, B] = some c1 ∧ interpolate_color t2 [A, B] = some c2 ∧
      c1.1 ≤ c2.1 := by
  have hA2 : A.position < t2 := lt_of_le_of_lt h1 h12
  have hredv : A.r.val ≤ B.r.val := hred
  obtain ⟨hd, hr0, hr1⟩ := ratio_bounds hA2 h2
  obtain ⟨r2, g2, b2, hseg2, hlr2, -⟩ := interpolate_segment_spec hA2 h2
  obtain ⟨v2, hv2, hvt2, hmin2, -⟩ := lerp_channel_spec A.r B.r hr0.le hr1
  rw [hlr2] at hv2
  cases hv2
  rw [min_eq_left hredv] at hmin2
  rcases eq_or_lt_of_le h1 with e | hlt
  · refine ⟨(A.r, A.g, A.b), (r2, g2, b2), ?_, ?_, ?_⟩
    · simp [interpolate_color, e]
    · rw [interpolate_color_two_stops hA2 h2, hseg2]
    · exact hmin2
  · have h1B : t1 ≤ B.position := le_trans h12.le h2
    obtain ⟨-, hq0, hq1⟩ := ratio_bounds hlt h1B
    obtain ⟨r1, g1, b1, hseg1, hlr1, -⟩ := interpolate_segment_spec hlt h1B
    obtain ⟨v1, hv1, hvt1, -⟩ := lerp_channel_spec A.r B.r hq0.le hq1
    rw [hlr1] at hv1
    cases hv1
    refine ⟨(r1, g1, b1), (r2, g2, b2), ?_, ?_, ?_⟩
    · rw [interpolate_color_two_stops hlt h1B, hseg1]
    · rw [interpolate_color_two_stops hA2 h2, hseg2]
    · have hdpos : 0 < B.position - A.position := by linarith
      have hratio : (t1 - A.position) / (B.position - A.position)
          ≤ (t2 - A.position) / (B.position - A.position) :=
        div_le_div_of_nonneg_right (by linarith) hdpos.le
      have hdiff : (0 : ℚ) ≤ (((B.r.val : Int) - (A.r.val : Int) : Int) : ℚ) := by
        have : (0 : Int) ≤ (B.r.val : Int) - (A.r.val : Int) := by omega
        exact_mod_cast this
      have hval := trunc_mono (add_le_add_left (mul_le_mul_of_nonneg_left hratio hdiff)
        ((A.r.val : Int) : ℚ))
      rw [← hvt1, ← hvt2] at hval
      have : r1.val ≤ r2.val := by exact_mod_cast hval
      exact this

/-- Witness of C6 on `[(0, 0,0,0), (1, 255,255,255)]` at `t1 = 1/4`, `t2 = 1/2`. -/
theorem interpolate_color_red_monotone_witness :
    ∃ c1 c2 : Byte × Byte × Byte,
      interpolate_color (1 / 4) [ColorStop.mk 0 0 0 0, ColorStop.mk 1 255 255 255] = some c1 ∧
      interpolate_color (1 / 2) [ColorStop.mk 0 0 0 0, ColorStop.mk 1 255 255 255] = some c2 ∧
      c1.1 ≤ c2.1 :=
  interpolate_color_red_monotone (ColorStop.mk 0 0 0 0) (ColorStop.mk 1 255 255 255) (1 / 4) (1 / 2)
    (by norm_num) (by decide) (by norm_num) (by norm_num) (by norm_num)

/-! ## The pixel loop of `generate_gradient` -/

theorem int_checked_of_bounds {z : Int} (h1 : 0 ≤ z) (h2 : z ≤ 2147483647) :
    int_checked z = some z := by
  have : INT_MIN ≤ z ∧ z ≤ INT_MAX := by
    simp only [INT_MIN, INT_MAX]
    omega
  simp [int_checked, this]

theorem int_checked_eq_some {z v : Int} (h : int_checked z = some v) :
    v = z ∧ z ≤ 2147483647 := by
  unfold int_checked at h
  split at h
  · rename_i hz
    simp only [INT_MAX] at hz
    cases h
    exact ⟨rfl, hz.2⟩
  · cases h

theorem store_of_lt (pixels : List Byte) (i : Nat) (h : i < pixels.length) (v : Byte) :
    store pixels (i : Int) v = some (pixels.set i v) := by
  have : (0 : Int) ≤ (i : Int) ∧ (i : Int) < (pixels.length : Int) := by omega
  simp [store, this]

theorem pixel_body_spec (m : Libm) (s : Setup) (stops : List ColorStop) (mode : Int)
    (w x y : Nat) (pixels : List Byte) (c : Byte × Byte × Byte)
    (hc : pixel_color m s stops mode x y = some c)
    (hmax : (y * w + x) * 4 + 3 ≤ 2147483647)
    (hlen : (y * w + x) * 4 + 3 < pixels.length) :
    pixel_body m s stops mode w y x pixels = some (put_pixel pixels (y * w + x) c) := by
  have e0 : ((y : Int) * (w : Int)) = ((y * w : Nat) : Int) := by push_cast; ring
  have e1 : ((y * w : Nat) : Int) + (x : Int) = ((y * w + x : Nat) : Int) := by push_cast; ring
  have e2 : ((y * w + x : Nat) : Int) * 4 = (((y * w + x) * 4 : Nat) : Int) := by push_cast; ring
  have e3 : ((((y * w + x) * 4 : Nat) : Int)) + 1 = (((y * w + x) * 4 + 1 : Nat) : Int) := by
    push_cast; ring
  have e4 : ((((y * w + x) * 4 : Nat) : Int)) + 2 = (((y * w + x) * 4 + 2 : Nat) : Int) := by
    push_cast; ring
  have e5 : ((((y * w + x) * 4 : Nat) : Int)) + 3 = (((y * w + x) * 4 + 3 : Nat) : Int) := by
    push_cast; ring
  have c0 : int_checked ((y * w : Nat) : Int) = some ((y * w : Nat) : Int) :=
    int_checked_of_bounds (by omega) (by omega)
  have c1 : int_checked ((y * w + x : Nat) : Int) = some ((y * w + x : Nat) : Int) :=
    int_checked_of_bounds (by omega) (by omega)
  have c2 : int_checked (((y * w + x) * 4 : Nat) : Int) = some (((y * w + x) * 4 : Nat) : Int) :=
    int_checked_of_bounds (by omega) (by omega)
  have c3 : int_checked (((y * w + x) * 4 + 1 : Nat) : Int)
      = some (((y * w + x) * 4 + 1 : Nat) : Int) :=
    int_checked_of_bounds (by omega) (by omega)
  have c4 : int_checked (((y * w + x) * 4 + 2 : Nat) : Int)
      = some (((y * w + x) * 4 + 2 : Nat) : Int) :=
    int_checked_of_bounds (by omega) (by omega)
  have c5 : int_checked (((y * w + x) * 4 + 3 : Nat) : Int)
      = some (((y * w + x) * 4 + 3 : Nat) : Int) :=
    int_checked_of_bounds (by omega) (by omega)
  have s0 := store_of_lt pixels ((y * w + x) * 4) (by omega) c.1
  have s1 := store_of_lt (pixels.set ((y * w + x) * 4) c.1)
    ((y * w + x) * 4 + 1) (by simp; omega) c.2.1
  have s2 := store_of_lt
    ((pixels.set ((y * w + x) * 4) c.1).set ((y * w + x) * 4 + 1) c.2.1)
    ((y * w + x) * 4 + 2) (by simp; omega) c.2.2
  have s3 := store_of_lt
    (((pixels.set ((y * w + x) * 4) c.1).set ((y * w + x) * 4 + 1) c.2.1).set
      ((y * w + x) * 4 + 2) c.2.2)
    ((y * w + x) * 4 + 3) (by simp; omega) 255
  simp only [pixel_body, hc, Option.bind_eq_bind, Option.some_bind, e0, c0, e1, c1, e2, c2,
    s0, e3, c3, s1, e4, c4, s2, e5, c5, s3, put_pixel]

theorem getElem?_put_pixel (buf : List Byte) (n : Nat) (c : Byte × Byte × Byte) (j : Nat)
    (hlen : n * 4 + 3 < buf.length) :
    (put_pixel buf n c)[j]? =
      if j = n * 4 then some c.1
      else if j = n * 4 + 1 then some c.2.1
      else if j = n * 4 + 2 then some c.2.2
      else if j = n * 4 + 3 then some 255
      else buf[j]? := by
  unfold put_pixel
  simp only [List.getElem?_set, List.length_set]
  by_cases h0 : j = n * 4
  · subst h0
    have a1 : ¬ (n * 4 + 3 = n * 4) := by omega
    have a2 : ¬ (n * 4 + 2 = n * 4) := by omega
    have a3 : ¬ (n * 4 + 1 = n * 4) := by omega
    have a4 : n * 4 < buf.length := by omega
    simp [a1, a2, a3, a4]
  · by_cases h1 : j = n * 4 + 1
    · subst h1
      have a1 : ¬ (n * 4 + 3 = n * 4 + 1) := by omega
      have a2 : ¬ (n * 4 + 2 = n * 4 + 1) := by omega
      have a4 : n * 4 + 1 < buf.length := by omega
      simp [a1, a2, a4]
    · by_cases h2 : j = n * 4 + 2
      · subst h2
        have a1 : ¬ (n * 4 + 3 = n * 4 + 2) := by omega
        have a4 : n * 4 + 2 < buf.length := by omega
        simp [a1, a4]
      · by_cases h3 : j = n * 4 + 3
        · subst h3
          simp [hlen]
        · have b0 : ¬ (n * 4 = j) := fun e => h0 e.symm
          have b1 : ¬ (n * 4 + 1 = j) := fun e => h1 e.symm
          have b2 : ¬ (n * 4 + 2 = j) := fun e => h2 e.symm
          have b3 : ¬ (n * 4 + 3 = j) := fun e => h3 e.symm
          simp [h0, h1, h2, h3, b0, b1, b2, b3]

theorem length_put_pixel (buf : List Byte) (n : Nat) (c : Byte × Byte × Byte) :
    (put_pixel buf n c).length = buf.length := by
  simp [put_pixel]

theorem Painted.step {col : Nat → Byte × Byte × Byte} {orig buf : List Byte} {n : Nat}
    (h : Painted col orig buf n) (hlen : n * 4 + 3 < orig.length) :
    Painted col orig (put_pixel buf n (col n)) (n + 1) := by
  obtain ⟨hl, hp, hr⟩ := h
  have hlen' : n * 4 + 3 < buf.length := by omega
  refine ⟨by rw [length_put_pixel, hl], ?_, ?_⟩
  · intro p hpn
    rcases Nat.eq_or_lt_of_le (Nat.le_of_lt_succ hpn) with e | hlt
    · subst e
      refine ⟨?_, ?_, ?_, ?_⟩ <;> rw [getElem?_put_pixel _ _ _ _ hlen'] <;> simp
    · obtain ⟨q0, q1, q2, q3⟩ := hp p hlt
      refine ⟨?_, ?_, ?_, ?_⟩
      · rw [getElem?_put_pixel _ _ _ _ hlen', if_neg (by omega), if_neg (by omega),
          if_neg (by omega), if_neg (by omega)]
        exact q0
      · rw [getElem?_put_pixel _ _ _ _ hlen', if_neg (by omega), if_neg (by omega),
          if_neg (by omega), if_neg (by omega)]
        exact q1
      · rw [getElem?_put_pixel _ _ _ _ hlen', if_neg (by omega), if_neg (by omega),
          if_neg (by omega), if_neg (by omega)]
        exact q2
      · rw [getElem?_put_pixel _ _ _ _ hlen', if_neg (by omega), if_neg (by omega),
          if_neg (by omega), if_neg (by omega)]
        exact q3
  · intro j hj
    rw [getElem?_put_pixel _ _ _ _ hlen', if_neg (by omega), if_neg (by omega),
      if_neg (by omega), if_neg (by omega)]
    exact hr j (by omega)

theorem Painted.init (col : Nat → Byte × Byte × Byte) (orig : List Byte) :
    Painted col orig orig 0 :=
  ⟨rfl, fun _ h => absurd h (Nat.not_lt_zero _), fun _ _ => rfl⟩

/-- The inner loop (line 63) on row `y`, from column `x` on. -/
theorem row_loop_spec (m : Libm) (s : Setup) (stops : List ColorStop) (mode : Int)
    (w y : Nat) (col : Nat → Byte × Byte × Byte) (orig : List Byte)
    (hcol : ∀ x : Nat, x < w → pixel_color m s stops mode x y = some (col (y * w + x)))
    (hmax : (y * w + w) * 4 ≤ 2147483648) (hlen : (y * w + w) * 4 ≤ orig.length) :
    ∀ (k x : Nat) (buf : List Byte), x + k = w → Painted col orig buf (y * w + x) →
      ∃ out, for_loop (fun x px1 => pixel_body m s stops mode w y x px1) k x buf = some out ∧
        Painted col orig out (y * w + w) := by
  intro k
  induction k with
  | zero =>
    intro x buf hx hp
    have e : x = w := by omega
    subst e
    exact ⟨buf, rfl, hp⟩
  | succ k ih =>
    intro x buf hx hp
    have hxw : x < w := by omega
    have hbody := pixel_body_spec m s stops mode w x y buf (col (y * w + x)) (hcol x hxw)
      (by omega) (by rw [hp.1]; omega)
    obtain ⟨out, hout, hpo⟩ := ih (x + 1) (put_pixel buf (y * w + x) (col (y * w + x)))
      (by omega) (hp.step (by omega))
    refine ⟨out, ?_, hpo⟩
    have e : ((x : Int) + 1) = ((x + 1 : Nat) : Int) := by push_cast; rfl
    simp only [for_loop, hbody, Option.bind_eq_bind, Option.some_bind, e, hout]

/-- The outer loop (line 62), from row `y` on. -/
theorem image_loop_spec (m : Libm) (s : Setup) (stops : List ColorStop) (mode : Int)
    (w h : Nat) (col : Nat → Byte × Byte × Byte) (orig : List Byte)
    (hcol : ∀ x y : Nat, x < w → y < h →
      pixel_color m s stops mode x y = some (col (y * w + x)))
    (hmax : h * w * 4 ≤ 2147483648) (hlen : h * w * 4 ≤ orig.length) :
    ∀ (k y : Nat) (buf : List Byte), y + k = h → Painted col orig buf (y * w) →
      ∃ out, for_loop (fun y px => for_loop
          (fun x px1 => pixel_body m s stops mode w y x px1) w 0 px) k y buf = some out ∧
        Painted col orig out (h * w) := by
  intro k
  induction k with
  | zero =>
    intro y buf hy hp
    have e : y = h := by omega
    subst e
    exact ⟨buf, rfl, hp⟩
  | succ k ih =>
    intro y buf hy hp
    have hyh : y < h := by omega
    have hrow : (y * w + w) ≤ h * w := by
      have : (y + 1) * w ≤ h * w := Nat.mul_le_mul_right w (by omega)
      rw [Nat.succ_mul] at this
      exact this
    obtain ⟨mid, hmid, hpm⟩ := row_loop_spec m s stops mode w y col orig
      (fun x hx => hcol x y hx hyh) (by omega) (by omega) w 0 buf (by omega)
      (by simpa using hp)
    have e1 : y * w + w = (y + 1) * w := by rw [Nat.succ_mul]
    obtain ⟨out, hout, hpo⟩ := ih (y + 1) mid (by omega) (by rw [← e1]; exact hpm)
    refine ⟨out, ?_, hpo⟩
    have e : ((y : Int) + 1) = ((y + 1 : Nat) : Int) := by push_cast; rfl
    rw [Nat.cast_zero] at hmid
    simp only [for_loop, hmid, Option.bind_eq_bind, Option.some_bind, e, hout]

/-! ## The values computed before the loop -/

theorem M_PI_pos : 0 < M_PI := by
  norm_num [M_PI]

theorem min_max_step_le {acc : ℚ × ℚ} (c : ℚ) (h : acc.1 ≤ acc.2) :
    (min_max_step acc c).1 ≤ (min_max_step acc c).2 := by
  unfold min_max_step
  dsimp only
  split_ifs <;> linarith

/-- Lines 39-53 leave `min_coord <= max_coord`. -/
theorem coord_bounds_le {cos_angle sin_angle : ℚ} {width height mode : Int} {mm : ℚ × ℚ}
    (h : coord_bounds cos_angle sin_angle width height mode = some mm) : mm.1 ≤ mm.2 := by
  unfold coord_bounds at h
  split at h
  · simp only [Option.bind_eq_bind, Option.bind_eq_some] at h
    obtain ⟨wm1, -, hm1, -, hmm⟩ := h
    cases hmm
    simp only [List.foldl]
    exact min_max_step_le _ (min_max_step_le _ (min_max_step_le _ (le_refl _)))
  · cases h
    norm_num

/-- For positive dimensions `setup` is defined, `range` is positive (line 56) and
`max_radius` is positive. -/
theorem setup_spec (m : Libm) (w h : Nat) (angle : ℚ) (mode : Int)
    (hw : 0 < w) (hh : 0 < h) (hwmax : w ≤ 2147483647) (hhmax : h ≤ 2147483647) :
    ∃ s, setup m w h angle mode = some s ∧ 0 < s.range ∧ 0 < s.max_radius ∧
      s.cos_angle = m.cos (angle * M_PI / 180) ∧ s.sin_angle = m.sin (angle * M_PI / 180) ∧
      s.cx = (w : ℚ) / 2 ∧ s.cy = (h : ℚ) / 2 ∧
      s.max_radius = m.sqrt (s.cx * s.cx + s.cy * s.cy) := by
  have hb : ∃ mm, coord_bounds (m.cos (angle * M_PI / 180)) (m.sin (angle * M_PI / 180))
      w h mode = some mm := by
    unfold coord_bounds
    split
    · have c1 : int_checked ((w : Int) - 1) = some ((w : Int) - 1) :=
        int_checked_of_bounds (by omega) (by omega)
      have c2 : int_checked ((h : Int) - 1) = some ((h : Int) - 1) :=
        int_checked_of_bounds (by omega) (by omega)
      simp only [c1, c2, Option.bind_eq_bind, Option.some_bind]
      exact ⟨_, rfl⟩
    · exact ⟨_, rfl⟩
  obtain ⟨mm, hmm⟩ := hb
  have hle := coord_bounds_le hmm
  have hwq : (0 : ℚ) < (w : ℚ) / 2 := by positivity
  have hhq : (0 : ℚ) < (h : ℚ) / 2 := by positivity
  refine ⟨_, by simp only [setup, hmm, Option.bind_eq_bind, Option.some_bind]; rfl,
    ?_, ?_, rfl, rfl, ?_, ?_, ?_⟩
  · show 0 < (if mm.2 - mm.1 = 0 then (1 : ℚ) else mm.2 - mm.1)
    split
    · norm_num
    · rename_i hne
      exact lt_of_le_of_ne (by linarith) (Ne.symm hne)
  · show 0 < m.sqrt (((w : Int) : ℚ) / 2 * (((w : Int) : ℚ) / 2)
      + ((h : Int) : ℚ) / 2 * (((h : Int) : ℚ) / 2))
    apply m.sqrt_pos
    push_cast
    positivity
  · show ((w : Int) : ℚ) / 2 = (w : ℚ) / 2
    push_cast
    rfl
  · show ((h : Int) : ℚ) / 2 = (h : ℚ) / 2
    push_cast
    rfl
  · rfl

/-- The parameter `t` of a pixel, mode by mode, when no divisor is zero. -/
theorem pixel_t_spec (m : Libm) (s : Setup) (mode : Int) (x y : Int)
    (hrange : s.range ≠ 0) (hrad : s.max_radius ≠ 0) :
    ∃ t, pixel_t m s mode x y = some t ∧
      (mode = 0 → t = ((x : ℚ) * s.cos_angle + (y : ℚ) * s.sin_angle - s.min_coord) / s.range) ∧
      (mode = 1 → t = (m.atan2 ((y : ℚ) - s.cy) ((x : ℚ) - s.cx) + M_PI) / (2 * M_PI)) ∧
      (mode ≠ 0 → mode ≠ 1 →
        t = m.sqrt (((x : ℚ) - s.cx) * ((x : ℚ) - s.cx) + ((y : ℚ) - s.cy) * ((y : ℚ) - s.cy))
          / s.max_radius) := by
  have hpi : (2 * M_PI) ≠ 0 := by
    have := M_PI_pos
    intro e
    linarith
  by_cases h0 : mode = 0
  · refine ⟨_, by simp only [pixel_t, h0, if_true, fdiv, hrange, if_false]; rfl, ?_, ?_, ?_⟩
    · intro _; rfl
    · intro h1; rw [h0] at h1; exact absurd h1 (by decide)
    · intro h; exact absurd h0 h
  · by_cases h1 : mode = 1
    · refine ⟨_, by simp only [pixel_t, h0, h1, if_true, fdiv, hpi, if_false]; rfl, ?_, ?_, ?_⟩
      · intro h; exact absurd h h0
      · intro _; rfl
      · intro _ h; exact absurd h1 h
    · refine ⟨_, by simp only [pixel_t, h0, h1, fdiv, hrad, if_false]; rfl, ?_, ?_, ?_⟩
      · intro h; exact absurd h h0
      · intro h; exact absurd h h1
      · intro _ _; rfl

theorem pixel_color_total (m : Libm) (s : Setup) (stops : List ColorStop) (mode : Int)
    (x y : Int) (hrange : s.range ≠ 0) (hrad : s.max_radius ≠ 0) (hne : stops ≠ []) :
    ∃ t c, pixel_t m s mode x y = some t ∧ interpolate_color (clamp01 t) stops = some c ∧
      pixel_color m s stops mode x y = some c := by
  obtain ⟨t, ht, -⟩ := pixel_t_spec m s mode x y hrange hrad
  obtain ⟨c, hc⟩ := interpolate_color_total (clamp01 t) stops hne
  exact ⟨t, c, ht, hc, by simp only [pixel_color, ht, Option.bind_eq_bind, Option.some_bind, hc]⟩

theorem pixel_number_mod (w x y : Nat) (hx : x < w) : (y * w + x) % w = x := by
  rw [Nat.add_comm, Nat.add_mul_mod_self_right, Nat.mod_eq_of_lt hx]

theorem pixel_number_div (w x y : Nat) (hx : x < w) : (y * w + x) / w = y := by
  rw [Nat.add_comm, Nat.add_mul_div_right _ _ (by omega), Nat.div_eq_of_lt hx, Nat.zero_add]

theorem pixel_number_lt (w h x y : Nat) (hx : x < w) (hy : y < h) : y * w + x < h * w := by
  have : (y + 1) * w ≤ h * w := Nat.mul_le_mul_right w hy
  rw [Nat.succ_mul] at this
  omega

/-- What a call of `generate_gradient` does, for positive dimensions, a non-empty
stop list, an image whose byte offsets fit an `int` and a buffer that holds it:
the call returns, pixel number `p` holds the colour of `(p % w, p / w)` and
alpha `255`, and the bytes from `h * w * 4` on are as before. -/
theorem generate_gradient_spec (m : Libm) (pixels : List Byte) (w h : Nat)
    (stops : List ColorStop) (angle : ℚ) (mode : Int)
    (hw : 0 < w) (hh : 0 < h) (hne : stops ≠ [])
    (hmax : h * w * 4 ≤ 2147483648) (hlen : h * w * 4 ≤ pixels.length) :
    ∃ s out, setup m w h angle mode = some s ∧ s.range ≠ 0 ∧ s.max_radius ≠ 0 ∧
      generate_gradient m pixels w h stops angle mode = some out ∧
      Painted (image_color m s stops mode w) pixels out (h * w) := by
  have hwh : w ≤ h * w := Nat.le_mul_of_pos_left w hh
  have hhw : h ≤ h * w := Nat.le_mul_of_pos_right h hw
  obtain ⟨s, hs, hrange0, hrad, -⟩ := setup_spec m w h angle mode hw hh (by omega) (by omega)
  have hrange : s.range ≠ 0 := ne_of_gt hrange0
  have hcol : ∀ x y : Nat, x < w → y < h → pixel_color m s stops mode x y
      = some (image_color m s stops mode w (y * w + x)) := by
    intro x y hx hy
    obtain ⟨t, c, -, -, hc⟩ := pixel_color_total m s stops mode x y hrange (ne_of_gt hrad) hne
    simp only [image_color, pixel_number_mod w x y hx, pixel_number_div w x y hx, hc,
      Option.getD_some]
  obtain ⟨out, hout, hp⟩ := image_loop_spec m s stops mode w h (image_color m s stops mode w)
    pixels hcol hmax hlen h 0 pixels (by omega)
    (by simpa using Painted.init (image_color m s stops mode w) pixels)
  refine ⟨s, out, hs, hrange, ne_of_gt hrad, ?_, hp⟩
  rw [Nat.cast_zero] at hout
  simp only [generate_gradient, hs, Option.bind_eq_bind, Option.some_bind, Int.toNat_ofNat, hout]

/-! ## A call that returns has computed every byte offset within `int` -/

theorem for_loop_body_defined {σ : Type} (body : Int → σ → Option σ) :
    ∀ (k : Nat) (i : Int) (s s' : σ), for_loop body k i s = some s' →
      ∀ j : Nat, j < k → ∃ s1 s2, body (i + j) s1 = some s2 := by
  intro k
  induction k with
  | zero =>
    intro i s s' _ j hj
    exact absurd hj (Nat.not_lt_zero _)
  | succ k ih =>
    intro i s s' hrun j hj
    simp only [for_loop, Option.bind_eq_bind, Option.bind_eq_some] at hrun
    obtain ⟨s1, hb, hrest⟩ := hrun
    cases j with
    | zero => exact ⟨s, s1, by simpa using hb⟩
    | succ j =>
      obtain ⟨a, b, hab⟩ := ih (i + 1) s1 s' hrest j (by omega)
      refine ⟨a, b, ?_⟩
      have e : i + ((j + 1 : Nat) : Int) = i + 1 + (j : Int) := by push_cast; ring
      rw [e]
      exact hab

theorem pixel_body_defined {m : Libm} {s : Setup} {stops : List ColorStop} {mode width : Int}
    {y x : Int} {px out : List Byte}
    (h : pixel_body m s stops mode width y x px = some out) :
    (y * width + x) * 4 + 3 ≤ 2147483647 := by
  simp only [pixel_body, Option.bind_eq_bind, Option.bind_eq_some] at h
  obtain ⟨rgb, -, yw, hyw, p, hp, idx, hidx, px1, -, idx1, -, px2, -, idx2, -, px3, -,
    idx3, hidx3, -⟩ := h
  obtain ⟨e0, -⟩ := int_checked_eq_some hyw
  obtain ⟨e1, -⟩ := int_checked_eq_some hp
  obtain ⟨e2, -⟩ := int_checked_eq_some hidx
  obtain ⟨-, e3⟩ := int_checked_eq_some hidx3
  subst e0 e1 e2
  exact e3

/-- When `generate_gradient` returns, the byte offsets of every pixel fit an `int`. -/
theorem generate_gradient_defined {m : Libm} {pixels out : List Byte} {w h : Nat}
    {stops : List ColorStop} {angle : ℚ} {mode : Int}
    (hrun : generate_gradient m pixels w h stops angle mode = some out)
    (x y : Nat) (hx : x < w) (hy : y < h) :
    ((y : Int) * (w : Int) + (x : Int)) * 4 + 3 ≤ 2147483647 := by
  simp only [generate_gradient, Option.bind_eq_bind, Option.bind_eq_some, Int.toNat_ofNat]
    at hrun
  obtain ⟨s, -, hloop⟩ := hrun
  obtain ⟨px, mid, hrow⟩ := for_loop_body_defined _ h 0 pixels out hloop y hy
  obtain ⟨px1, px2, hbody⟩ := for_loop_body_defined _ w 0 px mid hrow x hx
  have := pixel_body_defined hbody
  simpa using this

/-! ## Claims about `generate_gradient` -/

/-- C7, refuted as stated: for width `65536`, height `8193` and mode `2` the call
does not return a buffer whose byte `(y*width + x)*4 + 3` is `255` at the pixel
`(0, 8192)`: that offset does not fit the `int idx` of line 88. -/
theorem generate_gradient_alpha_overflow :
    ¬ ∃ out, generate_gradient libm_approx (List.replicate 2147745792 (0 : Byte)) 65536 8193
        [ColorStop.mk 0 255 0 0, ColorStop.mk 1 0 0 255] 0 2 = some out ∧
      out[(8192 * 65536 + 0) * 4 + 3]? = some 255 := by
  rintro ⟨out, hout, -⟩
  have h := generate_gradient_defined (w := 65536) (h := 8193) hout 0 8192
    (by norm_num) (by norm_num)
  norm_num at h

/-- C7, amended: for width > 0, height > 0 with `width * height * 4 <= 2^31`, a
non-empty stop list, a buffer of at least `width * height * 4` bytes, every angle
and every mode value (also outside `0, 1, 2`), the call returns and the byte at
index `(y*width + x)*4 + 3` is `255` for every pixel `(x, y)`. -/
theorem generate_gradient_alpha (m : Libm) (pixels : List Byte) (w h : Nat)
    (stops : List ColorStop) (angle : ℚ) (mode : Int)
    (hw : 0 < w) (hh : 0 < h) (hne : stops ≠ [])
    (hmax : w * h * 4 ≤ 2147483648) (hlen : w * h * 4 ≤ pixels.length) :
    ∃ out, generate_gradient m pixels w h stops angle mode = some out ∧
      ∀ x y : Nat, x < w → y < h → out[(y * w + x) * 4 + 3]? = some 255 := by
  have e : h * w * 4 = w * h * 4 := by rw [Nat.mul_comm h w]
  obtain ⟨s, out, -, -, -, hout, hp⟩ := generate_gradient_spec m pixels w h stops
    angle mode hw hh hne (by omega) (by omega)
  exact ⟨out, hout, fun x y hx hy => (hp.2.1 (y * w + x) (pixel_number_lt w h x y hx hy)).2.2.2⟩

/-- Witness of the amended C7: a `2 x 2` image with the mode value `7`. -/
theorem generate_gradient_alpha_witness :
    ∃ out, generate_gradient libm_approx (List.replicate 16 0) ((2 : Nat) : Int) ((2 : Nat) : Int)
        [ColorStop.mk 0 255 0 0, ColorStop.mk 1 0 0 255] 45 7 = some out ∧
      ∀ x y : Nat, x < 2 → y < 2 → out[(y * 2 + x) * 4 + 3]? = some 255 :=
  generate_gradient_alpha libm_approx (List.replicate 16 0) 2 2
    [ColorStop.mk 0 255 0 0, ColorStop.mk 1 0 0 255] 45 7
    (by decide) (by decide) (by simp) (by decide) (by decide)

/-- C8, refuted as stated: a buffer of `65536 * 8193 * 4` bytes is long enough for
width `65536` and height `8193`, but the call does not return a buffer that
keeps the bytes from `width*height*4` on: the offset of the pixel `(0, 8192)` does
not fit the `int idx` of line 88. -/
theorem generate_gradient_frame_overflow :
    65536 * 8193 * 4 ≤ (List.replicate 2147745792 (0 : Byte)).length ∧
    ¬ ∃ out, generate_gradient libm_approx (List.replicate 2147745792 (0 : Byte)) 65536 8193
        [ColorStop.mk 0 255 0 0] 0 1 = some out ∧
      ∀ j : Nat, 65536 * 8193 * 4 ≤ j →
        out[j]? = (List.replicate 2147745792 (0 : Byte))[j]? := by
  refine ⟨by rw [List.length_replicate], ?_⟩
  rintro ⟨out, hout, -⟩
  have h := generate_gradient_defined (w := 65536) (h := 8193) hout 0 8192
    (by norm_num) (by norm_num)
  norm_num at h

/-- C8, amended: for width > 0, height > 0 with `width * height * 4 <= 2^31`
and a non-empty stop list, `generate_gradient` writes exactly the first
`width*height*4` bytes: for every buffer of at least that length the call
returns a buffer of the same length, every byte at an index
`>= width*height*4` is unchanged, and every byte at an index `< width*height*4`
has a value that is the same for every other initial buffer. -/
theorem generate_gradient_frame (m : Libm) (pixels pixels' : List Byte) (w h : Nat)
    (stops : List ColorStop) (angle : ℚ) (mode : Int)
    (hw : 0 < w) (hh : 0 < h) (hne : stops ≠ [])
    (hmax : w * h * 4 ≤ 2147483648)
    (hlen : w * h * 4 ≤ pixels.length) (hlen' : w * h * 4 ≤ pixels'.length) :
    ∃ out out', generate_gradient m pixels w h stops angle mode = some out ∧
      generate_gradient m pixels' w h stops angle mode = some out' ∧
      out.length = pixels.length ∧
      (∀ j : Nat, w * h * 4 ≤ j → out[j]? = pixels[j]?) ∧
      (∀ j : Nat, j < w * h * 4 → ∃ v, out[j]? = some v ∧ out'[j]? = some v) := by
  have e : h * w * 4 = w * h * 4 := by rw [Nat.mul_comm h w]
  obtain ⟨s, out, hs, -, -, hout, hp⟩ := generate_gradient_spec m pixels w h stops
    angle mode hw hh hne (by omega) (by omega)
  obtain ⟨s', out', hs', -, -, hout', hp'⟩ := generate_gradient_spec m pixels' w h stops
    angle mode hw hh hne (by omega) (by omega)
  rw [hs] at hs'
  cases hs'
  refine ⟨out, out', hout, hout', hp.1, fun j hj => hp.2.2 j (by omega), ?_⟩
  intro j hj
  have hcases : ∃ q : Nat, q < h * w ∧
      (j = q * 4 ∨ j = q * 4 + 1 ∨ j = q * 4 + 2 ∨ j = q * 4 + 3) :=
    ⟨j / 4, by omega, by omega⟩
  obtain ⟨q, hq, hc⟩ := hcases
  obtain ⟨a0, a1, a2, a3⟩ := hp.2.1 q hq
  obtain ⟨b0, b1, b2, b3⟩ := hp'.2.1 q hq
  rcases hc with h0 | h0 | h0 | h0 <;> subst h0
  · exact ⟨_, a0, b0⟩
  · exact ⟨_, a1, b1⟩
  · exact ⟨_, a2, b2⟩
  · exact ⟨_, a3, b3⟩

/-- Witness of the amended C8: a `1 x 2` conic image in buffers of 9 and 8 bytes. -/
theorem generate_gradient_frame_witness :
    ∃ out out', generate_gradient libm_approx [1, 2, 3, 4, 5, 6, 7, 8, 9] ((1 : Nat) : Int)
        ((2 : Nat) : Int) [ColorStop.mk 0 255 0 0, ColorStop.mk 1 0 0 255] 0 1 = some out ∧
      generate_gradient libm_approx [0, 0, 0, 0, 0, 0, 0, 0] ((1 : Nat) : Int)
        ((2 : Nat) : Int) [ColorStop.mk 0 255 0 0, ColorStop.mk 1 0 0 255] 0 1 = some out' ∧
      out.length = ([1, 2, 3, 4, 5, 6, 7, 8, 9] : List Byte).length ∧
      (∀ j : Nat, 1 * 2 * 4 ≤ j → out[j]? = ([1, 2, 3, 4, 5, 6, 7, 8, 9] : List Byte)[j]?) ∧
      (∀ j : Nat, j < 1 * 2 * 4 → ∃ v, out[j]? = some v ∧ out'[j]? = some v) :=
  generate_gradient_frame libm_approx [1, 2, 3, 4, 5, 6, 7, 8, 9] [0, 0, 0, 0, 0, 0, 0, 0] 1 2
    [ColorStop.mk 0 255 0 0, ColorStop.mk 1 0 0 255] 0 1
    (by decide) (by decide) (by simp) (by decide) (by decide) (by decide)

theorem clamp01_mono {a b : ℚ} (h : a ≤ b) : clamp01 a ≤ clamp01 b := by
  unfold clamp01
  dsimp only
  split_ifs <;> linarith

/-- C9: for a `2 x 1` buffer, the stops `[(0.0, 255,0,0), (1.0, 0,0,255)]`, linear
mode and angle `0`, `generate_gradient` leaves the buffer equal to the 8 bytes
`[255,0,0,255, 0,0,255,255]`. -/
theorem generate_gradient_two_by_one (m : Libm) (pixels : List Byte)
    (hlen : pixels.length = 8) :
    generate_gradient m pixels 2 1 [ColorStop.mk 0 255 0 0, ColorStop.mk 1 0 0 255] 0 0
      = some [255, 0, 0, 255, 0, 0, 255, 255] := by
  obtain ⟨s, out, hs, -, -, hout, hp⟩ := generate_gradient_spec m pixels 2 1
    [ColorStop.mk 0 255 0 0, ColorStop.mk 1 0 0 255] 0 0 (by decide) (by decide) (by simp)
    (by decide) (by omega)
  have hs' : s = ⟨1, 0, 0, 1, 1, 1 / 2, m.sqrt (1 * 1 + 1 / 2 * (1 / 2))⟩ := by
    have h1 : int_checked 1 = some 1 := by decide
    have h2 : int_checked 0 = some 0 := by decide
    simp [setup, coord_bounds, h1, h2, min_max_step, m.cos_zero, m.sin_zero] at hs
    rw [← hs]
    norm_num
  subst hs'
  have k0 : clamp01 0 = 0 := by norm_num [clamp01]
  have k1 : clamp01 1 = 1 := by norm_num [clamp01]
  have e0 : interpolate_color 0 [ColorStop.mk 0 255 0 0, ColorStop.mk 1 0 0 255]
      = some (255, 0, 0) := by decide!
  have e1 : interpolate_color 1 [ColorStop.mk 0 255 0 0, ColorStop.mk 1 0 0 255]
      = some (0, 0, 255) := by decide!
  have c0 : image_color m ⟨1, 0, 0, 1, 1, 1 / 2, m.sqrt (1 * 1 + 1 / 2 * (1 / 2))⟩
      [ColorStop.mk 0 255 0 0, ColorStop.mk 1 0 0 255] 0 2 0 = (255, 0, 0) := by
    have t0 : pixel_t m ⟨1, 0, 0, 1, 1, 1 / 2, m.sqrt (1 * 1 + 1 / 2 * (1 / 2))⟩ 0
        ((0 % 2 : Nat) : Int) ((0 / 2 : Nat) : Int) = some 0 := by
      norm_num [pixel_t, fdiv]
    simp only [image_color, pixel_color, t0, Option.bind_eq_bind, Option.some_bind, k0, e0,
      Option.getD_some]
  have c1 : image_color m ⟨1, 0, 0, 1, 1, 1 / 2, m.sqrt (1 * 1 + 1 / 2 * (1 / 2))⟩
      [ColorStop.mk 0 255 0 0, ColorStop.mk 1 0 0 255] 0 2 1 = (0, 0, 255) := by
    have t1 : pixel_t m ⟨1, 0, 0, 1, 1, 1 / 2, m.sqrt (1 * 1 + 1 / 2 * (1 / 2))⟩ 0
        ((1 % 2 : Nat) : Int) ((1 / 2 : Nat) : Int) = some 1 := by
      norm_num [pixel_t, fdiv]
    simp only [image_color, pixel_color, t1, Option.bind_eq_bind, Option.some_bind, k1, e1,
      Option.getD_some]
  obtain ⟨hl, hpx, -⟩ := hp
  obtain ⟨a0, a1, a2, a3⟩ := hpx 0 (by decide)
  obtain ⟨b0, b1, b2, b3⟩ := hpx 1 (by decide)
  rw [c0] at a0 a1 a2
  rw [c1] at b0 b1 b2
  have hout' : generate_gradient m pixels 2 1
      [ColorStop.mk 0 255 0 0, ColorStop.mk 1 0 0 255] 0 0 = some out := hout
  rw [hout']
  congr 1
  apply List.ext_getElem?
  intro n
  have hcases : n = 0 ∨ n = 1 ∨ n = 2 ∨ n = 3 ∨ n = 4 ∨ n = 5 ∨ n = 6 ∨ n = 7 ∨ 8 ≤ n := by omega
  rcases hcases with h | h | h | h | h | h | h | h | h
  · subst h; simpa using a0
  · subst h; simpa using a1
  · subst h; simpa using a2
  · subst h; simpa using a3
  · subst h; simpa using b0
  · subst h; simpa using b1
  · subst h; simpa using b2
  · subst h; simpa using b3
  · rw [List.getElem?_eq_none (by omega), List.getElem?_eq_none (by simp; omega)]

/-- Witness of C9 on a buffer of eight bytes `9`. -/
theorem generate_gradient_two_by_one_witness :
    ([9, 9, 9, 9, 9, 9, 9, 9] : List Byte).length = 8 ∧
    generate_gradient libm_approx [9, 9, 9, 9, 9, 9, 9, 9] 2 1
      [ColorStop.mk 0 255 0 0, ColorStop.mk 1 0 0 255] 0 0
      = some [255, 0, 0, 255, 0, 0, 255, 255] :=
  ⟨rfl, generate_gradient_two_by_one libm_approx [9, 9, 9, 9, 9, 9, 9, 9] rfl⟩

/-- C10: in linear mode at angle `0`, for every width > 0 and height > 0 (both
within `int`), the parameter `t` of the pixel `(x, y)` does not depend on `y` and
is non-decreasing in `x`, before and after the clamp of lines 82-83. -/
theorem linear_angle_zero_monotone (m : Libm) (w h : Nat) (hw : 0 < w) (hh : 0 < h)
    (hwmax : w ≤ 2147483647) (hhmax : h ≤ 2147483647) :
    ∃ s, setup m w h 0 0 = some s ∧ s.cos_angle = 1 ∧ s.sin_angle = 0 ∧
      (∀ x y1 y2 : Int, pixel_t m s 0 x y1 = pixel_t m s 0 x y2) ∧
      (∀ x1 x2 y : Int, x1 < x2 → ∃ t1 t2, pixel_t m s 0 x1 y = some t1 ∧
        pixel_t m s 0 x2 y = some t2 ∧ t1 ≤ t2 ∧ clamp01 t1 ≤ clamp01 t2) := by
  obtain ⟨s, hs, hrange, -, hcos, hsin, -⟩ := setup_spec m w h 0 0 hw hh hwmax hhmax
  have hc : s.cos_angle = 1 := by
    rw [hcos]
    simp [m.cos_zero]
  have hsn : s.sin_angle = 0 := by
    rw [hsin]
    simp [m.sin_zero]
  have ht : ∀ x y : Int, pixel_t m s 0 x y = some (((x : ℚ) - s.min_coord) / s.range) := by
    intro x y
    simp [pixel_t, fdiv, ne_of_gt hrange, hc, hsn]
  refine ⟨s, hs, hc, hsn, ?_, ?_⟩
  · intro x y1 y2
    rw [ht, ht]
  · intro x1 x2 y hx
    have hq : (x1 : ℚ) ≤ (x2 : ℚ) := by exact_mod_cast hx.le
    have hle : ((x1 : ℚ) - s.min_coord) / s.range ≤ ((x2 : ℚ) - s.min_coord) / s.range :=
      div_le_div_of_nonneg_right (by linarith) hrange.le
    exact ⟨_, _, ht x1 y, ht x2 y, hle, clamp01_mono hle⟩

/-- Witness of C10 on a `3 x 2` image. -/
theorem linear_angle_zero_monotone_witness :
    ∃ s, setup libm_approx ((3 : Nat) : Int) ((2 : Nat) : Int) 0 0 = some s ∧
      s.cos_angle = 1 ∧ s.sin_angle = 0 ∧
      (∀ x y1 y2 : Int, pixel_t libm_approx s 0 x y1 = pixel_t libm_approx s 0 x y2) ∧
      (∀ x1 x2 y : Int, x1 < x2 → ∃ t1 t2, pixel_t libm_approx s 0 x1 y = some t1 ∧
        pixel_t libm_approx s 0 x2 y = some t2 ∧ t1 ≤ t2 ∧ clamp01 t1 ≤ clamp01 t2) :=
  linear_angle_zero_monotone libm_approx 3 2 (by decide) (by decide) (by decide) (by decide)


/-! ## Linear mode: the corner projections -/

theorem min_max_step_eq (acc : ℚ × ℚ) (c : ℚ) :
    min_max_step acc c = (min acc.1 c, max acc.2 c) := by
  unfold min_max_step
  rw [min_def, max_def]
  congr 1
  · split_ifs <;> first | rfl | linarith
  · split_ifs <;> first | rfl | linarith

/-- The loop of lines 47-52 computes the least and the greatest of the four
corner projections. -/
theorem coord_bounds_linear (cos_a sin_a : ℚ) (w h : Nat) (hw : 0 < w) (hh : 0 < h)
    (hwmax : w ≤ 2147483647) (hhmax : h ≤ 2147483647) :
    coord_bounds cos_a sin_a w h 0 = some (corner_min cos_a sin_a w h, corner_max cos_a sin_a w h) := by
  have c1 : int_checked ((w : Int) - 1) = some ((w : Int) - 1) :=
    int_checked_of_bounds (by omega) (by omega)
  have c2 : int_checked ((h : Int) - 1) = some ((h : Int) - 1) :=
    int_checked_of_bounds (by omega) (by omega)
  have ew : (((w : Int) - 1 : Int) : ℚ) = (w : ℚ) - 1 := by push_cast; ring
  have eh : (((h : Int) - 1 : Int) : ℚ) = (h : ℚ) - 1 := by push_cast; ring
  simp only [coord_bounds, if_true, c1, c2, Option.bind_eq_bind, Option.some_bind, List.foldl,
    min_max_step_eq, ew, eh, corner_min, corner_max, min_assoc, max_assoc]

/-- The values of lines 36-60 in linear mode. -/
theorem setup_linear (m : Libm) (w h : Nat) (angle : ℚ) (hw : 0 < w) (hh : 0 < h)
    (hwmax : w ≤ 2147483647) (hhmax : h ≤ 2147483647) :
    ∃ s, setup m w h angle 0 = some s ∧
      s.cos_angle = m.cos (angle * M_PI / 180) ∧ s.sin_angle = m.sin (angle * M_PI / 180) ∧
      s.min_coord = corner_min s.cos_angle s.sin_angle w h ∧
      s.range = (if corner_max s.cos_angle s.sin_angle w h
          - corner_min s.cos_angle s.sin_angle w h = 0 then 1
        else corner_max s.cos_angle s.sin_angle w h - corner_min s.cos_angle s.sin_angle w h) := by
  have hb := coord_bounds_linear (m.cos (angle * M_PI / 180)) (m.sin (angle * M_PI / 180))
    w h hw hh hwmax hhmax
  exact ⟨_, by simp only [setup, hb, Option.bind_eq_bind, Option.some_bind]; rfl,
    rfl, rfl, rfl, rfl⟩

theorem corner_min_angle_zero (w h : Nat) (hw : 0 < w) : corner_min 1 0 w h = 0 := by
  have : (0 : ℚ) ≤ (w : ℚ) - 1 := by
    have : (1 : ℚ) ≤ (w : ℚ) := by exact_mod_cast hw
    linarith
  simp [corner_min, this]

theorem corner_max_angle_zero (w h : Nat) (hw : 0 < w) : corner_max 1 0 w h = (w : ℚ) - 1 := by
  have : (0 : ℚ) ≤ (w : ℚ) - 1 := by
    have : (1 : ℚ) ≤ (w : ℚ) := by exact_mod_cast hw
    linarith
  simp [corner_max, this]

/-- The values of lines 36-56 in linear mode at angle `0`. -/
theorem setup_linear_angle_zero (m : Libm) (w h : Nat) (hw : 0 < w) (hh : 0 < h)
    (hwmax : w ≤ 2147483647) (hhmax : h ≤ 2147483647) :
    ∃ s, setup m w h 0 0 = some s ∧ s.cos_angle = 1 ∧ s.sin_angle = 0 ∧ s.min_coord = 0 ∧
      s.range = (if (w : ℚ) - 1 = 0 then 1 else (w : ℚ) - 1) := by
  obtain ⟨s, hs, hc, hsn, hmin, hrange⟩ := setup_linear m w h 0 hw hh hwmax hhmax
  have hc1 : s.cos_angle = 1 := by rw [hc]; simp [m.cos_zero]
  have hs0 : s.sin_angle = 0 := by rw [hsn]; simp [m.sin_zero]
  rw [hc1, hs0, corner_min_angle_zero w h hw] at hmin
  rw [hc1, hs0, corner_min_angle_zero w h hw, corner_max_angle_zero w h hw, sub_zero] at hrange
  exact ⟨s, hs, hc1, hs0, hmin, hrange⟩

/-- C11, refuted as stated: for width `1` and height `1` in linear mode at angle
`0`, the pixel `(0, 0)` is in the column `x = width - 1` and its `t` is `0`, not `1`
(the four corner projections are equal, so line 56 sets `range` to `1`). -/
theorem linear_angle_zero_width_one :
    ((setup libm_approx 1 1 0 0).bind fun s => pixel_t libm_approx s 0 (1 - 1) 0) = some 0 ∧
    ((setup libm_approx 1 1 0 0).bind fun s => pixel_t libm_approx s 0 (1 - 1) 0) ≠ some 1 := by
  decide!

/-- C11, amended: in linear mode at angle `0`, for every width > 0 and height > 0
(both within `int`), every pixel in the column `x = 0` has `t = 0`, and when the
width is at least `2` every pixel in the column `x = width - 1` has `t = 1`. -/
theorem linear_angle_zero_span (m : Libm) (w h : Nat) (hw : 0 < w) (hh : 0 < h)
    (hwmax : w ≤ 2147483647) (hhmax : h ≤ 2147483647) :
    ∃ s, setup m w h 0 0 = some s ∧
      (∀ y : Int, pixel_t m s 0 0 y = some 0) ∧
      (2 ≤ w → ∀ y : Int, pixel_t m s 0 ((w : Int) - 1) y = some 1) := by
  obtain ⟨s, hs, hc, hsn, hmin, hrange⟩ := setup_linear_angle_zero m w h hw hh hwmax hhmax
  refine ⟨s, hs, ?_, ?_⟩
  · intro y
    have hr : s.range ≠ 0 := by
      rw [hrange]
      split_ifs with h0
      · norm_num
      · exact h0
    simp [pixel_t, fdiv, hr, hc, hsn, hmin]
  · intro hw2 y
    have hw1 : (w : ℚ) - 1 ≠ 0 := by
      have : (2 : ℚ) ≤ (w : ℚ) := by exact_mod_cast hw2
      intro e
      linarith
    rw [if_neg hw1] at hrange
    have e : (((w : Int) - 1 : Int) : ℚ) = (w : ℚ) - 1 := by push_cast; ring
    simp only [pixel_t, if_true, fdiv, hrange, hw1, if_false, hc, hsn, hmin, e]
    congr 1
    field_simp

/-- Witness of the amended C11 on a `3 x 2` image. -/
theorem linear_angle_zero_span_witness :
    ∃ s, setup libm_approx ((3 : Nat) : Int) ((2 : Nat) : Int) 0 0 = some s ∧
      (∀ y : Int, pixel_t libm_approx s 0 0 y = some 0) ∧
      (2 ≤ 3 → ∀ y : Int, pixel_t libm_approx s 0 (((3 : Nat) : Int) - 1) y = some 1) :=
  linear_angle_zero_span libm_approx 3 2 (by decide) (by decide) (by decide) (by decide)

/-! ## Radial and conic mode -/

theorem clamp01_zero : clamp01 0 = 0 := by
  norm_num [clamp01]

theorem clamp01_one : clamp01 1 = 1 := by
  norm_num [clamp01]

/-- Outside linear mode lines 39-56 leave `min_coord = 0` and `range = 1`. -/
theorem setup_not_linear (m : Libm) (width height : Int) (angle : ℚ) (mode : Int)
    (hmode : mode ≠ 0) :
    setup m width height angle mode = some
      ⟨m.cos (angle * M_PI / 180), m.sin (angle * M_PI / 180), 0, 1,
        (width : ℚ) / 2, (height : ℚ) / 2,
        m.sqrt ((width : ℚ) / 2 * ((width : ℚ) / 2) + (height : ℚ) / 2 * ((height : ℚ) / 2))⟩ := by
  simp [setup, coord_bounds, hmode]

/-- C12: in radial mode with width = height = 100, the pixel at the centre
`(50, 50)` has `t = 0` and the corner `(0, 0)` has `t = 1`, so they receive
`interpolate_color(0)` and `interpolate_color(1)`; `sqrt(0) = 0` is the fact about
the C library that is used. -/
theorem radial_centre_and_corner (m : Libm) (hsqrt : m.sqrt 0 = 0)
    (stops : List ColorStop) (angle : ℚ) :
    ∃ s, setup m 100 100 angle 2 = some s ∧
      pixel_t m s 2 50 50 = some 0 ∧ pixel_t m s 2 0 0 = some 1 ∧
      pixel_color m s stops 2 50 50 = interpolate_color 0 stops ∧
      pixel_color m s stops 2 0 0 = interpolate_color 1 stops := by
  have hs := setup_not_linear m 100 100 angle 2 (by decide)
  have hpos : 0 < m.sqrt ((100 : ℚ) / 2 * ((100 : ℚ) / 2) + (100 : ℚ) / 2 * ((100 : ℚ) / 2)) :=
    m.sqrt_pos _ (by norm_num)
  have t0 : pixel_t m ⟨m.cos (angle * M_PI / 180), m.sin (angle * M_PI / 180), 0, 1,
      (100 : ℚ) / 2, (100 : ℚ) / 2,
      m.sqrt ((100 : ℚ) / 2 * ((100 : ℚ) / 2) + (100 : ℚ) / 2 * ((100 : ℚ) / 2))⟩ 2 50 50
      = some 0 := by
    have e : ((50 : ℚ) - 100 / 2) * (50 - 100 / 2) + (50 - 100 / 2) * (50 - 100 / 2) = 0 := by
      norm_num
    simp [pixel_t, fdiv, ne_of_gt hpos, e, hsqrt]
  have t1 : pixel_t m ⟨m.cos (angle * M_PI / 180), m.sin (angle * M_PI / 180), 0, 1,
      (100 : ℚ) / 2, (100 : ℚ) / 2,
      m.sqrt ((100 : ℚ) / 2 * ((100 : ℚ) / 2) + (100 : ℚ) / 2 * ((100 : ℚ) / 2))⟩ 2 0 0
      = some 1 := by
    have e : ((0 : ℚ) - 100 / 2) * (0 - 100 / 2) + (0 - 100 / 2) * (0 - 100 / 2)
        = (100 : ℚ) / 2 * ((100 : ℚ) / 2) + (100 : ℚ) / 2 * ((100 : ℚ) / 2) := by
      norm_num
    simp only [pixel_t, fdiv, ne_of_gt hpos, if_false, Int.cast_zero, e,
      show ¬ ((2 : Int) = 0) by decide, show ¬ ((2 : Int) = 1) by decide]
    rw [div_self (ne_of_gt hpos)]
  refine ⟨_, hs, ?_, ?_, ?_, ?_⟩
  · simpa using t0
  · simpa using t1
  · simp only [pixel_color, Option.bind_eq_bind]
    rw [show pixel_t m _ 2 50 50 = some 0 from by simpa using t0]
    simp [clamp01_zero]
  · simp only [pixel_color, Option.bind_eq_bind]
    rw [show pixel_t m _ 2 0 0 = some 1 from by simpa using t1]
    simp [clamp01_one]

/-- Witness of C12 with the stand-in C library. -/
theorem radial_centre_and_corner_witness :
    libm_approx.sqrt 0 = 0 ∧
    ∃ s, setup libm_approx 100 100 0 2 = some s ∧
      pixel_t libm_approx s 2 50 50 = some 0 ∧ pixel_t libm_approx s 2 0 0 = some 1 ∧
      pixel_color libm_approx s [ColorStop.mk 0 255 0 0, ColorStop.mk 1 0 0 255] 2 50 50
        = interpolate_color 0 [ColorStop.mk 0 255 0 0, ColorStop.mk 1 0 0 255] ∧
      pixel_color libm_approx s [ColorStop.mk 0 255 0 0, ColorStop.mk 1 0 0 255] 2 0 0
        = interpolate_color 1 [ColorStop.mk 0 255 0 0, ColorStop.mk 1 0 0 255] :=
  ⟨by decide!, radial_centre_and_corner libm_approx (by decide!)
    [ColorStop.mk 0 255 0 0, ColorStop.mk 1 0 0 255] 0⟩

/-- The parameter `t` of conic mode (lines 71-73). -/
theorem pixel_t_conic (m : Libm) (s : Setup) (x y : Int) :
    pixel_t m s 1 x y
      = some ((m.atan2 ((y : ℚ) - s.cy) ((x : ℚ) - s.cx) + M_PI) / (2 * M_PI)) := by
  have hpi : (2 * M_PI) ≠ 0 := ne_of_gt (by have := M_PI_pos; linarith)
  simp only [pixel_t, show ¬ ((1 : Int) = 0) by decide, if_false, if_true, fdiv, hpi]

/-- C13: in conic mode, for every width and height and every pixel `(x, y)` with
`y` equal to `cy = height/2` and `x > cx = width/2`, `t` equals `0.5`;
`atan2(0, positive) = 0` is the fact about the C library that is used. -/
theorem conic_east_half (m : Libm) (hatan : ∀ q : ℚ, 0 < q → m.atan2 0 q = 0)
    (width height : Int) (angle : ℚ) :
    ∃ s, setup m width height angle 1 = some s ∧
      s.cx = (width : ℚ) / 2 ∧ s.cy = (height : ℚ) / 2 ∧
      ∀ x y : Int, (y : ℚ) = s.cy → s.cx < (x : ℚ) →
        (m.atan2 ((y : ℚ) - s.cy) ((x : ℚ) - s.cx) + M_PI) / (2 * M_PI) = 1 / 2 ∧
        pixel_t m s 1 x y = some (1 / 2) := by
  refine ⟨_, setup_not_linear m width height angle 1 (by decide), rfl, rfl, ?_⟩
  intro x y hy hx
  have hpi := M_PI_pos
  change (y : ℚ) = (height : ℚ) / 2 at hy
  change (width : ℚ) / 2 < (x : ℚ) at hx
  have e' : (m.atan2 ((y : ℚ) - (height : ℚ) / 2) ((x : ℚ) - (width : ℚ) / 2) + M_PI)
      / (2 * M_PI) = 1 / 2 := by
    rw [hy, sub_self, hatan _ (by linarith), zero_add]
    field_simp
    ring
  refine ⟨e', ?_⟩
  rw [pixel_t_conic]
  exact congrArg some e'

/-- Witness of C13 on a `4 x 2` image: the pixel `(3, 1)`. -/
theorem conic_east_half_witness :
    ∃ s, setup libm_approx 4 2 0 1 = some s ∧
      s.cx = ((4 : Int) : ℚ) / 2 ∧ s.cy = ((2 : Int) : ℚ) / 2 ∧
      ∀ x y : Int, (y : ℚ) = s.cy → s.cx < (x : ℚ) →
        (libm_approx.atan2 ((y : ℚ) - s.cy) ((x : ℚ) - s.cx) + M_PI) / (2 * M_PI) = 1 / 2 ∧
        pixel_t libm_approx s 1 x y = some (1 / 2) :=
  conic_east_half libm_approx
    (by
      intro q hq
      show (if (0 : ℚ) = 0 then (if q < 0 then M_PI else 0)
        else if (0 : ℚ) < 0 then M_PI / 2 else -(M_PI / 2)) = 0
      rw [if_pos rfl, if_neg (not_lt.mpr hq.le)])
    4 2 0

/-- C14, refuted as stated: in conic mode on a `2 x 2` image the pixel `(0, 1)`,
on the row of the centre and west of it, has `dy = 0` and `dx = -1`;
`atan2(0, -1)` is `M_PI`, so its unclamped `t` is `1`, which is not `< 1`. -/
theorem conic_west_t_one :
    libm_approx.atan2 0 (-1) = M_PI ∧
    ((setup libm_approx 2 2 0 1).bind fun s => pixel_t libm_approx s 1 0 1) = some 1 ∧
    ¬ ((1 : ℚ) < 1) := by
  decide!

/-- C14, amended: in conic mode, for every width, height and pixel, the unclamped
`t = (atan2(y - cy, x - cx) + pi)/(2*pi)` lies in the closed interval `[0, 1]`;
the range `[-M_PI, M_PI]` of `atan2` is the fact about the C library that is used. -/
theorem conic_t_range (m : Libm)
    (hatan : ∀ a b : ℚ, -M_PI ≤ m.atan2 a b ∧ m.atan2 a b ≤ M_PI)
    (width height : Int) (angle : ℚ) :
    ∃ s, setup m width height angle 1 = some s ∧
      ∀ x y : Int, ∃ t, pixel_t m s 1 x y = some t ∧
        t = (m.atan2 ((y : ℚ) - s.cy) ((x : ℚ) - s.cx) + M_PI) / (2 * M_PI) ∧
        0 ≤ t ∧ t ≤ 1 := by
  refine ⟨_, setup_not_linear m width height angle 1 (by decide), ?_⟩
  intro x y
  refine ⟨_, pixel_t_conic m _ x y, rfl, ?_, ?_⟩
  · have hpi := M_PI_pos
    exact div_nonneg (by linarith [(hatan ((y : ℚ) - (height : ℚ) / 2)
      ((x : ℚ) - (width : ℚ) / 2)).1]) (by linarith)
  · have hpi := M_PI_pos
    rw [div_le_one (by linarith)]
    linarith [(hatan ((y : ℚ) - (height : ℚ) / 2) ((x : ℚ) - (width : ℚ) / 2)).2]

/-- Witness of the amended C14 with the stand-in C library on a `2 x 2` image. -/
theorem conic_t_range_witness :
    ∃ s, setup libm_approx 2 2 0 1 = some s ∧
      ∀ x y : Int, ∃ t, pixel_t libm_approx s 1 x y = some t ∧
        t = (libm_approx.atan2 ((y : ℚ) - s.cy) ((x : ℚ) - s.cx) + M_PI) / (2 * M_PI) ∧
        0 ≤ t ∧ t ≤ 1 :=
  conic_t_range libm_approx
    (by
      intro a b
      have hpi := M_PI_pos
      show -M_PI ≤ (if a = 0 then (if b < 0 then M_PI else 0)
          else if 0 < a then M_PI / 2 else -(M_PI / 2)) ∧
        (if a = 0 then (if b < 0 then M_PI else 0)
          else if 0 < a then M_PI / 2 else -(M_PI / 2)) ≤ M_PI
      split_ifs <;> constructor <;> linarith)
    2 2 0

/-! ## The range of `t` in linear and radial mode -/

theorem clamp01_of_mem {t : ℚ} (h0 : 0 ≤ t) (h1 : t ≤ 1) : clamp01 t = t := by
  unfold clamp01
  dsimp only
  rw [if_neg (not_lt.mpr h0), if_neg (not_lt.mpr h1)]

/-- The projection of a pixel of the image lies between the least and the
greatest corner projection, for every direction `(c, sn)`. -/
theorem corner_projection_bounds (c sn : ℚ) (w h x y : Nat) (hx : x < w) (hy : y < h) :
    corner_min c sn w h ≤ (x : ℚ) * c + (y : ℚ) * sn ∧
    (x : ℚ) * c + (y : ℚ) * sn ≤ corner_max c sn w h := by
  have hx0 : (0 : ℚ) ≤ (x : ℚ) := Nat.cast_nonneg x
  have hy0 : (0 : ℚ) ≤ (y : ℚ) := Nat.cast_nonneg y
  have hxw : (0 : ℚ) ≤ (w : ℚ) - 1 - (x : ℚ) := by
    have : (x : ℚ) + 1 ≤ (w : ℚ) := by exact_mod_cast hx
    linarith
  have hyh : (0 : ℚ) ≤ (h : ℚ) - 1 - (y : ℚ) := by
    have : (y : ℚ) + 1 ≤ (h : ℚ) := by exact_mod_cast hy
    linarith
  unfold corner_min corner_max
  rcases le_total 0 c with hc | hc <;> rcases le_total 0 sn with hs | hs
  · have a1 := mul_nonneg hx0 hc
    have a2 := mul_nonneg hy0 hs
    have a3 := mul_nonneg hxw hc
    have a4 := mul_nonneg hyh hs
    constructor
    · exact le_trans (min_le_left _ _) (le_trans (min_le_left _ _) (by linarith))
    · exact le_trans (by linarith) (le_trans (le_max_right _ _) (le_max_right _ _))
  · have a1 := mul_nonneg hx0 hc
    have a2 := mul_nonpos_of_nonneg_of_nonpos hy0 hs
    have a3 := mul_nonneg hxw hc
    have a4 := mul_nonpos_of_nonneg_of_nonpos hyh hs
    constructor
    · exact le_trans (min_le_right _ _) (le_trans (min_le_left _ _) (by linarith))
    · exact le_trans (by linarith) (le_trans (le_max_right _ _) (le_max_left _ _))
  · have a1 := mul_nonpos_of_nonneg_of_nonpos hx0 hc
    have a2 := mul_nonneg hy0 hs
    have a3 := mul_nonpos_of_nonneg_of_nonpos hxw hc
    have a4 := mul_nonneg hyh hs
    constructor
    · exact le_trans (min_le_left _ _) (le_trans (min_le_right _ _) (by linarith))
    · exact le_trans (by linarith) (le_trans (le_max_left _ _) (le_max_right _ _))
  · have a1 := mul_nonpos_of_nonneg_of_nonpos hx0 hc
    have a2 := mul_nonpos_of_nonneg_of_nonpos hy0 hs
    have a3 := mul_nonpos_of_nonneg_of_nonpos hxw hc
    have a4 := mul_nonpos_of_nonneg_of_nonpos hyh hs
    constructor
    · exact le_trans (min_le_right _ _) (le_trans (min_le_right _ _) (by linarith))
    · exact le_trans (by linarith) (le_trans (le_max_left _ _) (le_max_left _ _))

/-- C15: in linear mode, for every direction `(cos_a, sin_a)`, every width > 0,
height > 0 (within `int`) and every pixel `(x, y)` of the image, the projection
`x*cos_a + y*sin_a` lies between the minimum and the maximum of the four corner
projections, which is what lines 47-52 compute; so the unclamped
`t = (coord - min_coord)/range` is in `[0, 1]` and the clamp does not change it. -/
theorem linear_t_range (m : Libm) (w h : Nat) (angle : ℚ) (hw : 0 < w) (hh : 0 < h)
    (hwmax : w ≤ 2147483647) (hhmax : h ≤ 2147483647) :
    (∀ c sn : ℚ,
      coord_bounds c sn w h 0 = some (corner_min c sn w h, corner_max c sn w h) ∧
      ∀ x y : Nat, x < w → y < h →
        corner_min c sn w h ≤ (x : ℚ) * c + (y : ℚ) * sn ∧
        (x : ℚ) * c + (y : ℚ) * sn ≤ corner_max c sn w h) ∧
    ∃ s, setup m w h angle 0 = some s ∧
      s.min_coord = corner_min s.cos_angle s.sin_angle w h ∧
      ∀ x y : Nat, x < w → y < h → ∃ t, pixel_t m s 0 x y = some t ∧
        t = ((x : ℚ) * s.cos_angle + (y : ℚ) * s.sin_angle - s.min_coord) / s.range ∧
        0 ≤ t ∧ t ≤ 1 ∧ clamp01 t = t := by
  refine ⟨fun c sn => ⟨coord_bounds_linear c sn w h hw hh hwmax hhmax,
    fun x y hx hy => corner_projection_bounds c sn w h x y hx hy⟩, ?_⟩
  obtain ⟨s, hs, -, -, hmin, hrange⟩ := setup_linear m w h angle hw hh hwmax hhmax
  refine ⟨s, hs, hmin, ?_⟩
  intro x y hx hy
  obtain ⟨hlo, hhi⟩ := corner_projection_bounds s.cos_angle s.sin_angle w h x y hx hy
  have hr : 0 < s.range := by
    rw [hrange]
    split_ifs with h0
    · norm_num
    · exact lt_of_le_of_ne (by linarith) (Ne.symm h0)
  have hle : (x : ℚ) * s.cos_angle + (y : ℚ) * s.sin_angle - s.min_coord ≤ s.range := by
    rw [hrange, hmin]
    split_ifs with h0
    · linarith
    · linarith
  have ht : pixel_t m s 0 x y
      = some (((x : ℚ) * s.cos_angle + (y : ℚ) * s.sin_angle - s.min_coord) / s.range) := by
    simp [pixel_t, fdiv, ne_of_gt hr]
  have h0t : 0 ≤ ((x : ℚ) * s.cos_angle + (y : ℚ) * s.sin_angle - s.min_coord) / s.range :=
    div_nonneg (by rw [hmin]; linarith) hr.le
  have h1t : ((x : ℚ) * s.cos_angle + (y : ℚ) * s.sin_angle - s.min_coord) / s.range ≤ 1 := by
    rw [div_le_one hr]
    exact hle
  exact ⟨_, ht, rfl, h0t, h1t, clamp01_of_mem h0t h1t⟩

/-- Witness of C15 on a `3 x 2` image at angle `30` with the stand-in C library. -/
theorem linear_t_range_witness :
    (∀ c sn : ℚ,
      coord_bounds c sn ((3 : Nat) : Int) ((2 : Nat) : Int) 0
        = some (corner_min c sn 3 2, corner_max c sn 3 2) ∧
      ∀ x y : Nat, x < 3 → y < 2 →
        corner_min c sn 3 2 ≤ (x : ℚ) * c + (y : ℚ) * sn ∧
        (x : ℚ) * c + (y : ℚ) * sn ≤ corner_max c sn 3 2) ∧
    ∃ s, setup libm_approx ((3 : Nat) : Int) ((2 : Nat) : Int) 30 0 = some s ∧
      s.min_coord = corner_min s.cos_angle s.sin_angle 3 2 ∧
      ∀ x y : Nat, x < 3 → y < 2 → ∃ t, pixel_t libm_approx s 0 x y = some t ∧
        t = ((x : ℚ) * s.cos_angle + (y : ℚ) * s.sin_angle - s.min_coord) / s.range ∧
        0 ≤ t ∧ t ≤ 1 ∧ clamp01 t = t :=
  linear_t_range libm_approx 3 2 30 (by decide) (by decide) (by decide) (by decide)

/-- C16: in radial mode (every mode other than `0` and `1`), for every width > 0
and height > 0, `cx^2 + cy^2` is positive, so `max_radius = sqrt(cx^2 + cy^2)` is
positive and line 79 does not divide by zero; for every pixel of the image the
distance to the centre is at most `max_radius`, so the unclamped
`t = dist/max_radius` is in `[0, 1]`.  The facts about the C library that are
used: `sqrt` is monotone and `sqrt(0) = 0`. -/
theorem radial_t_range (m : Libm) (hmono : ∀ a b : ℚ, a ≤ b → m.sqrt a ≤ m.sqrt b)
    (hsqrt : m.sqrt 0 = 0) (w h : Nat) (hw : 0 < w) (hh : 0 < h) (angle : ℚ) (mode : Int)
    (hm0 : mode ≠ 0) (hm1 : mode ≠ 1) :
    ∃ s, setup m w h angle mode = some s ∧
      s.max_radius = m.sqrt (s.cx * s.cx + s.cy * s.cy) ∧
      0 < s.cx * s.cx + s.cy * s.cy ∧ 0 < s.max_radius ∧
      ∀ x y : Nat, x < w → y < h →
        m.sqrt (((x : ℚ) - s.cx) * ((x : ℚ) - s.cx) + ((y : ℚ) - s.cy) * ((y : ℚ) - s.cy))
          ≤ s.max_radius ∧
        ∃ t, pixel_t m s mode x y = some t ∧
          t = m.sqrt (((x : ℚ) - s.cx) * ((x : ℚ) - s.cx) + ((y : ℚ) - s.cy) * ((y : ℚ) - s.cy))
            / s.max_radius ∧
          0 ≤ t ∧ t ≤ 1 := by
  have hwq : (0 : ℚ) < (w : ℚ) := by exact_mod_cast hw
  have hhq : (0 : ℚ) < (h : ℚ) := by exact_mod_cast hh
  have hsum : (0 : ℚ) < (w : ℚ) / 2 * ((w : ℚ) / 2) + (h : ℚ) / 2 * ((h : ℚ) / 2) := by
    positivity
  have hrad := m.sqrt_pos _ hsum
  have hs := setup_not_linear m w h angle mode hm0
  simp only [Int.cast_natCast] at hs
  refine ⟨_, hs, rfl, hsum, hrad, ?_⟩
  intro x y hx hy
  have hxw : (x : ℚ) + 1 ≤ (w : ℚ) := by exact_mod_cast hx
  have hyh : (y : ℚ) + 1 ≤ (h : ℚ) := by exact_mod_cast hy
  have hx0 : (0 : ℚ) ≤ (x : ℚ) := Nat.cast_nonneg x
  have hy0 : (0 : ℚ) ≤ (y : ℚ) := Nat.cast_nonneg y
  have hdx : ((x : ℚ) - (w : ℚ) / 2) * ((x : ℚ) - (w : ℚ) / 2) ≤ (w : ℚ) / 2 * ((w : ℚ) / 2) := by
    nlinarith [mul_nonneg hx0 (show (0 : ℚ) ≤ (w : ℚ) - (x : ℚ) by linarith)]
  have hdy : ((y : ℚ) - (h : ℚ) / 2) * ((y : ℚ) - (h : ℚ) / 2) ≤ (h : ℚ) / 2 * ((h : ℚ) / 2) := by
    nlinarith [mul_nonneg hy0 (show (0 : ℚ) ≤ (h : ℚ) - (y : ℚ) by linarith)]
  have hdist := hmono _ _ (add_le_add hdx hdy)
  have hnonneg : 0 ≤ m.sqrt (((x : ℚ) - (w : ℚ) / 2) * ((x : ℚ) - (w : ℚ) / 2)
      + ((y : ℚ) - (h : ℚ) / 2) * ((y : ℚ) - (h : ℚ) / 2)) := by
    have h0 : (0 : ℚ) ≤ ((x : ℚ) - (w : ℚ) / 2) * ((x : ℚ) - (w : ℚ) / 2)
        + ((y : ℚ) - (h : ℚ) / 2) * ((y : ℚ) - (h : ℚ) / 2) :=
      add_nonneg (mul_self_nonneg _) (mul_self_nonneg _)
    have := hmono _ _ h0
    rw [hsqrt] at this
    exact this
  refine ⟨hdist, _, ?_, rfl, div_nonneg hnonneg hrad.le, ?_⟩
  · simp [pixel_t, hm0, hm1, fdiv, ne_of_gt hrad]
  · rw [div_le_one hrad]
    exact hdist

/-- Witness of C16 on a `4 x 2` image with the stand-in C library. -/
theorem radial_t_range_witness :
    ∃ s, setup libm_approx ((4 : Nat) : Int) ((2 : Nat) : Int) 0 2 = some s ∧
      s.max_radius = libm_approx.sqrt (s.cx * s.cx + s.cy * s.cy) ∧
      0 < s.cx * s.cx + s.cy * s.cy ∧ 0 < s.max_radius ∧
      ∀ x y : Nat, x < 4 → y < 2 →
        libm_approx.sqrt (((x : ℚ) - s.cx) * ((x : ℚ) - s.cx)
          + ((y : ℚ) - s.cy) * ((y : ℚ) - s.cy)) ≤ s.max_radius ∧
        ∃ t, pixel_t libm_approx s 2 x y = some t ∧
          t = libm_approx.sqrt (((x : ℚ) - s.cx) * ((x : ℚ) - s.cx)
            + ((y : ℚ) - s.cy) * ((y : ℚ) - s.cy)) / s.max_radius ∧
          0 ≤ t ∧ t ≤ 1 :=
  radial_t_range libm_approx
    (by
      intro a b hab
      show (if a ≤ 0 then (0 : ℚ) else (a + 1) / 2) ≤ (if b ≤ 0 then (0 : ℚ) else (b + 1) / 2)
      split_ifs <;> linarith)
    (by decide!) 4 2 (by decide) (by decide) 0 2 (by decide) (by decide)

/-! ## The index at which the ratio of line 18 is evaluated -/

theorem ratio_index_loop_spec (t : ℚ) (stops : List ColorStop) :
    ∀ k i j : Nat, i + k = stops.length → ratio_index_loop t stops k i = some j →
      i ≤ j ∧ (∃ sj, stops[j]? = some sj ∧ t ≤ sj.position) ∧
      ∀ (l : Nat) (s : ColorStop), i ≤ l → l < j → stops[l]? = some s → ¬ t ≤ s.position := by
  intro k
  induction k with
  | zero =>
    intro i j _ h
    simp [ratio_index_loop] at h
  | succ k ih =>
    intro i j hik h
    have hil : i < stops.length := by omega
    simp only [ratio_index_loop, List.getElem?_eq_getElem hil, Option.bind_eq_bind,
      Option.some_bind] at h
    by_cases ht : t ≤ stops[i].position
    · rw [if_pos ht] at h
      cases h
      exact ⟨le_refl _, ⟨stops[i], List.getElem?_eq_getElem hil, ht⟩,
        fun l s h1 h2 _ => absurd h1 (by omega)⟩
    · rw [if_neg ht] at h
      obtain ⟨h1, h2, h3⟩ := ih (i + 1) j (by omega) h
      refine ⟨by omega, h2, ?_⟩
      intro l s hl hlj hls
      rcases Nat.eq_or_lt_of_le hl with e | hlt
      · subst e
        rw [List.getElem?_eq_getElem hil] at hls
        cases hls
        exact ht
      · exact h3 l s (by omega) hlj hls

/-- When the ratio is evaluated at index `i`, then `i >= 1`,
`stops[i-1].position < t <= stops[i].position`, and the call returns the segment
between `stops[i-1]` and `stops[i]`. -/
theorem ratio_index_spec {t : ℚ} {stops : List ColorStop} {i : Nat}
    (h : ratio_index t stops = some i) :
    1 ≤ i ∧ ∃ sp si, stops[i - 1]? = some sp ∧ stops[i]? = some si ∧
      sp.position < t ∧ t ≤ si.position ∧
      interpolate_color t stops = interpolate_segment t sp si := by
  unfold ratio_index at h
  cases h0 : stops[0]? with
  | none => simp [h0] at h
  | some s0 =>
    have hn : 0 < stops.length := (List.getElem?_eq_some_iff.mp h0).1
    simp only [h0, Option.bind_eq_bind, Option.some_bind] at h
    by_cases ht : t ≤ s0.position
    · simp [ht] at h
    · rw [if_neg ht] at h
      obtain ⟨h1, ⟨si, hsi, hti⟩, hfirst⟩ :=
        ratio_index_loop_spec t stops (stops.length - 1) 1 i (by omega) h
      have hil : i < stops.length := (List.getElem?_eq_some_iff.mp hsi).1
      have hpl : i - 1 < stops.length := by omega
      have hprev : stops[i - 1].position < t := by
        by_cases e : i = 1
        · subst e
          have : stops[1 - 1]? = some s0 := h0
          rw [List.getElem?_eq_getElem hpl] at this
          cases this
          exact not_le.mp ht
        · exact not_le.mp (hfirst (i - 1) _ (by omega) (by omega)
            (List.getElem?_eq_getElem hpl))
      refine ⟨h1, stops[i - 1], si, List.getElem?_eq_getElem hpl, hsi, hprev, hti, ?_⟩
      have hloop := interpolate_color_loop_first t stops i stops[i - 1] si hsi
        (List.getElem?_eq_getElem hpl) hti (stops.length - 1) 1 (by omega) h1 hfirst
      simp [interpolate_color, h0, ht, hloop]

/-- C17, refuted as stated: there is no stop list, `t` and index `i` at which
`interpolate_color` evaluates the ratio of line 18 with a zero denominator;
the branch is taken only when `stops[i-1].position < t <= stops[i].position`. -/
theorem ratio_zero_divisor_unreachable :
    ¬ ∃ (stops : List ColorStop) (t : ℚ) (i : Nat) (sp si : ColorStop),
      stops[i - 1]? = some sp ∧ stops[i]? = some si ∧
      ratio_index t stops = some i ∧ si.position - sp.position = 0 := by
  rintro ⟨stops, t, i, sp, si, hsp, hsi, hidx, hzero⟩
  obtain ⟨-, sp', si', hsp', hsi', h1, h2, -⟩ := ratio_index_spec hidx
  rw [hsp] at hsp'
  rw [hsi] at hsi'
  cases hsp'
  cases hsi'
  linarith

/-- C17, amended: for every stop list, also one in which two adjacent stops share
the same position, and every `t`, whenever `interpolate_color` evaluates the ratio
of line 18 at an index `i`, `stops[i-1].position < t <= stops[i].position`, so the
denominator is positive and the division is not a division by zero. -/
theorem ratio_divisor_pos (t : ℚ) (stops : List ColorStop) (i : Nat)
    (h : ratio_index t stops = some i) :
    ∃ sp si, stops[i - 1]? = some sp ∧ stops[i]? = some si ∧
      sp.position < t ∧ t ≤ si.position ∧ 0 < si.position - sp.position ∧
      interpolate_color t stops = interpolate_segment t sp si ∧
      fdiv (t - sp.position) (si.position - sp.position)
        = some ((t - sp.position) / (si.position - sp.position)) := by
  obtain ⟨-, sp, si, hsp, hsi, h1, h2, hseg⟩ := ratio_index_spec h
  have hd : 0 < si.position - sp.position := by linarith
  exact ⟨sp, si, hsp, hsi, h1, h2, hd, hseg, by simp [fdiv, ne_of_gt hd]⟩

/-- Witness of the amended C17: the stops at index `1` and `2` share the position
`1/2`; at `t = 3/4` the ratio is evaluated at index `3`. -/
theorem ratio_divisor_pos_witness :
    ratio_index (3 / 4) [ColorStop.mk 0 255 0 0, ColorStop.mk (1 / 2) 0 255 0,
      ColorStop.mk (1 / 2) 0 0 255, ColorStop.mk 1 255 255 255] = some 3 ∧
    ∃ sp si, [ColorStop.mk 0 255 0 0, ColorStop.mk (1 / 2) 0 255 0,
        ColorStop.mk (1 / 2) 0 0 255, ColorStop.mk 1 255 255 255][3 - 1]? = some sp ∧
      [ColorStop.mk 0 255 0 0, ColorStop.mk (1 / 2) 0 255 0,
        ColorStop.mk (1 / 2) 0 0 255, ColorStop.mk 1 255 255 255][3]? = some si ∧
      sp.position < 3 / 4 ∧ 3 / 4 ≤ si.position ∧ 0 < si.position - sp.position ∧
      interpolate_color (3 / 4) [ColorStop.mk 0 255 0 0, ColorStop.mk (1 / 2) 0 255 0,
        ColorStop.mk (1 / 2) 0 0 255, ColorStop.mk 1 255 255 255]
        = interpolate_segment (3 / 4) sp si ∧
      fdiv (3 / 4 - sp.position) (si.position - sp.position)
        = some ((3 / 4 - sp.position) / (si.position - sp.position)) :=
  ⟨by decide!, ratio_divisor_pos (3 / 4) [ColorStop.mk 0 255 0 0, ColorStop.mk (1 / 2) 0 255 0,
    ColorStop.mk (1 / 2) 0 0 255, ColorStop.mk 1 255 255 255] 3 (by decide!)⟩

/-- C20: for every non-empty stop list with strictly increasing positions and
every index `k`, `interpolate_color(stops[k].position, stops)` returns exactly the
`(r, g, b)` of `stops[k]`. -/
theorem interpolate_color_at_stop (stops : List ColorStop) (k : Nat) (sk : ColorStop)
    (hstrict : stops.Pairwise (fun a b => a.position < b.position))
    (hk : stops[k]? = some sk) :
    interpolate_color sk.position stops = some (sk.r, sk.g, sk.b) := by
  have hkl : k < stops.length := (List.getElem?_eq_some_iff.mp hk).1
  have h0 : 0 < stops.length := by omega
  have hlt : ∀ (l : Nat) (s : ColorStop), l < k → stops[l]? = some s →
      s.position < sk.position := by
    intro l s hl hs
    obtain ⟨hll, rfl⟩ := List.getElem?_eq_some_iff.mp hs
    obtain ⟨_, rfl⟩ := List.getElem?_eq_some_iff.mp hk
    exact List.pairwise_iff_getElem.mp hstrict l k hll hkl hl
  by_cases e : k = 0
  · subst e
    simp [interpolate_color, hk]
  · have hpl : k - 1 < stops.length := by omega
    have hfirst := hlt 0 stops[0] (by omega) (List.getElem?_eq_getElem h0)
    have hprev := hlt (k - 1) stops[k - 1] (by omega) (List.getElem?_eq_getElem hpl)
    have hloop := interpolate_color_loop_first sk.position stops k stops[k - 1] sk hk
      (List.getElem?_eq_getElem hpl) (le_refl _) (stops.length - 1) 1 (by omega) (by omega)
      (fun l s _ hlk hls => not_le.mpr (hlt l s hlk hls))
    rw [interpolate_segment_at_stop hprev] at hloop
    simp [interpolate_color, List.getElem?_eq_getElem h0, not_le.mpr hfirst, hloop]

/-- Witness of C20: the middle stop of three. -/
theorem interpolate_color_at_stop_witness :
    interpolate_color (ColorStop.mk (1 / 2) 0 255 0).position
      [ColorStop.mk 0 255 0 0, ColorStop.mk (1 / 2) 0 255 0, ColorStop.mk 1 0 0 255]
      = some ((ColorStop.mk (1 / 2) 0 255 0).r, (ColorStop.mk (1 / 2) 0 255 0).g,
        (ColorStop.mk (1 / 2) 0 255 0).b) :=
  interpolate_color_at_stop
    [ColorStop.mk 0 255 0 0, ColorStop.mk (1 / 2) 0 255 0, ColorStop.mk 1 0 0 255] 1
    (ColorStop.mk (1 / 2) 0 255 0) (by decide!) rfl

/-! ## Linear mode with equal corner projections -/

/-- C18, refuted as stated: for width `1`, height `536870913` and angle `0` the four
corner projections are equal (`min_coord = max_coord = 0`) and the buffer of
`1 * 536870913 * 4` bytes is long enough, but the call does not return a filled
buffer: at the pixel `(0, 536870912)` the offset `(y * width + x) * 4` is
`2147483648`, which does not fit the `int idx` of line 88. -/
theorem linear_flat_offset_overflow :
    coord_bounds (libm_approx.cos (0 * M_PI / 180)) (libm_approx.sin (0 * M_PI / 180))
      1 536870913 0 = some (0, 0) ∧
    1 * 536870913 * 4 ≤ (List.replicate 2147483652 (0 : Byte)).length ∧
    generate_gradient libm_approx (List.replicate 2147483652 (0 : Byte)) 1 536870913
      [ColorStop.mk 0 255 0 0, ColorStop.mk 1 0 0 255] 0 0 = none := by
  refine ⟨by decide!, by rw [List.length_replicate], ?_⟩
  rw [Option.eq_none_iff_forall_not_mem]
  intro out hout
  have h := generate_gradient_defined (w := 1) (h := 536870913) hout 0 536870912
    (by norm_num) (by norm_num)
  norm_num at h

/-- C18, amended: in linear mode (width > 0, height > 0, both within `int`, a
non-empty stop list), whenever `max_coord == min_coord` the range is replaced by
`1`, so there is no division by zero, and every pixel of the image gets
`t = coord - min_coord = 0` and the colour `interpolate_color(0, stops)`; when
moreover `width * height * 4 <= 2^31` and the buffer holds the image, the call
returns and the whole image is filled with that colour and alpha `255`. -/
theorem linear_flat_corners (m : Libm) (w h : Nat) (stops : List ColorStop) (angle : ℚ)
    (hw : 0 < w) (hh : 0 < h) (hwmax : w ≤ 2147483647) (hhmax : h ≤ 2147483647)
    (hne : stops ≠ []) (mm : ℚ × ℚ)
    (hb : coord_bounds (m.cos (angle * M_PI / 180)) (m.sin (angle * M_PI / 180)) w h 0
      = some mm)
    (hflat : mm.2 = mm.1) :
    ∃ s c, setup m w h angle 0 = some s ∧ s.min_coord = mm.1 ∧ s.range = 1 ∧
      interpolate_color 0 stops = some c ∧
      (∀ x y : Nat, x < w → y < h →
        (x : ℚ) * s.cos_angle + (y : ℚ) * s.sin_angle - s.min_coord = 0 ∧
        pixel_t m s 0 x y = some 0 ∧ pixel_color m s stops 0 x y = some c) ∧
      (∀ pixels : List Byte, w * h * 4 ≤ 2147483648 → w * h * 4 ≤ pixels.length →
        ∃ out, generate_gradient m pixels w h stops angle 0 = some out ∧
          ∀ x y : Nat, x < w → y < h →
            out[(y * w + x) * 4]? = some c.1 ∧ out[(y * w + x) * 4 + 1]? = some c.2.1 ∧
            out[(y * w + x) * 4 + 2]? = some c.2.2 ∧
            out[(y * w + x) * 4 + 3]? = some 255) := by
  have hb' := coord_bounds_linear (m.cos (angle * M_PI / 180)) (m.sin (angle * M_PI / 180))
    w h hw hh hwmax hhmax
  rw [hb] at hb'
  cases hb'
  obtain ⟨s, hs, hc, hsn, hmin, hrange⟩ := setup_linear m w h angle hw hh hwmax hhmax
  rw [hc, hsn] at hmin hrange
  have hflat' : corner_max (m.cos (angle * M_PI / 180)) (m.sin (angle * M_PI / 180)) w h
      = corner_min (m.cos (angle * M_PI / 180)) (m.sin (angle * M_PI / 180)) w h := hflat
  rw [hflat', sub_self, if_pos rfl] at hrange
  obtain ⟨c, hcol⟩ := interpolate_color_total 0 stops hne
  have hpix : ∀ x y : Nat, x < w → y < h →
      (x : ℚ) * s.cos_angle + (y : ℚ) * s.sin_angle - s.min_coord = 0 ∧
      pixel_t m s 0 x y = some 0 ∧ pixel_color m s stops 0 x y = some c := by
    intro x y hx hy
    obtain ⟨hlo, hhi⟩ := corner_projection_bounds (m.cos (angle * M_PI / 180))
      (m.sin (angle * M_PI / 180)) w h x y hx hy
    rw [hflat'] at hhi
    have hz : (x : ℚ) * s.cos_angle + (y : ℚ) * s.sin_angle - s.min_coord = 0 := by
      rw [hc, hsn, hmin]
      linarith
    have ht : pixel_t m s 0 x y = some 0 := by
      have hz' : ((x : Int) : ℚ) * s.cos_angle + ((y : Int) : ℚ) * s.sin_angle - s.min_coord
          = 0 := by
        simpa using hz
      simp only [pixel_t, if_true, fdiv, hrange, one_ne_zero, if_false, hz', div_one]
    exact ⟨hz, ht, by
      simp only [pixel_color, ht, Option.bind_eq_bind, Option.some_bind, clamp01_zero, hcol]⟩
  refine ⟨s, c, hs, hmin, hrange, hcol, hpix, ?_⟩
  intro pixels hmax hlen
  have e : h * w * 4 = w * h * 4 := by rw [Nat.mul_comm h w]
  obtain ⟨s', out, hs', -, -, hout, hp⟩ := generate_gradient_spec m pixels w h stops
    angle 0 hw hh hne (by omega) (by omega)
  rw [hs] at hs'
  cases hs'
  refine ⟨out, hout, ?_⟩
  intro x y hx hy
  have himg : image_color m s stops 0 w (y * w + x) = c := by
    simp only [image_color, pixel_number_mod w x y hx, pixel_number_div w x y hx,
      (hpix x y hx hy).2.2, Option.getD_some]
  have := hp.2.1 (y * w + x) (pixel_number_lt w h x y hx hy)
  rw [himg] at this
  exact this

/-- Witness of the amended C18: a `1 x 3` image at angle `0`, whose corner
projections are all `0`. -/
theorem linear_flat_corners_witness :
    ∃ s c, setup libm_approx ((1 : Nat) : Int) ((3 : Nat) : Int) 0 0 = some s ∧
      s.min_coord = ((0, 0) : ℚ × ℚ).1 ∧ s.range = 1 ∧
      interpolate_color 0 [ColorStop.mk 0 255 0 0, ColorStop.mk 1 0 0 255] = some c ∧
      (∀ x y : Nat, x < 1 → y < 3 →
        (x : ℚ) * s.cos_angle + (y : ℚ) * s.sin_angle - s.min_coord = 0 ∧
        pixel_t libm_approx s 0 x y = some 0 ∧
        pixel_color libm_approx s [ColorStop.mk 0 255 0 0, ColorStop.mk 1 0 0 255] 0 x y
          = some c) ∧
      (∀ pixels : List Byte, 1 * 3 * 4 ≤ 2147483648 → 1 * 3 * 4 ≤ pixels.length →
        ∃ out, generate_gradient libm_approx pixels ((1 : Nat) : Int) ((3 : Nat) : Int)
            [ColorStop.mk 0 255 0 0, ColorStop.mk 1 0 0 255] 0 0 = some out ∧
          ∀ x y : Nat, x < 1 → y < 3 →
            out[(y * 1 + x) * 4]? = some c.1 ∧ out[(y * 1 + x) * 4 + 1]? = some c.2.1 ∧
            out[(y * 1 + x) * 4 + 2]? = some c.2.2 ∧
            out[(y * 1 + x) * 4 + 3]? = some 255) :=
  linear_flat_corners libm_approx 1 3 [ColorStop.mk 0 255 0 0, ColorStop.mk 1 0 0 255] 0
    (by decide) (by decide) (by decide) (by decide) (by simp) (0, 0) (by decide!) rfl

/-! ## Binary64 arithmetic: the model with exact arithmetic is the instance `fl = id` -/

theorem interpolate_segment_fl_id (t : ℚ) (sp si : ColorStop) :
    interpolate_segment_fl id t sp si = interpolate_segment t sp si := by
  simp only [interpolate_segment_fl, interpolate_segment, lerp_channel_fl, lerp_channel, id]

theorem interpolate_color_loop_fl_id (t : ℚ) (stops : List ColorStop) :
    ∀ k i : Nat, interpolate_color_loop_fl id t stops k i = interpolate_color_loop t stops k i := by
  intro k
  induction k with
  | zero => intro i; rfl
  | succ k ih =>
    intro i
    simp only [interpolate_color_loop_fl, interpolate_color_loop, interpolate_segment_fl_id, ih]

theorem interpolate_color_fl_id (t : ℚ) (stops : List ColorStop) :
    interpolate_color_fl id t stops = interpolate_color t stops := by
  simp only [interpolate_color_fl, interpolate_color, interpolate_color_loop_fl_id]

theorem setup_fl_id (m : Libm) (width height : Int) (angle : ℚ) (mode : Int) :
    setup_fl id m width height angle mode = setup m width height angle mode := by
  simp only [setup_fl, setup, coord_bounds_fl, coord_bounds, id]

theorem pixel_t_fl_id (m : Libm) (s : Setup) (mode : Int) (x y : Int) :
    pixel_t_fl id m s mode x y = pixel_t m s mode x y := by
  simp only [pixel_t_fl, pixel_t, id, Option.map_id_fun, Option.map_id']

theorem generate_gradient_fl_id (m : Libm) (pixels : List Byte) (width height : Int)
    (stops : List ColorStop) (angle : ℚ) (mode : Int) :
    generate_gradient_fl id m pixels width height stops angle mode
      = generate_gradient m pixels width height stops angle mode := by
  simp only [generate_gradient_fl, generate_gradient, setup_fl_id, pixel_body_fl, pixel_body,
    pixel_color_fl, pixel_color, pixel_t_fl_id, interpolate_color_fl_id]

/-! ## Binary64 arithmetic: one interpolated channel and the scan -/

theorem is_rounding.mono {fl : ℚ → ℚ} (h : is_rounding fl) {a b : ℚ} (hab : a ≤ b) :
    fl a ≤ fl b :=
  h.1 a b hab

theorem is_rounding.exact {fl : ℚ → ℚ} (h : is_rounding fl) (z : Int) (k : Nat)
    (hz : |z| ≤ 2 ^ 53) (hk : k ≤ 1022) : fl ((z : ℚ) / 2 ^ k) = (z : ℚ) / 2 ^ k :=
  h.2.1 z k hz hk

theorem is_rounding.int_exact {fl : ℚ → ℚ} (h : is_rounding fl) (z : Int)
    (hz : |z| ≤ 2 ^ 53) : fl (z : ℚ) = (z : ℚ) := by
  have := h.exact z 0 hz (by norm_num)
  simpa using this

theorem is_rounding.nat_exact {fl : ℚ → ℚ} (h : is_rounding fl) (n : Nat)
    (hn : n ≤ 2 ^ 53) : fl (n : ℚ) = (n : ℚ) := by
  have := h.int_exact (n : Int) (by
    rw [abs_of_nonneg (by positivity)]
    exact_mod_cast hn)
  simpa using this

theorem is_rounding.zero {fl : ℚ → ℚ} (h : is_rounding fl) : fl 0 = 0 := by
  have := h.int_exact 0 (by norm_num)
  simpa using this

theorem is_rounding.one {fl : ℚ → ℚ} (h : is_rounding fl) : fl 1 = 1 := by
  have := h.int_exact 1 (by norm_num)
  simpa using this

theorem is_rounding.sub_pos {fl : ℚ → ℚ} (h : is_rounding fl) {a b : ℚ}
    (ha : fl a = a) (hb : fl b = b) (hab : a < b) : 0 < fl (b - a) :=
  h.2.2 a b ha hb hab

/-- The exact arithmetic is a rounding in the sense of `is_rounding`. -/
theorem is_rounding_id : is_rounding id :=
  ⟨fun _ _ h => h, fun _ _ _ _ => rfl, fun a b _ _ h => by simpa using h⟩

/-- The double that line 19 converts lies between the two channels. -/
theorem lerp_value_fl_bounds {fl : ℚ → ℚ} (hfl : is_rounding fl) (c0 c1 : Byte) {ratio : ℚ}
    (h0 : 0 ≤ ratio) (h1 : ratio ≤ 1) :
    ((min c0.val c1.val : Nat) : ℚ) ≤ fl (((c0.val : Int) : ℚ)
        + fl ((((c1.val : Int) - (c0.val : Int) : Int) : ℚ) * ratio)) ∧
    fl (((c0.val : Int) : ℚ) + fl ((((c1.val : Int) - (c0.val : Int) : Int) : ℚ) * ratio))
      ≤ ((max c0.val c1.val : Nat) : ℚ) := by
  have hc0 : c0.val < 256 := c0.isLt
  have hc1 : c1.val < 256 := c1.isLt
  have hd : |(c1.val : Int) - (c0.val : Int)| ≤ 2 ^ 53 := by
    rw [abs_le]
    constructor <;> norm_num <;> omega
  have hdfl := hfl.int_exact ((c1.val : Int) - (c0.val : Int)) hd
  have hmin := hfl.nat_exact (min c0.val c1.val) (by
    have : min c0.val c1.val ≤ c0.val := min_le_left _ _
    norm_num
    omega)
  have hmax := hfl.nat_exact (max c0.val c1.val) (by
    have : max c0.val c1.val < 256 := max_lt hc0 hc1
    norm_num
    omega)
  rcases le_total c0.val c1.val with h | h
  · have hq : (0 : ℚ) ≤ (((c1.val : Int) - (c0.val : Int) : Int) : ℚ) := by
      have : (0 : Int) ≤ (c1.val : Int) - (c0.val : Int) := by omega
      exact_mod_cast this
    have p0 : 0 ≤ fl ((((c1.val : Int) - (c0.val : Int) : Int) : ℚ) * ratio) := by
      have := hfl.mono (mul_nonneg hq h0)
      rwa [hfl.zero] at this
    have p1 : fl ((((c1.val : Int) - (c0.val : Int) : Int) : ℚ) * ratio)
        ≤ (((c1.val : Int) - (c0.val : Int) : Int) : ℚ) := by
      have := hfl.mono (mul_le_of_le_one_right hq h1)
      rwa [hdfl] at this
    rw [min_eq_left h, max_eq_right h] at *
    constructor
    · have := hfl.mono (show ((c0.val : Nat) : ℚ) ≤ ((c0.val : Int) : ℚ)
        + fl ((((c1.val : Int) - (c0.val : Int) : Int) : ℚ) * ratio) by
          rw [Int.cast_natCast]
          linarith)
      rwa [hmin] at this
    · have := hfl.mono (show ((c0.val : Int) : ℚ)
        + fl ((((c1.val : Int) - (c0.val : Int) : Int) : ℚ) * ratio) ≤ ((c1.val : Nat) : ℚ) by
          push_cast at p1 ⊢
          linarith)
      rwa [hmax] at this
  · have hq : (((c1.val : Int) - (c0.val : Int) : Int) : ℚ) ≤ 0 := by
      have : (c1.val : Int) - (c0.val : Int) ≤ 0 := by omega
      exact_mod_cast this
    have p0 : fl ((((c1.val : Int) - (c0.val : Int) : Int) : ℚ) * ratio) ≤ 0 := by
      have := hfl.mono (mul_nonpos_of_nonpos_of_nonneg hq h0)
      rwa [hfl.zero] at this
    have p1 : (((c1.val : Int) - (c0.val : Int) : Int) : ℚ)
        ≤ fl ((((c1.val : Int) - (c0.val : Int) : Int) : ℚ) * ratio) := by
      have := hfl.mono (show (((c1.val : Int) - (c0.val : Int) : Int) : ℚ)
        ≤ (((c1.val : Int) - (c0.val : Int) : Int) : ℚ) * ratio by nlinarith)
      rwa [hdfl] at this
    rw [min_eq_right h, max_eq_left h] at *
    constructor
    · have := hfl.mono (show ((c1.val : Nat) : ℚ) ≤ ((c0.val : Int) : ℚ)
        + fl ((((c1.val : Int) - (c0.val : Int) : Int) : ℚ) * ratio) by
          push_cast at p1 ⊢
          linarith)
      rwa [hmin] at this
    · have := hfl.mono (show ((c0.val : Int) : ℚ)
        + fl ((((c1.val : Int) - (c0.val : Int) : Int) : ℚ) * ratio) ≤ ((c0.val : Nat) : ℚ) by
          rw [Int.cast_natCast]
          linarith)
      rwa [hmax] at this

theorem lerp_channel_fl_spec {fl : ℚ → ℚ} (hfl : is_rounding fl) (c0 c1 : Byte) {ratio : ℚ}
    (h0 : 0 ≤ ratio) (h1 : ratio ≤ 1) :
    ∃ v : Byte, lerp_channel_fl fl c0 c1 ratio = some v ∧
      (v.val : Int) = trunc (fl (((c0.val : Int) : ℚ)
        + fl ((((c1.val : Int) - (c0.val : Int) : Int) : ℚ) * ratio))) ∧
      min c0.val c1.val ≤ v.val ∧ v.val ≤ max c0.val c1.val := by
  obtain ⟨hlo, hhi⟩ := lerp_value_fl_bounds hfl c0 c1 h0 h1
  have hmax : max c0.val c1.val < 256 := max_lt c0.isLt c1.isLt
  obtain ⟨v, hv, hvt⟩ := to_uint8_of_bounds (le_trans (by positivity) hlo)
    (lt_of_le_of_lt hhi (by exact_mod_cast hmax))
  refine ⟨v, hv, hvt, ?_, ?_⟩
  · have h1 := trunc_mono hlo
    rw [← hvt] at h1
    have h2 : trunc ((min c0.val c1.val : Nat) : ℚ) = ((min c0.val c1.val : Nat) : Int) := by
      have := trunc_intCast ((min c0.val c1.val : Nat) : Int)
      simpa using this
    rw [h2] at h1
    exact_mod_cast h1
  · have h1 := trunc_mono hhi
    rw [← hvt] at h1
    have h2 : trunc ((max c0.val c1.val : Nat) : ℚ) = ((max c0.val c1.val : Nat) : Int) := by
      have := trunc_intCast ((max c0.val c1.val : Nat) : Int)
      simpa using this
    rw [h2] at h1
    exact_mod_cast h1

/-- The ratio of line 18 in binary64: when `sp.position < t <= si.position` and
the two positions are doubles, the divisor is positive and the ratio is in
`[0, 1]`. -/
theorem ratio_fl_bounds {fl : ℚ → ℚ} (hfl : is_rounding fl) {t : ℚ} {sp si : ColorStop}
    (hsp : fl sp.position = sp.position) (hsi : fl si.position = si.position)
    (h1 : sp.position < t) (h2 : t ≤ si.position) :
    0 < fl (si.position - sp.position) ∧
    0 ≤ fl (fl (t - sp.position) / fl (si.position - sp.position)) ∧
    fl (fl (t - sp.position) / fl (si.position - sp.position)) ≤ 1 := by
  have hd := hfl.sub_pos hsp hsi (lt_of_lt_of_le h1 h2)
  have hn0 : 0 ≤ fl (t - sp.position) := by
    have := hfl.mono (show (0 : ℚ) ≤ t - sp.position by linarith)
    rwa [hfl.zero] at this
  have hnd : fl (t - sp.position) ≤ fl (si.position - sp.position) :=
    hfl.mono (by linarith)
  refine ⟨hd, ?_, ?_⟩
  · have := hfl.mono (div_nonneg hn0 hd.le)
    rwa [hfl.zero] at this
  · have := hfl.mono ((div_le_one hd).mpr hnd)
    rwa [hfl.one] at this

theorem interpolate_segment_fl_spec {fl : ℚ → ℚ} (hfl : is_rounding fl) {t : ℚ}
    {sp si : ColorStop} (hsp : fl sp.position = sp.position)
    (hsi : fl si.position = si.position) (h1 : sp.position < t) (h2 : t ≤ si.position) :
    ∃ r g b : Byte, interpolate_segment_fl fl t sp si = some (r, g, b) ∧
      lerp_channel_fl fl sp.r si.r
        (fl (fl (t - sp.position) / fl (si.position - sp.position))) = some r ∧
      lerp_channel_fl fl sp.g si.g
        (fl (fl (t - sp.position) / fl (si.position - sp.position))) = some g ∧
      lerp_channel_fl fl sp.b si.b
        (fl (fl (t - sp.position) / fl (si.position - sp.position))) = some b := by
  obtain ⟨hd, hr0, hr1⟩ := ratio_fl_bounds hfl hsp hsi h1 h2
  obtain ⟨r, hr, -⟩ := lerp_channel_fl_spec hfl sp.r si.r hr0 hr1
  obtain ⟨g, hg, -⟩ := lerp_channel_fl_spec hfl sp.g si.g hr0 hr1
  obtain ⟨b, hb, -⟩ := lerp_channel_fl_spec hfl sp.b si.b hr0 hr1
  refine ⟨r, g, b, ?_, hr, hg, hb⟩
  simp [interpolate_segment_fl, fdiv, ne_of_gt hd, hr, hg, hb]

theorem interpolate_color_loop_fl_first (fl : ℚ → ℚ) (t : ℚ) (stops : List ColorStop) (j : Nat)
    (sp sj : ColorStop) (hj : stops[j]? = some sj) (hp : stops[j - 1]? = some sp)
    (htj : t ≤ sj.position) :
    ∀ k i : Nat, i + k = stops.length → i ≤ j →
      (∀ (l : Nat) (sl : ColorStop), i ≤ l → l < j → stops[l]? = some sl → ¬ t ≤ sl.position) →
      interpolate_color_loop_fl fl t stops k i = interpolate_segment_fl fl t sp sj := by
  intro k
  induction k with
  | zero =>
    intro i hik hij _
    have hjl : j < stops.length := (List.getElem?_eq_some_iff.mp hj).1
    omega
  | succ k ih =>
    intro i hik hij hfirst
    have hil : i < stops.length := by omega
    rcases Nat.eq_or_lt_of_le hij with e | hlt
    · subst e
      simp [interpolate_color_loop_fl, hj, htj, hp]
    · have hne := hfirst i stops[i] (le_refl _) hlt (List.getElem?_eq_getElem hil)
      have hrec := ih (i + 1) (by omega) (by omega)
        (fun l sl h1 h2 h3 => hfirst l sl (by omega) h2 h3)
      simp [interpolate_color_loop_fl, List.getElem?_eq_getElem hil, hne, hrec]

/-- In binary64 too `interpolate_color` is defined on a non-empty stop list whose
positions are doubles, for every `t`. -/
theorem interpolate_color_loop_fl_total {fl : ℚ → ℚ} (hfl : is_rounding fl) (t : ℚ)
    (stops : List ColorStop) (hpos : ∀ s ∈ stops, fl s.position = s.position) :
    ∀ k i : Nat, i + k = stops.length → 1 ≤ i →
      (∀ sp : ColorStop, stops[i - 1]? = some sp → sp.position < t) →
      ∃ rgb, interpolate_color_loop_fl fl t stops k i = some rgb := by
  intro k
  induction k with
  | zero =>
    intro i hik hi _
    have hl : stops.length - 1 < stops.length := by omega
    exact ⟨(stops[stops.length - 1].r, stops[stops.length - 1].g, stops[stops.length - 1].b),
      by simp [interpolate_color_loop_fl, List.getElem?_eq_getElem hl]⟩
  | succ k ih =>
    intro i hik hi hprev
    have hil : i < stops.length := by omega
    have hpl : i - 1 < stops.length := by omega
    by_cases h : t ≤ stops[i].position
    · obtain ⟨r, g, b, hseg, -⟩ := interpolate_segment_fl_spec hfl
        (hpos _ (List.getElem_mem hpl)) (hpos _ (List.getElem_mem hil))
        (hprev _ (List.getElem?_eq_getElem hpl)) h
      exact ⟨(r, g, b), by
        simp [interpolate_color_loop_fl, List.getElem?_eq_getElem hil,
          List.getElem?_eq_getElem hpl, h, hseg]⟩
    · obtain ⟨rgb, hrec⟩ := ih (i + 1) (by omega) (by omega) (by
        intro sp hsp
        simp only [Nat.add_sub_cancel, List.getElem?_eq_getElem hil, Option.some.injEq] at hsp
        subst hsp
        exact not_le.mp h)
      exact ⟨rgb, by simp [interpolate_color_loop_fl, List.getElem?_eq_getElem hil, h, hrec]⟩

theorem interpolate_color_fl_total {fl : ℚ → ℚ} (hfl : is_rounding fl) (t : ℚ)
    (stops : List ColorStop) (hne : stops ≠ [])
    (hpos : ∀ s ∈ stops, fl s.position = s.position) :
    ∃ rgb, interpolate_color_fl fl t stops = some rgb := by
  have h0 : 0 < stops.length := List.length_pos.mpr hne
  by_cases h : t ≤ stops[0].position
  · exact ⟨(stops[0].r, stops[0].g, stops[0].b),
      by simp [interpolate_color_fl, List.getElem?_eq_getElem h0, h]⟩
  · obtain ⟨rgb, hrgb⟩ := interpolate_color_loop_fl_total hfl t stops hpos (stops.length - 1) 1
      (by omega) (le_refl _) (by
        intro sp hsp
        simp only [Nat.sub_self, List.getElem?_eq_getElem h0, Option.some.injEq] at hsp
        subst hsp
        exact not_le.mp h)
    exact ⟨rgb, by simp [interpolate_color_fl, List.getElem?_eq_getElem h0, h, hrgb]⟩

/-! ## Binary64 arithmetic: the pixel loop -/

theorem pixel_body_fl_spec (fl : ℚ → ℚ) (m : Libm) (s : Setup) (stops : List ColorStop) (mode : Int)
    (w x y : Nat) (pixels : List Byte) (c : Byte × Byte × Byte)
    (hc : pixel_color_fl fl m s stops mode x y = some c)
    (hmax : (y * w + x) * 4 + 3 ≤ 2147483647)
    (hlen : (y * w + x) * 4 + 3 < pixels.length) :
    pixel_body_fl fl m s stops mode w y x pixels = some (put_pixel pixels (y * w + x) c) := by
  have e0 : ((y : Int) * (w : Int)) = ((y * w : Nat) : Int) := by push_cast; ring
  have e1 : ((y * w : Nat) : Int) + (x : Int) = ((y * w + x : Nat) : Int) := by push_cast; ring
  have e2 : ((y * w + x : Nat) : Int) * 4 = (((y * w + x) * 4 : Nat) : Int) := by push_cast; ring
  have e3 : ((((y * w + x) * 4 : Nat) : Int)) + 1 = (((y * w + x) * 4 + 1 : Nat) : Int) := by
    push_cast; ring
  have e4 : ((((y * w + x) * 4 : Nat) : Int)) + 2 = (((y * w + x) * 4 + 2 : Nat) : Int) := by
    push_cast; ring
  have e5 : ((((y * w + x) * 4 : Nat) : Int)) + 3 = (((y * w + x) * 4 + 3 : Nat) : Int) := by
    push_cast; ring
  have c0 : int_checked ((y * w : Nat) : Int) = some ((y * w : Nat) : Int) :=
    int_checked_of_bounds (by omega) (by omega)
  have c1 : int_checked ((y * w + x : Nat) : Int) = some ((y * w + x : Nat) : Int) :=
    int_checked_of_bounds (by omega) (by omega)
  have c2 : int_checked (((y * w + x) * 4 : Nat) : Int) = some (((y * w + x) * 4 : Nat) : Int) :=
    int_checked_of_bounds (by omega) (by omega)
  have c3 : int_checked (((y * w + x) * 4 + 1 : Nat) : Int)
      = some (((y * w + x) * 4 + 1 : Nat) : Int) :=
    int_checked_of_bounds (by omega) (by omega)
  have c4 : int_checked (((y * w + x) * 4 + 2 : Nat) : Int)
      = some (((y * w + x) * 4 + 2 : Nat) : Int) :=
    int_checked_of_bounds (by omega) (by omega)
  have c5 : int_checked (((y * w + x) * 4 + 3 : Nat) : Int)
      = some (((y * w + x) * 4 + 3 : Nat) : Int) :=
    int_checked_of_bounds (by omega) (by omega)
  have s0 := store_of_lt pixels ((y * w + x) * 4) (by omega) c.1
  have s1 := store_of_lt (pixels.set ((y * w + x) * 4) c.1)
    ((y * w + x) * 4 + 1) (by simp; omega) c.2.1
  have s2 := store_of_lt
    ((pixels.set ((y * w + x) * 4) c.1).set ((y * w + x) * 4 + 1) c.2.1)
    ((y * w + x) * 4 + 2) (by simp; omega) c.2.2
  have s3 := store_of_lt
    (((pixels.set ((y * w + x) * 4) c.1).set ((y * w + x) * 4 + 1) c.2.1).set
      ((y * w + x) * 4 + 2) c.2.2)
    ((y * w + x) * 4 + 3) (by simp; omega) 255
  simp only [pixel_body_fl, hc, Option.bind_eq_bind, Option.some_bind, e0, c0, e1, c1, e2, c2,
    s0, e3, c3, s1, e4, c4, s2, e5, c5, s3, put_pixel]

/-- The inner loop (line 63) in binary64. -/
theorem row_loop_fl_spec (fl : ℚ → ℚ) (m : Libm) (s : Setup) (stops : List ColorStop) (mode : Int)
    (w y : Nat) (col : Nat → Byte × Byte × Byte) (orig : List Byte)
    (hcol : ∀ x : Nat, x < w → pixel_color_fl fl m s stops mode x y = some (col (y * w + x)))
    (hmax : (y * w + w) * 4 ≤ 2147483648) (hlen : (y * w + w) * 4 ≤ orig.length) :
    ∀ (k x : Nat) (buf : List Byte), x + k = w → Painted col orig buf (y * w + x) →
      ∃ out, for_loop (fun x px1 => pixel_body_fl fl m s stops mode w y x px1) k x buf = some out ∧
        Painted col orig out (y * w + w) := by
  intro k
  induction k with
  | zero =>
    intro x buf hx hp
    have e : x = w := by omega
    subst e
    exact ⟨buf, rfl, hp⟩
  | succ k ih =>
    intro x buf hx hp
    have hxw : x < w := by omega
    have hbody := pixel_body_fl_spec fl m s stops mode w x y buf (col (y * w + x)) (hcol x hxw)
      (by omega) (by rw [hp.1]; omega)
    obtain ⟨out, hout, hpo⟩ := ih (x + 1) (put_pixel buf (y * w + x) (col (y * w + x)))
      (by omega) (hp.step (by omega))
    refine ⟨out, ?_, hpo⟩
    have e : ((x : Int) + 1) = ((x + 1 : Nat) : Int) := by push_cast; rfl
    simp only [for_loop, hbody, Option.bind_eq_bind, Option.some_bind, e, hout]

/-- The outer loop (line 62) in binary64. -/
theorem image_loop_fl_spec (fl : ℚ → ℚ) (m : Libm) (s : Setup) (stops : List ColorStop) (mode : Int)
    (w h : Nat) (col : Nat → Byte × Byte × Byte) (orig : List Byte)
    (hcol : ∀ x y : Nat, x < w → y < h →
      pixel_color_fl fl m s stops mode x y = some (col (y * w + x)))
    (hmax : h * w * 4 ≤ 2147483648) (hlen : h * w * 4 ≤ orig.length) :
    ∀ (k y : Nat) (buf : List Byte), y + k = h → Painted col orig buf (y * w) →
      ∃ out, for_loop (fun y px => for_loop
          (fun x px1 => pixel_body_fl fl m s stops mode w y x px1) w 0 px) k y buf = some out ∧
        Painted col orig out (h * w) := by
  intro k
  induction k with
  | zero =>
    intro y buf hy hp
    have e : y = h := by omega
    subst e
    exact ⟨buf, rfl, hp⟩
  | succ k ih =>
    intro y buf hy hp
    have hyh : y < h := by omega
    have hrow : (y * w + w) ≤ h * w := by
      have : (y + 1) * w ≤ h * w := Nat.mul_le_mul_right w (by omega)
      rw [Nat.succ_mul] at this
      exact this
    obtain ⟨mid, hmid, hpm⟩ := row_loop_fl_spec fl m s stops mode w y col orig
      (fun x hx => hcol x y hx hyh) (by omega) (by omega) w 0 buf (by omega)
      (by simpa using hp)
    have e1 : y * w + w = (y + 1) * w := by rw [Nat.succ_mul]
    obtain ⟨out, hout, hpo⟩ := ih (y + 1) mid (by omega) (by rw [← e1]; exact hpm)
    refine ⟨out, ?_, hpo⟩
    have e : ((y : Int) + 1) = ((y + 1 : Nat) : Int) := by push_cast; rfl
    rw [Nat.cast_zero] at hmid
    simp only [for_loop, hmid, Option.bind_eq_bind, Option.some_bind, e, hout]

theorem pixel_body_fl_defined {fl : ℚ → ℚ} {m : Libm} {s : Setup} {stops : List ColorStop} {mode width : Int}
    {y x : Int} {px out : List Byte}
    (h : pixel_body_fl fl m s stops mode width y x px = some out) :
    (y * width + x) * 4 + 3 ≤ 2147483647 := by
  simp only [pixel_body_fl, Option.bind_eq_bind, Option.bind_eq_some] at h
  obtain ⟨rgb, -, yw, hyw, p, hp, idx, hidx, px1, -, idx1, -, px2, -, idx2, -, px3, -,
    idx3, hidx3, -⟩ := h
  obtain ⟨e0, -⟩ := int_checked_eq_some hyw
  obtain ⟨e1, -⟩ := int_checked_eq_some hp
  obtain ⟨e2, -⟩ := int_checked_eq_some hidx
  obtain ⟨-, e3⟩ := int_checked_eq_some hidx3
  subst e0 e1 e2
  exact e3

/-- When the call returns in binary64, the byte offsets of every pixel fit an `int`. -/
theorem generate_gradient_fl_defined {fl : ℚ → ℚ} {m : Libm} {pixels out : List Byte} {w h : Nat}
    {stops : List ColorStop} {angle : ℚ} {mode : Int}
    (hrun : generate_gradient_fl fl m pixels w h stops angle mode = some out)
    (x y : Nat) (hx : x < w) (hy : y < h) :
    ((y : Int) * (w : Int) + (x : Int)) * 4 + 3 ≤ 2147483647 := by
  simp only [generate_gradient_fl, Option.bind_eq_bind, Option.bind_eq_some, Int.toNat_ofNat]
    at hrun
  obtain ⟨s, -, hloop⟩ := hrun
  obtain ⟨px, mid, hrow⟩ := for_loop_body_defined _ h 0 pixels out hloop y hy
  obtain ⟨px1, px2, hbody⟩ := for_loop_body_defined _ w 0 px mid hrow x hx
  have := pixel_body_fl_defined hbody
  simpa using this

/-! ## Binary64 arithmetic: the values computed before the loop -/

theorem fl_two_M_PI {fl : ℚ → ℚ} (hfl : is_rounding fl) : fl (2 * M_PI) = 2 * M_PI := by
  have e : (2 : ℚ) * M_PI = ((884279719003555 : Int) : ℚ) / 2 ^ 47 := by
    norm_num [M_PI]
  rw [e]
  exact hfl.exact 884279719003555 47 (by norm_num) (by norm_num)

theorem fl_half_nat {fl : ℚ → ℚ} (hfl : is_rounding fl) (n : Nat) (hn : n ≤ 2147483647) :
    fl (((n : Int) : ℚ) / 2) = (n : ℚ) / 2 := by
  have := hfl.exact (n : Int) 1 (by
    rw [abs_of_nonneg (by positivity)]
    have : (n : Int) ≤ 2147483647 := by exact_mod_cast hn
    norm_num
    omega) (by norm_num)
  simpa using this

/-- For positive dimensions `setup_fl` is defined, `range` is not zero (line 56) and
`max_radius` is positive. -/
theorem setup_fl_spec {fl : ℚ → ℚ} (hfl : is_rounding fl) (m : Libm) (w h : Nat) (angle : ℚ)
    (mode : Int) (hw : 0 < w) (hh : 0 < h) (hwmax : w ≤ 2147483647) (hhmax : h ≤ 2147483647) :
    ∃ s, setup_fl fl m w h angle mode = some s ∧ s.range ≠ 0 ∧ 0 < s.max_radius ∧
      s.cos_angle = m.cos (fl (fl (angle * M_PI) / 180)) ∧
      s.sin_angle = m.sin (fl (fl (angle * M_PI) / 180)) ∧
      s.cx = (w : ℚ) / 2 ∧ s.cy = (h : ℚ) / 2 ∧
      s.max_radius = m.sqrt (fl (fl (s.cx * s.cx) + fl (s.cy * s.cy))) := by
  have hb : ∃ mm, coord_bounds_fl fl (m.cos (fl (fl (angle * M_PI) / 180)))
      (m.sin (fl (fl (angle * M_PI) / 180))) w h mode = some mm := by
    unfold coord_bounds_fl
    split
    · have c1 : int_checked ((w : Int) - 1) = some ((w : Int) - 1) :=
        int_checked_of_bounds (by omega) (by omega)
      have c2 : int_checked ((h : Int) - 1) = some ((h : Int) - 1) :=
        int_checked_of_bounds (by omega) (by omega)
      simp only [c1, c2, Option.bind_eq_bind, Option.some_bind]
      exact ⟨_, rfl⟩
    · exact ⟨_, rfl⟩
  obtain ⟨mm, hmm⟩ := hb
  have hcx := fl_half_nat hfl w hwmax
  have hcy := fl_half_nat hfl h hhmax
  have hquarter : fl (1 / 4) = 1 / 4 := by
    have := hfl.exact 1 2 (by norm_num) (by norm_num)
    norm_num at this
    norm_num
    exact this
  have hhalf : fl (1 / 2) = 1 / 2 := by
    have := hfl.exact 1 1 (by norm_num) (by norm_num)
    norm_num at this
    norm_num
    exact this
  have hwq : (1 : ℚ) ≤ (w : ℚ) := by exact_mod_cast hw
  have hhq : (1 : ℚ) ≤ (h : ℚ) := by exact_mod_cast hh
  have h1 : (1 : ℚ) / 4 ≤ fl ((w : ℚ) / 2 * ((w : ℚ) / 2)) := by
    have := hfl.mono (show (1 : ℚ) / 4 ≤ (w : ℚ) / 2 * ((w : ℚ) / 2) by nlinarith)
    rwa [hquarter] at this
  have h2 : (1 : ℚ) / 4 ≤ fl ((h : ℚ) / 2 * ((h : ℚ) / 2)) := by
    have := hfl.mono (show (1 : ℚ) / 4 ≤ (h : ℚ) / 2 * ((h : ℚ) / 2) by nlinarith)
    rwa [hquarter] at this
  have h3 : (0 : ℚ) < fl (fl ((w : ℚ) / 2 * ((w : ℚ) / 2)) + fl ((h : ℚ) / 2 * ((h : ℚ) / 2))) := by
    have := hfl.mono (show (1 : ℚ) / 2 ≤ fl ((w : ℚ) / 2 * ((w : ℚ) / 2))
      + fl ((h : ℚ) / 2 * ((h : ℚ) / 2)) by linarith)
    rw [hhalf] at this
    linarith
  refine ⟨_, by simp only [setup_fl, hmm, Option.bind_eq_bind, Option.some_bind]; rfl,
    ?_, ?_, rfl, rfl, ?_, ?_, rfl⟩
  · show (if fl (mm.2 - mm.1) = 0 then (1 : ℚ) else fl (mm.2 - mm.1)) ≠ 0
    split
    · norm_num
    · assumption
  · show 0 < m.sqrt (fl (fl (fl (((w : Int) : ℚ) / 2) * fl (((w : Int) : ℚ) / 2))
      + fl (fl (((h : Int) : ℚ) / 2) * fl (((h : Int) : ℚ) / 2))))
    rw [hcx, hcy]
    exact m.sqrt_pos _ h3
  · exact hcx
  · exact hcy

/-- The parameter `t` of a pixel in binary64, mode by mode. -/
theorem pixel_t_fl_spec {fl : ℚ → ℚ} (hfl : is_rounding fl) (m : Libm) (s : Setup)
    (mode : Int) (x y : Int) (hrange : s.range ≠ 0) (hrad : s.max_radius ≠ 0) :
    ∃ t, pixel_t_fl fl m s mode x y = some t ∧
      (mode = 0 → t = fl (fl (fl (fl ((x : ℚ) * s.cos_angle) + fl ((y : ℚ) * s.sin_angle))
        - s.min_coord) / s.range)) ∧
      (mode = 1 → t = fl (fl (m.atan2 (fl ((y : ℚ) - s.cy)) (fl ((x : ℚ) - s.cx)) + M_PI)
        / fl (2 * M_PI))) ∧
      (mode ≠ 0 → mode ≠ 1 →
        t = fl (m.sqrt (fl (fl (fl ((x : ℚ) - s.cx) * fl ((x : ℚ) - s.cx))
          + fl (fl ((y : ℚ) - s.cy) * fl ((y : ℚ) - s.cy)))) / s.max_radius)) := by
  have hpi : fl (2 * M_PI) ≠ 0 := by
    rw [fl_two_M_PI hfl]
    exact ne_of_gt (by have := M_PI_pos; linarith)
  by_cases h0 : mode = 0
  · refine ⟨_, by simp only [pixel_t_fl, h0, if_true, fdiv, hrange, if_false,
      Option.map_some']; rfl, ?_, ?_, ?_⟩
    · intro _; rfl
    · intro h1; rw [h0] at h1; exact absurd h1 (by decide)
    · intro h; exact absurd h0 h
  · by_cases h1 : mode = 1
    · refine ⟨_, by simp only [pixel_t_fl, h0, h1, if_true, fdiv, hpi, if_false,
        Option.map_some']; rfl, ?_, ?_, ?_⟩
      · intro h; exact absurd h h0
      · intro _; rfl
      · intro _ h; exact absurd h1 h
    · refine ⟨_, by simp only [pixel_t_fl, h0, h1, fdiv, hrad, if_false,
        Option.map_some']; rfl, ?_, ?_, ?_⟩
      · intro h; exact absurd h h0
      · intro h; exact absurd h h1
      · intro _ _; rfl

/-- What a call of `generate_gradient` does in binary64, under the conditions of
`generate_gradient_spec` and with stop positions that are doubles. -/
theorem generate_gradient_fl_spec {fl : ℚ → ℚ} (hfl : is_rounding fl) (m : Libm)
    (pixels : List Byte) (w h : Nat) (stops : List ColorStop) (angle : ℚ) (mode : Int)
    (hw : 0 < w) (hh : 0 < h) (hne : stops ≠ [])
    (hpos : ∀ s ∈ stops, fl s.position = s.position)
    (hmax : h * w * 4 ≤ 2147483648) (hlen : h * w * 4 ≤ pixels.length) :
    ∃ s out, setup_fl fl m w h angle mode = some s ∧ s.range ≠ 0 ∧ s.max_radius ≠ 0 ∧
      generate_gradient_fl fl m pixels w h stops angle mode = some out ∧
      Painted (image_color_fl fl m s stops mode w) pixels out (h * w) := by
  have hwh : w ≤ h * w := Nat.le_mul_of_pos_left w hh
  have hhw : h ≤ h * w := Nat.le_mul_of_pos_right h hw
  obtain ⟨s, hs, hrange, hrad, -⟩ := setup_fl_spec hfl m w h angle mode hw hh
    (by omega) (by omega)
  have hcol : ∀ x y : Nat, x < w → y < h → pixel_color_fl fl m s stops mode x y
      = some (image_color_fl fl m s stops mode w (y * w + x)) := by
    intro x y hx hy
    obtain ⟨t, ht, -⟩ := pixel_t_fl_spec hfl m s mode x y hrange (ne_of_gt hrad)
    obtain ⟨c, hc⟩ := interpolate_color_fl_total hfl (clamp01 t) stops hne hpos
    simp only [image_color_fl, pixel_number_mod w x y hx, pixel_number_div w x y hx,
      pixel_color_fl, ht, Option.bind_eq_bind, Option.some_bind, hc, Option.getD_some]
  obtain ⟨out, hout, hp⟩ := image_loop_fl_spec fl m s stops mode w h
    (image_color_fl fl m s stops mode w) pixels hcol hmax hlen h 0 pixels (by omega)
    (by simpa using Painted.init (image_color_fl fl m s stops mode w) pixels)
  refine ⟨s, out, hs, hrange, ne_of_gt hrad, ?_, hp⟩
  rw [Nat.cast_zero] at hout
  simp only [generate_gradient_fl, hs, Option.bind_eq_bind, Option.some_bind, Int.toNat_ofNat,
    hout]

/-! ## Binary64 arithmetic: the rounding `binary64` is a rounding -/

theorem pow2_eq_zpow (e : Int) : pow2 e = (2 : ℚ) ^ e := by
  unfold pow2
  split_ifs with h
  · obtain ⟨n, rfl⟩ := Int.eq_ofNat_of_zero_le h
    simp
  · have hneg : 0 ≤ -e := by omega
    obtain ⟨n, hn⟩ := Int.eq_ofNat_of_zero_le hneg
    have he : e = -(n : Int) := by omega
    rw [hn, he]
    simp

theorem log2_aux_spec : ∀ (fuel n : Nat), n ≤ fuel → n ≠ 0 →
    2 ^ log2_aux fuel n ≤ n ∧ n < 2 ^ (log2_aux fuel n + 1) := by
  intro fuel
  induction fuel with
  | zero =>
    intro n hn h0
    omega
  | succ fuel ih =>
    intro n hn h0
    unfold log2_aux
    split_ifs with h2
    · obtain ⟨h1, h3⟩ := ih (n / 2) (by omega) (by omega)
      constructor
      · rw [pow_succ]
        omega
      · rw [pow_succ] at h3 ⊢
        omega
    · have : n = 1 := by omega
      subst this
      simp

theorem ilog2_spec {q : ℚ} (hq : q ≠ 0) :
    (2 : ℚ) ^ ilog2 q ≤ |q| ∧ |q| < (2 : ℚ) ^ (ilog2 q + 1) := by
  have hn0 : q.num.natAbs ≠ 0 := by
    simpa using hq
  have hd0 : q.den ≠ 0 := q.den_nz
  obtain ⟨a1, a2⟩ := log2_aux_spec q.num.natAbs q.num.natAbs (le_refl _) hn0
  obtain ⟨b1, b2⟩ := log2_aux_spec q.den q.den (le_refl _) hd0
  have habs : |q| = (q.num.natAbs : ℚ) / (q.den : ℚ) := by
    conv_lhs => rw [← Rat.num_div_den q]
    rw [abs_div, Nat.abs_cast, Nat.cast_natAbs, Int.cast_abs]
  have hdpos : (0 : ℚ) < (q.den : ℚ) := by exact_mod_cast q.den_pos
  have A1 : ((2 : ℚ) ^ log2_aux q.num.natAbs q.num.natAbs) ≤ (q.num.natAbs : ℚ) := by
    exact_mod_cast a1
  have A2 : (q.num.natAbs : ℚ) < (2 : ℚ) ^ (log2_aux q.num.natAbs q.num.natAbs + 1) := by
    exact_mod_cast a2
  have B1 : ((2 : ℚ) ^ log2_aux q.den q.den) ≤ (q.den : ℚ) := by exact_mod_cast b1
  have B2 : (q.den : ℚ) < (2 : ℚ) ^ (log2_aux q.den q.den + 1) := by exact_mod_cast b2
  have h2 : (2 : ℚ) ≠ 0 := by norm_num
  set a := log2_aux q.num.natAbs q.num.natAbs with ha
  set b := log2_aux q.den q.den with hb
  have hpa : (0 : ℚ) < (2 : ℚ) ^ a := by positivity
  have hpb : (0 : ℚ) < (2 : ℚ) ^ b := by positivity
  have e1 : (2 : ℚ) ^ ((a : Int) - (b : Int) + 1) = (2 : ℚ) ^ (a + 1) / (2 : ℚ) ^ b := by
    rw [show (a : Int) - (b : Int) + 1 = ((a + 1 : Nat) : Int) - ((b : Nat) : Int) by push_cast; ring,
      zpow_sub₀ h2, zpow_natCast, zpow_natCast]
  have e2 : (2 : ℚ) ^ ((a : Int) - (b : Int) - 1) = (2 : ℚ) ^ a / (2 : ℚ) ^ (b + 1) := by
    rw [show (a : Int) - (b : Int) - 1 = ((a : Nat) : Int) - ((b + 1 : Nat) : Int) by push_cast; ring,
      zpow_sub₀ h2, zpow_natCast, zpow_natCast]
  unfold ilog2
  simp only [← ha, ← hb, pow2_eq_zpow]
  split_ifs with hle
  · refine ⟨hle, ?_⟩
    rw [e1, habs, div_lt_div_iff₀ hdpos hpb]
    calc (q.num.natAbs : ℚ) * 2 ^ b < 2 ^ (a + 1) * 2 ^ b := by
          exact mul_lt_mul_of_pos_right A2 hpb
      _ ≤ 2 ^ (a + 1) * (q.den : ℚ) := by
          exact mul_le_mul_of_nonneg_left B1 (by positivity)
  · rw [sub_add_cancel]
    refine ⟨?_, not_le.mp hle⟩
    rw [e2, habs, div_le_div_iff₀ (by positivity) hdpos]
    calc (2 : ℚ) ^ a * (q.den : ℚ) ≤ 2 ^ a * 2 ^ (b + 1) := by
          exact mul_le_mul_of_nonneg_left B2.le (by positivity)
      _ ≤ (q.num.natAbs : ℚ) * 2 ^ (b + 1) := by
          exact mul_le_mul_of_nonneg_right A1 (by positivity)

theorem ilog2_mono {a b : ℚ} (ha : 0 < a) (hab : a ≤ b) : ilog2 a ≤ ilog2 b := by
  by_contra hlt
  push_neg at hlt
  obtain ⟨a1, a2⟩ := ilog2_spec (ne_of_gt ha)
  obtain ⟨b1, b2⟩ := ilog2_spec (ne_of_gt (lt_of_lt_of_le ha hab))
  rw [abs_of_pos ha] at a1 a2
  rw [abs_of_pos (lt_of_lt_of_le ha hab)] at b1 b2
  have : (2 : ℚ) ^ (ilog2 b + 1) ≤ (2 : ℚ) ^ ilog2 a :=
    zpow_le_zpow_right₀ (by norm_num) (by omega)
  linarith

theorem round_half_even_intCast (z : Int) : round_half_even (z : ℚ) = z := by
  unfold round_half_even
  simp

theorem round_half_even_bounds (x : ℚ) :
    ⌊x⌋ ≤ round_half_even x ∧ round_half_even x ≤ ⌊x⌋ + 1 := by
  unfold round_half_even
  split_ifs <;> constructor <;> omega

theorem round_half_even_mono {x y : ℚ} (h : x ≤ y) : round_half_even x ≤ round_half_even y := by
  have hfg : ⌊x⌋ ≤ ⌊y⌋ := Int.floor_le_floor h
  rcases lt_or_eq_of_le hfg with hlt | heq
  · have h1 := (round_half_even_bounds x).2
    have h2 := (round_half_even_bounds y).1
    omega
  · unfold round_half_even
    rw [← heq]
    split_ifs <;> first | omega | (exfalso; linarith)

theorem round_half_even_nonneg {x : ℚ} (h : 0 ≤ x) : 0 ≤ round_half_even x := by
  have := round_half_even_mono h
  rwa [show ((0 : ℚ)) = ((0 : Int) : ℚ) by simp, round_half_even_intCast] at this

theorem two_zpow_pos (e : Int) : (0 : ℚ) < (2 : ℚ) ^ e :=
  zpow_pos (by norm_num) e

theorem two_zpow_add (m n : Int) : (2 : ℚ) ^ (m + n) = (2 : ℚ) ^ m * (2 : ℚ) ^ n :=
  zpow_add₀ (by norm_num) m n

theorem binary64_pos_eq (q : ℚ) :
    binary64_pos q = (round_half_even (q / (2 : ℚ) ^ (max (ilog2 q) (-1022) - 52)) : ℚ)
      * (2 : ℚ) ^ (max (ilog2 q) (-1022) - 52) := by
  unfold binary64_pos
  rw [pow2_eq_zpow]

theorem binary64_pos_nonneg {q : ℚ} (hq : 0 < q) : 0 ≤ binary64_pos q := by
  rw [binary64_pos_eq]
  have h1 : (0 : ℚ) ≤ q / (2 : ℚ) ^ (max (ilog2 q) (-1022) - 52) :=
    div_nonneg hq.le (two_zpow_pos _).le
  have h2 := round_half_even_nonneg h1
  have h3 : (0 : ℚ) ≤ (round_half_even (q / (2 : ℚ) ^ (max (ilog2 q) (-1022) - 52)) : ℚ) := by
    exact_mod_cast h2
  exact mul_nonneg h3 (two_zpow_pos _).le

theorem binary64_pos_le_top {q : ℚ} (hq : 0 < q) :
    binary64_pos q ≤ (2 : ℚ) ^ (max (ilog2 q) (-1022) + 1) := by
  rw [binary64_pos_eq]
  obtain ⟨-, hlt⟩ := ilog2_spec (ne_of_gt hq)
  rw [abs_of_pos hq] at hlt
  set L := max (ilog2 q) (-1022) with hL
  have hu := two_zpow_pos (L - 52)
  have htop : q ≤ (2 : ℚ) ^ (L + 1) :=
    le_trans hlt.le (zpow_le_zpow_right₀ (by norm_num) (by
      have : ilog2 q ≤ L := le_max_left _ _
      omega))
  have e1 : (2 : ℚ) ^ (L + 1) = ((2 ^ 53 : Int) : ℚ) * (2 : ℚ) ^ (L - 52) := by
    rw [show L + 1 = 53 + (L - 52) by ring, two_zpow_add]
    norm_num
  have h1 : q / (2 : ℚ) ^ (L - 52) ≤ ((2 ^ 53 : Int) : ℚ) := by
    rw [div_le_iff₀ hu, ← e1]
    exact htop
  have h2 := round_half_even_mono h1
  rw [round_half_even_intCast] at h2
  have h3 : (round_half_even (q / (2 : ℚ) ^ (L - 52)) : ℚ) ≤ ((2 ^ 53 : Int) : ℚ) := by
    exact_mod_cast h2
  rw [e1]
  exact mul_le_mul_of_nonneg_right h3 hu.le

theorem binary64_pos_ge_bot {q : ℚ} (hq : 0 < q) (hnorm : -1022 ≤ ilog2 q) :
    (2 : ℚ) ^ ilog2 q ≤ binary64_pos q := by
  rw [binary64_pos_eq]
  obtain ⟨hle, -⟩ := ilog2_spec (ne_of_gt hq)
  rw [abs_of_pos hq] at hle
  rw [max_eq_left hnorm]
  have hu := two_zpow_pos (ilog2 q - 52)
  have e1 : (2 : ℚ) ^ ilog2 q = ((2 ^ 52 : Int) : ℚ) * (2 : ℚ) ^ (ilog2 q - 52) := by
    conv_lhs => rw [show ilog2 q = 52 + (ilog2 q - 52) by ring, two_zpow_add]
    norm_num
  have h1 : ((2 ^ 52 : Int) : ℚ) ≤ q / (2 : ℚ) ^ (ilog2 q - 52) := by
    rw [le_div_iff₀ hu, ← e1]
    exact hle
  have h2 := round_half_even_mono h1
  rw [round_half_even_intCast] at h2
  have h3 : ((2 ^ 52 : Int) : ℚ) ≤ (round_half_even (q / (2 : ℚ) ^ (ilog2 q - 52)) : ℚ) := by
    exact_mod_cast h2
  rw [e1]
  exact mul_le_mul_of_nonneg_right h3 hu.le

theorem binary64_pos_mono {a b : ℚ} (ha : 0 < a) (hab : a ≤ b) :
    binary64_pos a ≤ binary64_pos b := by
  have hb : 0 < b := lt_of_lt_of_le ha hab
  have hlog := ilog2_mono ha hab
  rcases lt_or_eq_of_le (max_le_max hlog (le_refl (-1022 : Int))) with hlt | heq
  · have hnorm : -1022 ≤ ilog2 b := by
      by_contra hcon
      push_neg at hcon
      rw [max_eq_right hcon.le] at hlt
      have : (-1022 : Int) ≤ max (ilog2 a) (-1022) := le_max_right _ _
      omega
    rw [max_eq_left hnorm] at hlt
    calc binary64_pos a ≤ (2 : ℚ) ^ (max (ilog2 a) (-1022) + 1) := binary64_pos_le_top ha
      _ ≤ (2 : ℚ) ^ ilog2 b := zpow_le_zpow_right₀ (by norm_num) (by omega)
      _ ≤ binary64_pos b := binary64_pos_ge_bot hb hnorm
  · rw [binary64_pos_eq, binary64_pos_eq, heq]
    have hu := two_zpow_pos (max (ilog2 b) (-1022) - 52)
    have h1 : a / (2 : ℚ) ^ (max (ilog2 b) (-1022) - 52)
        ≤ b / (2 : ℚ) ^ (max (ilog2 b) (-1022) - 52) :=
      div_le_div_of_nonneg_right hab hu.le
    have h2 := round_half_even_mono h1
    have h3 : (round_half_even (a / (2 : ℚ) ^ (max (ilog2 b) (-1022) - 52)) : ℚ)
        ≤ (round_half_even (b / (2 : ℚ) ^ (max (ilog2 b) (-1022) - 52)) : ℚ) := by
      exact_mod_cast h2
    exact mul_le_mul_of_nonneg_right h3 hu.le

/-- A positive `z * 2^j` with `z < 2^53` and `j >= -1074` is a double. -/
theorem binary64_pos_exact (z : Int) (j : Int) (hz0 : 0 < z) (hz : z < 2 ^ 53)
    (hj : -1074 ≤ j) : binary64_pos ((z : ℚ) * (2 : ℚ) ^ j) = (z : ℚ) * (2 : ℚ) ^ j := by
  have hzq : (0 : ℚ) < (z : ℚ) := by exact_mod_cast hz0
  have hq : (0 : ℚ) < (z : ℚ) * (2 : ℚ) ^ j := mul_pos hzq (two_zpow_pos j)
  obtain ⟨hle, -⟩ := ilog2_spec (ne_of_gt hq)
  rw [abs_of_pos hq] at hle
  have hlt : (z : ℚ) * (2 : ℚ) ^ j < (2 : ℚ) ^ (53 + j) := by
    rw [two_zpow_add]
    have : (z : ℚ) < (2 : ℚ) ^ (53 : Int) := by
      have h53 : (z : ℚ) < ((2 ^ 53 : Int) : ℚ) := by exact_mod_cast hz
      have e53 : ((2 ^ 53 : Int) : ℚ) = (2 : ℚ) ^ (53 : Int) := by norm_num
      rw [e53] at h53
      exact h53
    exact mul_lt_mul_of_pos_right this (two_zpow_pos j)
  have hlog : ilog2 ((z : ℚ) * (2 : ℚ) ^ j) < 53 + j := by
    have := lt_of_le_of_lt hle hlt
    exact (zpow_lt_zpow_iff_right₀ (by norm_num : (1 : ℚ) < 2)).mp this
  rw [binary64_pos_eq]
  set e := max (ilog2 ((z : ℚ) * (2 : ℚ) ^ j)) (-1022) - 52 with he
  have hej : e ≤ j := by
    have : max (ilog2 ((z : ℚ) * (2 : ℚ) ^ j)) (-1022) ≤ 52 + j := max_le (by omega) (by omega)
    omega
  obtain ⟨d, hd⟩ := Int.eq_ofNat_of_zero_le (show 0 ≤ j - e by omega)
  have hquot : (z : ℚ) * (2 : ℚ) ^ j / (2 : ℚ) ^ e = ((z * 2 ^ d : Int) : ℚ) := by
    rw [mul_div_assoc, ← zpow_sub₀ (by norm_num : (2 : ℚ) ≠ 0), hd, zpow_natCast]
    push_cast
    rfl
  rw [hquot, round_half_even_intCast]
  push_cast
  rw [mul_assoc, ← zpow_natCast, ← hd, ← two_zpow_add]
  congr 2
  ring

/-- A value of `binary64_pos` is an integer multiple of `2^-1074`. -/
theorem binary64_pos_multiple (q : ℚ) :
    ∃ N : Int, binary64_pos q = (N : ℚ) * (2 : ℚ) ^ (-1074 : Int) := by
  rw [binary64_pos_eq]
  set e := max (ilog2 q) (-1022) - 52 with he
  have : -1074 ≤ e := by
    have : (-1022 : Int) ≤ max (ilog2 q) (-1022) := le_max_right _ _
    omega
  obtain ⟨d, hd⟩ := Int.eq_ofNat_of_zero_le (show 0 ≤ e + 1074 by omega)
  refine ⟨round_half_even (q / (2 : ℚ) ^ e) * 2 ^ d, ?_⟩
  push_cast
  rw [mul_assoc, ← zpow_natCast, ← hd, ← two_zpow_add]
  congr 2
  ring

theorem binary64_of_pos {q : ℚ} (hq : 0 < q) : binary64 q = binary64_pos q := by
  unfold binary64
  rw [if_neg (ne_of_gt hq), if_pos hq]

theorem binary64_of_neg {q : ℚ} (hq : q < 0) : binary64 q = -binary64_pos (-q) := by
  unfold binary64
  rw [if_neg (ne_of_lt hq), if_neg (not_lt.mpr hq.le)]

theorem binary64_zero : binary64 0 = 0 := by
  unfold binary64
  rw [if_pos rfl]

theorem binary64_neg (q : ℚ) : binary64 (-q) = -binary64 q := by
  rcases lt_trichotomy q 0 with h | h | h
  · rw [binary64_of_neg h, binary64_of_pos (neg_pos.mpr h), neg_neg]
  · subst h
    rw [neg_zero, binary64_zero, neg_zero]
  · rw [binary64_of_pos h, binary64_of_neg (neg_neg_of_pos h), neg_neg]

theorem binary64_nonneg {q : ℚ} (hq : 0 ≤ q) : 0 ≤ binary64 q := by
  rcases eq_or_lt_of_le hq with h | h
  · rw [← h, binary64_zero]
  · rw [binary64_of_pos h]
    exact binary64_pos_nonneg h

theorem binary64_nonpos {q : ℚ} (hq : q ≤ 0) : binary64 q ≤ 0 := by
  have h := binary64_nonneg (neg_nonneg.mpr hq)
  rw [binary64_neg] at h
  linarith

theorem binary64_mono {a b : ℚ} (hab : a ≤ b) : binary64 a ≤ binary64 b := by
  rcases lt_or_le 0 a with ha | ha
  · rw [binary64_of_pos ha, binary64_of_pos (lt_of_lt_of_le ha hab)]
    exact binary64_pos_mono ha hab
  · rcases lt_or_le b 0 with hb | hb
    · have ha' : a < 0 := lt_of_le_of_lt hab hb
      rw [binary64_of_neg ha', binary64_of_neg hb]
      have := binary64_pos_mono (neg_pos.mpr hb) (neg_le_neg hab)
      linarith
    · exact le_trans (binary64_nonpos ha) (binary64_nonneg hb)

/-- Every `z * 2^j` with `|z| < 2^53` and `j >= -1074` is a double. -/
theorem binary64_exact_zpow (z : Int) (j : Int) (hz : |z| < 2 ^ 53) (hj : -1074 ≤ j) :
    binary64 ((z : ℚ) * (2 : ℚ) ^ j) = (z : ℚ) * (2 : ℚ) ^ j := by
  rcases lt_trichotomy z 0 with h | h | h
  · have hq : (z : ℚ) * (2 : ℚ) ^ j < 0 :=
      mul_neg_of_neg_of_pos (by exact_mod_cast h) (two_zpow_pos j)
    rw [binary64_of_neg hq]
    have e : -((z : ℚ) * (2 : ℚ) ^ j) = ((-z : Int) : ℚ) * (2 : ℚ) ^ j := by
      push_cast
      ring
    rw [e, binary64_pos_exact (-z) j (by omega) (by rw [abs_of_neg h] at hz; exact hz) hj]
    push_cast
    ring
  · subst h
    simp [binary64_zero]
  · have hq : (0 : ℚ) < (z : ℚ) * (2 : ℚ) ^ j :=
      mul_pos (by exact_mod_cast h) (two_zpow_pos j)
    rw [binary64_of_pos hq]
    exact binary64_pos_exact z j h (by rw [abs_of_pos h] at hz; exact hz) hj

/-- A double is an integer multiple of `2^-1074`. -/
theorem binary64_multiple (q : ℚ) :
    ∃ N : Int, binary64 q = (N : ℚ) * (2 : ℚ) ^ (-1074 : Int) := by
  rcases lt_trichotomy q 0 with h | h | h
  · obtain ⟨N, hN⟩ := binary64_pos_multiple (-q)
    refine ⟨-N, ?_⟩
    rw [binary64_of_neg h, hN]
    push_cast
    ring
  · subst h
    exact ⟨0, by simp [binary64_zero]⟩
  · obtain ⟨N, hN⟩ := binary64_pos_multiple q
    exact ⟨N, by rw [binary64_of_pos h, hN]⟩

/-- The rounding of IEEE 754 binary64 (overflow apart) is a rounding in the sense of
`is_rounding`. -/
theorem binary64_is_rounding : is_rounding binary64 := by
  refine ⟨fun a b hab => binary64_mono hab, ?_, ?_⟩
  · intro z k hz hk
    have ediv : ∀ y : ℚ, y / (2 : ℚ) ^ k = y * (2 : ℚ) ^ (-(k : Int)) := by
      intro y
      rw [zpow_neg, zpow_natCast, div_eq_mul_inv]
    rcases lt_or_eq_of_le hz with hlt | heq
    · rw [ediv]
      exact binary64_exact_zpow z _ hlt (by omega)
    · have hz' : z = 2 ^ 53 ∨ z = -2 ^ 53 := by
        rcases abs_cases z with ⟨h1, -⟩ | ⟨h1, -⟩ <;> omega
      have e2 : ∀ s : Int, ((s * 2 ^ 53 : Int) : ℚ) / (2 : ℚ) ^ k
          = (s : ℚ) * (2 : ℚ) ^ (53 - (k : Int)) := by
        intro s
        rw [zpow_sub₀ (by norm_num : (2 : ℚ) ≠ 0), zpow_natCast]
        push_cast
        rw [mul_div_assoc]
        norm_num
      rcases hz' with h | h
      · have := e2 1
        rw [one_mul] at this
        rw [h, this]
        exact binary64_exact_zpow 1 _ (by norm_num) (by omega)
      · have := e2 (-1)
        rw [show ((-1 : Int) * 2 ^ 53) = -2 ^ 53 by norm_num] at this
        rw [h, this]
        exact binary64_exact_zpow (-1) _ (by norm_num) (by omega)
  · intro a b ha hb hab
    obtain ⟨Na, hNa⟩ := binary64_multiple a
    obtain ⟨Nb, hNb⟩ := binary64_multiple b
    rw [ha] at hNa
    rw [hb] at hNb
    have hu := two_zpow_pos (-1074)
    have hN : Na < Nb := by
      by_contra hcon
      push_neg at hcon
      have : (Nb : ℚ) ≤ (Na : ℚ) := by exact_mod_cast hcon
      have := mul_le_mul_of_nonneg_right this hu.le
      rw [← hNa, ← hNb] at this
      linarith
    have h1 : (1 : ℚ) ≤ (Nb : ℚ) - (Na : ℚ) := by
      have : (1 : Int) ≤ Nb - Na := by omega
      exact_mod_cast this
    have hge : ((1 : Int) : ℚ) * (2 : ℚ) ^ (-1074 : Int) ≤ b - a := by
      rw [hNa, hNb, ← sub_mul]
      push_cast
      exact mul_le_mul_of_nonneg_right h1 hu.le
    have h2 := binary64_mono hge
    rw [binary64_exact_zpow 1 (-1074) (by norm_num) (le_refl _)] at h2
    have : (0 : ℚ) < ((1 : Int) : ℚ) * (2 : ℚ) ^ (-1074 : Int) := by
      push_cast
      rw [one_mul]
      exact hu
    linarith

/-- The double nearest to `0.1`. -/
theorem binary64_one_tenth :
    binary64 (1 / 10) = 3602879701896397 / 36028797018963968 := by
  decide!

/-- The double nearest to `0.7`, which lies below `0.7`. -/
theorem binary64_seven_tenths :
    binary64 (7 / 10) = 3152519739159347 / 4503599627370496 := by
  decide!

/-- A tie goes to the even significand: `2^53 + 1` rounds down to `2^53` and
`2^53 + 3` rounds up to `2^53 + 4`. -/
theorem binary64_ties_to_even :
    binary64 9007199254740993 = 9007199254740992 ∧
    binary64 9007199254740995 = 9007199254740996 := by
  decide!

/-- Gradual underflow: half of the least positive double rounds to zero, and
three quarters of it round to it. -/
theorem binary64_underflow :
    binary64 (1 / 2 ^ 1075) = 0 ∧ binary64 (3 / 2 ^ 1076) = 1 / 2 ^ 1074 := by
  decide!

/-! ## Binary64 arithmetic: claims about the computed bytes -/

/-- The value a channel is converted from in binary64, written over the rationals:
`fl (c0 + fl ((c1 - c0) * ratio))`. -/
theorem lerp_value_fl_cast (fl : ℚ → ℚ) (c0 c1 : Byte) (ratio : ℚ) :
    fl (((c0.val : Int) : ℚ) + fl ((((c1.val : Int) - (c0.val : Int) : Int) : ℚ) * ratio))
      = fl ((c0.val : ℚ) + fl (((c1.val : ℚ) - (c0.val : ℚ)) * ratio)) := by
  rw [Int.cast_sub, Int.cast_natCast, Int.cast_natCast]

/-- At the double nearest to `0.7`, between `(0, 0,0,0)` and `(1, 10,10,10)`, the
product `10 * ratio` of line 19 rounds to `7`, so every channel is `7`; the same
formula carried out without rounding stays below `7` and truncates to `6`. -/
theorem interpolate_color_fl_seven_tenths :
    interpolate_color_fl binary64 (binary64 (7 / 10))
      [ColorStop.mk 0 0 0 0, ColorStop.mk 1 10 10 10] = some (7, 7, 7) ∧
    interpolate_color (binary64 (7 / 10))
      [ColorStop.mk 0 0 0 0, ColorStop.mk 1 10 10 10] = some (6, 6, 6) := by
  decide!

/-- C4: for a non-empty sorted stop list and `stops[0].position < t <= last position`,
with `i >= 1` the first index such that `t <= stops[i].position` and
`ratio = (t - stops[i-1].position) / (stops[i].position - stops[i-1].position)`,
each channel returned by `interpolate_color` is
`stops[i-1].channel + (stops[i].channel - stops[i-1].channel) * ratio` truncated
toward zero, the three channels independently.  The two formulas are the `double`
expressions of lines 18-21: the result of each subtraction, division,
multiplication and addition is rounded (`fl`).  The positions are doubles of
magnitude at most `2^1022`, so that no difference leaves the finite doubles. -/
theorem interpolate_color_fl_segment {fl : ℚ → ℚ} (hfl : is_rounding fl) (t : ℚ)
    (stops : List ColorStop) (i : Nat) (s0 sp si sl : ColorStop) (_hs : sorted_stops stops)
    (hpos : ∀ s ∈ stops, fl s.position = s.position)
    (_hfin : ∀ s ∈ stops, |s.position| ≤ 2 ^ 1022)
    (h0 : stops[0]? = some s0) (_hl : stops[stops.length - 1]? = some sl)
    (ht0 : s0.position < t) (_htl : t ≤ sl.position)
    (hi : 1 ≤ i) (hsp : stops[i - 1]? = some sp) (hsi : stops[i]? = some si)
    (hti : t ≤ si.position)
    (hfirst : ∀ (l : Nat) (s : ColorStop), 1 ≤ l → l < i → stops[l]? = some s →
      ¬ t ≤ s.position) :
    ∃ r g b : Byte, interpolate_color_fl fl t stops = some (r, g, b) ∧
      (r.val : Int) = trunc (fl ((sp.r.val : ℚ) + fl (((si.r.val : ℚ) - (sp.r.val : ℚ))
        * fl (fl (t - sp.position) / fl (si.position - sp.position))))) ∧
      (g.val : Int) = trunc (fl ((sp.g.val : ℚ) + fl (((si.g.val : ℚ) - (sp.g.val : ℚ))
        * fl (fl (t - sp.position) / fl (si.position - sp.position))))) ∧
      (b.val : Int) = trunc (fl ((sp.b.val : ℚ) + fl (((si.b.val : ℚ) - (sp.b.val : ℚ))
        * fl (fl (t - sp.position) / fl (si.position - sp.position))))) := by
  have hil : i < stops.length := (List.getElem?_eq_some_iff.mp hsi).1
  have hprev : sp.position < t := by
    by_cases h1 : i = 1
    · subst h1
      rw [show (1 : Nat) - 1 = 0 from rfl, h0] at hsp
      cases hsp
      exact ht0
    · exact not_le.mp (hfirst (i - 1) sp (by omega) (by omega) hsp)
  have hpsp : fl sp.position = sp.position := by
    obtain ⟨h1, h2⟩ := List.getElem?_eq_some_iff.mp hsp
    rw [← h2]
    exact hpos _ (List.getElem_mem h1)
  have hpsi : fl si.position = si.position := by
    obtain ⟨h1, h2⟩ := List.getElem?_eq_some_iff.mp hsi
    rw [← h2]
    exact hpos _ (List.getElem_mem h1)
  obtain ⟨-, hr0, hr1⟩ := ratio_fl_bounds hfl hpsp hpsi hprev hti
  obtain ⟨r, g, b, hseg, hr, hg, hb⟩ := interpolate_segment_fl_spec hfl hpsp hpsi hprev hti
  obtain ⟨r1, hr', hrt, -⟩ := lerp_channel_fl_spec hfl sp.r si.r hr0 hr1
  obtain ⟨g1, hg', hgt, -⟩ := lerp_channel_fl_spec hfl sp.g si.g hr0 hr1
  obtain ⟨b1, hb', hbt, -⟩ := lerp_channel_fl_spec hfl sp.b si.b hr0 hr1
  rw [hr] at hr'
  rw [hg] at hg'
  rw [hb] at hb'
  cases hr'
  cases hg'
  cases hb'
  rw [lerp_value_fl_cast fl sp.r si.r] at hrt
  rw [lerp_value_fl_cast fl sp.g si.g] at hgt
  rw [lerp_value_fl_cast fl sp.b si.b] at hbt
  refine ⟨r, g, b, ?_, hrt, hgt, hbt⟩
  have hloop := interpolate_color_loop_fl_first fl t stops i sp si hsi hsp hti
    (stops.length - 1) 1 (by omega) hi (fun l s h1 h2 h3 => hfirst l s h1 h2 h3)
  simp [interpolate_color_fl, h0, not_le.mpr ht0, hloop, hseg]

/-- Witness of C4 with the rounding `binary64`, on `[(0, 0,0,0), (1, 10,10,10)]` at
the double nearest to `0.7`, `i = 1`. -/
theorem interpolate_color_fl_segment_witness :
    ∃ r g b : Byte,
      interpolate_color_fl binary64 (binary64 (7 / 10))
        [ColorStop.mk 0 0 0 0, ColorStop.mk 1 10 10 10] = some (r, g, b) ∧
      (r.val : Int) = trunc (binary64 (((0 : Byte).val : ℚ)
        + binary64 ((((10 : Byte).val : ℚ) - ((0 : Byte).val : ℚ))
          * binary64 (binary64 (binary64 (7 / 10) - 0) / binary64 (1 - 0))))) ∧
      (g.val : Int) = trunc (binary64 (((0 : Byte).val : ℚ)
        + binary64 ((((10 : Byte).val : ℚ) - ((0 : Byte).val : ℚ))
          * binary64 (binary64 (binary64 (7 / 10) - 0) / binary64 (1 - 0))))) ∧
      (b.val : Int) = trunc (binary64 (((0 : Byte).val : ℚ)
        + binary64 ((((10 : Byte).val : ℚ) - ((0 : Byte).val : ℚ))
          * binary64 (binary64 (binary64 (7 / 10) - 0) / binary64 (1 - 0))))) :=
  interpolate_color_fl_segment binary64_is_rounding (binary64 (7 / 10))
    [ColorStop.mk 0 0 0 0, ColorStop.mk 1 10 10 10] 1
    (ColorStop.mk 0 0 0 0) (ColorStop.mk 0 0 0 0) (ColorStop.mk 1 10 10 10)
    (ColorStop.mk 1 10 10 10) (by decide!) (by decide!)
    (by
      intro s hs
      simp only [List.mem_cons, List.mem_singleton, List.not_mem_nil, or_false] at hs
      rcases hs with rfl | rfl <;> norm_num)
    rfl rfl (by decide!) (by decide!)
    (le_refl _) rfl rfl (by decide!) (fun l s h1 h2 _ => absurd h1 (by omega))

/-- The `11 x 1` linear image at angle `0` between `(0, 0,0,0)` and
`(1, 90,170,180)`: at the pixel `(7, 0)` the parameter is the double nearest to
`7/10`, and the four bytes at offset `28` are `62, 118, 125, 255`. -/
theorem generate_gradient_fl_eleven_by_one :
    (generate_gradient_fl binary64 libm_approx (List.replicate 44 0) 11 1
      [ColorStop.mk 0 0 0 0, ColorStop.mk 1 90 170 180] 0 0).map
        (fun out => (out[28]?, out[29]?, out[30]?, out[31]?))
      = some (some 62, some 118, some 125, some 255) := by
  decide!

/-- C1, refuted as stated: width `65536`, height `8193`, a non-empty stop list
and a buffer of `65536 * 8193 * 4` bytes meet the claim's conditions, but the
call does not return a buffer: at the pixel `(0, 8192)` the offset
`(y * width + x) * 4` is `2147483648`, which does not fit the `int idx` of line
88. -/
theorem generate_gradient_fl_offset_overflow :
    (0 : Int) < 65536 ∧ (0 : Int) < 8193 ∧
    [ColorStop.mk 0 255 0 0, ColorStop.mk 1 0 0 255] ≠ [] ∧
    65536 * 8193 * 4 ≤ (List.replicate 2147745792 (0 : Byte)).length ∧
    generate_gradient_fl binary64 libm_approx (List.replicate 2147745792 (0 : Byte))
      65536 8193 [ColorStop.mk 0 255 0 0, ColorStop.mk 1 0 0 255] 0 0 = none := by
  refine ⟨by norm_num, by norm_num, by simp, by rw [List.length_replicate], ?_⟩
  rw [Option.eq_none_iff_forall_not_mem]
  intro out hout
  have h := generate_gradient_fl_defined (w := 65536) (h := 8193) hout 0 8192
    (by norm_num) (by norm_num)
  norm_num at h

/-- C1, amended: for width > 0, height > 0 with `width * height * 4 <= 2^31`
(every byte offset fits an `int`), a non-empty stop list, a buffer of at
least `width * height * 4` bytes, every angle and mode, the call returns and for
every pixel `(x, y)` of the image the four bytes at offset `(y*width + x)*4` are
`(r, g, b, 255)`, where `(r, g, b) = interpolate_color(clamp01(t), stops)` and `t`
is the projection of the mode: linear `(x*cos + y*sin - min_coord)/range`, conic
`(atan2(y-cy, x-cx) + pi)/(2*pi)`, otherwise radial `dist/max_radius`.  The
projections are the `double` expressions of lines 66-80, the result of each
operation rounded (`fl`), and `interpolate_color` is the binary64 one.  The stop
positions are doubles of magnitude at most `2^1022` and the angle is at most
`2^1021` in magnitude, so that no operation leaves the finite doubles. -/
theorem generate_gradient_fl_pixels {fl : ℚ → ℚ} (hfl : is_rounding fl) (m : Libm)
    (pixels : List Byte) (w h : Nat) (stops : List ColorStop) (angle : ℚ) (mode : Int)
    (hw : 0 < w) (hh : 0 < h) (hne : stops ≠ [])
    (hpos : ∀ s ∈ stops, fl s.position = s.position)
    (_hfin : ∀ s ∈ stops, |s.position| ≤ 2 ^ 1022) (_hangle : |angle| ≤ 2 ^ 1021)
    (hmax : w * h * 4 ≤ 2147483648) (hlen : w * h * 4 ≤ pixels.length) :
    ∃ s out, setup_fl fl m w h angle mode = some s ∧
      generate_gradient_fl fl m pixels w h stops angle mode = some out ∧
      ∀ x y : Nat, x < w → y < h → ∃ (t : ℚ) (c : Byte × Byte × Byte),
        (mode = 0 →
          t = fl (fl (fl (fl ((x : ℚ) * s.cos_angle) + fl ((y : ℚ) * s.sin_angle))
            - s.min_coord) / s.range)) ∧
        (mode = 1 →
          t = fl (fl (m.atan2 (fl ((y : ℚ) - s.cy)) (fl ((x : ℚ) - s.cx)) + M_PI)
            / fl (2 * M_PI))) ∧
        (mode ≠ 0 → mode ≠ 1 →
          t = fl (m.sqrt (fl (fl (fl ((x : ℚ) - s.cx) * fl ((x : ℚ) - s.cx))
            + fl (fl ((y : ℚ) - s.cy) * fl ((y : ℚ) - s.cy)))) / s.max_radius)) ∧
        interpolate_color_fl fl (clamp01 t) stops = some c ∧
        out[(y * w + x) * 4]? = some c.1 ∧ out[(y * w + x) * 4 + 1]? = some c.2.1 ∧
        out[(y * w + x) * 4 + 2]? = some c.2.2 ∧ out[(y * w + x) * 4 + 3]? = some 255 := by
  have e : h * w * 4 = w * h * 4 := by rw [Nat.mul_comm h w]
  obtain ⟨s, out, hs, hrange, hrad, hout, hp⟩ := generate_gradient_fl_spec hfl m pixels w h
    stops angle mode hw hh hne hpos (by omega) (by omega)
  refine ⟨s, out, hs, hout, ?_⟩
  intro x y hx hy
  obtain ⟨t, ht, f0, f1, f2⟩ := pixel_t_fl_spec hfl m s mode x y hrange hrad
  obtain ⟨c, hc⟩ := interpolate_color_fl_total hfl (clamp01 t) stops hne hpos
  have hcol : image_color_fl fl m s stops mode w (y * w + x) = c := by
    simp only [image_color_fl, pixel_number_mod w x y hx, pixel_number_div w x y hx,
      pixel_color_fl, ht, Option.bind_eq_bind, Option.some_bind, hc, Option.getD_some]
  obtain ⟨q0, q1, q2, q3⟩ := hp.2.1 (y * w + x) (pixel_number_lt w h x y hx hy)
  rw [hcol] at q0 q1 q2
  simp only [Int.cast_natCast] at f0 f1 f2
  exact ⟨t, c, f0, f1, f2, hc, q0, q1, q2, q3⟩

/-- Witness of the amended C1 with the rounding `binary64`: the `11 x 1` image in
linear mode at angle `0`. -/
theorem generate_gradient_fl_pixels_witness :
    ∃ s out, setup_fl binary64 libm_approx ((11 : Nat) : Int) ((1 : Nat) : Int) 0 0 = some s ∧
      generate_gradient_fl binary64 libm_approx (List.replicate 44 0) ((11 : Nat) : Int)
        ((1 : Nat) : Int) [ColorStop.mk 0 0 0 0, ColorStop.mk 1 90 170 180] 0 0 = some out ∧
      ∀ x y : Nat, x < 11 → y < 1 → ∃ (t : ℚ) (c : Byte × Byte × Byte),
        ((0 : Int) = 0 →
          t = binary64 (binary64 (binary64 (binary64 ((x : ℚ) * s.cos_angle)
            + binary64 ((y : ℚ) * s.sin_angle)) - s.min_coord) / s.range)) ∧
        ((0 : Int) = 1 →
          t = binary64 (binary64 (libm_approx.atan2 (binary64 ((y : ℚ) - s.cy))
            (binary64 ((x : ℚ) - s.cx)) + M_PI) / binary64 (2 * M_PI))) ∧
        ((0 : Int) ≠ 0 → (0 : Int) ≠ 1 →
          t = binary64 (libm_approx.sqrt (binary64 (binary64 (binary64 ((x : ℚ) - s.cx)
              * binary64 ((x : ℚ) - s.cx))
            + binary64 (binary64 ((y : ℚ) - s.cy) * binary64 ((y : ℚ) - s.cy))))
            / s.max_radius)) ∧
        interpolate_color_fl binary64 (clamp01 t)
          [ColorStop.mk 0 0 0 0, ColorStop.mk 1 90 170 180] = some c ∧
        out[(y * 11 + x) * 4]? = some c.1 ∧ out[(y * 11 + x) * 4 + 1]? = some c.2.1 ∧
        out[(y * 11 + x) * 4 + 2]? = some c.2.2 ∧ out[(y * 11 + x) * 4 + 3]? = some 255 :=
  generate_gradient_fl_pixels binary64_is_rounding libm_approx (List.replicate 44 0) 11 1
    [ColorStop.mk 0 0 0 0, ColorStop.mk 1 90 170 180] 0 0
    (by decide) (by decide) (by simp) (by decide!)
    (by
      intro s hs
      simp only [List.mem_cons, List.mem_singleton, List.not_mem_nil, or_false] at hs
      rcases hs with rfl | rfl <;> norm_num)
    (by norm_num) (by decide) (by decide)

end Gradia
